import Mathlib

/-!
# AlphaSimR meiosis engine: interval search, gamete formation, crossing

A shallow embedding of `src/meiosis.cpp` and of the accessors of
`src/getGeno.cpp`, and the properties of their functions.

Conventions of the embedding

* `double` map positions and crossover positions are rationals: the code only
  compares them, scales a map by a factor and multiplies a uniform draw by the
  map length.  NaN, infinities and rounding are outside the model.
* `int` variables are unbounded integers (vectors are far shorter than `2^30`,
  so `left + right` does not overflow).  `truncDiv2` is the C++ division by 2,
  which truncates toward zero.
* A read or write outside a vector is undefined behaviour (or an Armadillo
  bounds error); every function that can meet one returns `Option`, and `none`
  stands for that outcome.
* The outcomes of the random draws of one `bivalent` call are an explicit
  argument (`GameteDraws`); so are the outcomes of the founder draws `d(g)` of
  `crossPedigree`, one per evaluation of `d(g)`.
* `unsigned char` cells hold naturals; where the code adds cells (`arma::sum`),
  the sum is taken modulo 256.
* `bivalentLog` is `bivalent` with a record of its searches and assignments;
  dropping the record gives `bivalent` (`bivalentLog_fst`).
* `crossPedigreeGen` is `crossPedigree` with the generator `g` of its founder
  draws in the state; one evaluation of `d(g)` is a parameter, since the
  standard library fixes it, not this code (`uniformIntDraw` is the one of
  libstdc++), and so is the order in which the two arguments of a call are
  evaluated, which the language leaves to the compiler.
-/

namespace AlphaSimR

/-! ## Vector reads with an `int` index -/

/-- The read `x[i]` for an `int` index `i`; `none` when `i` is outside `0 .. n_elem-1`. -/
def readAt {α : Type} (x : List α) (i : Int) : Option α :=
  if i < 0 then none else x[i.toNat]?

/-- C++ `a / 2` on `int`: the quotient truncated toward zero. -/
def truncDiv2 (a : Int) : Int :=
  if 0 ≤ a then a / 2 else -((-a) / 2)

/-! ## `intervalSearch` (meiosis.cpp, lines 12-47) -/

/-- The inner loop of lines 32-37, entered with `left < end`:
`while(x[left+1]==value){ left += 1; if(left==end) break; }`; the result is
the value of `left` when the loop is left. -/
def tieLoop (x : List ℚ) (value : ℚ) (endI : Int) (left : Int) : Option Int :=
  match h : readAt x (left + 1) with
  | none => none
  | some v =>
    if v = value then
      if left + 1 = endI then some (left + 1) else tieLoop x value endI (left + 1)
    else some left
termination_by (x.length - left).toNat
decreasing_by
  have hb : 0 ≤ left + 1 ∧ left + 1 < x.length := by
    unfold readAt at h
    split at h
    · cases h
    · have := (List.getElem?_eq_some_iff.mp h).1
      omega
  omega

/-- The search loop of lines 25-45, `while((right-left)>1)`, with the current
`left` and `right`; the result is the value of `left` when the loop is left
(by its condition or by the `break` of line 39). -/
def searchLoop (x : List ℚ) (value : ℚ) (endI : Int) (left right : Int) : Option Int :=
  if hgap : right - left > 1 then
    match readAt x (truncDiv2 (left + right)) with
    | none => none
    | some xm =>
      if xm = value then
        if truncDiv2 (left + right) < endI then
          tieLoop x value endI (truncDiv2 (left + right))
        else some (truncDiv2 (left + right))
      else if xm > value then searchLoop x value endI left (truncDiv2 (left + right))
      else searchLoop x value endI (truncDiv2 (left + right)) right
  else some left
termination_by (right - left).toNat
decreasing_by
  all_goals simp_wf
  all_goals unfold truncDiv2
  all_goals split <;> omega

/-- The function `intervalSearch(x, value, left)`. -/
def intervalSearch (x : List ℚ) (value : ℚ) (left : Int) : Option Int :=
  match readAt x left with
  | none => none
  | some xl =>
    if xl > value then some (-1)
    else
      match readAt x ((x.length : Int) - 1) with
      | none => none
      | some xe =>
        if xe ≤ value then some ((x.length : Int) - 1)
        else searchLoop x value ((x.length : Int) - 1) left ((x.length : Int) - 1)

/-! ## `bivalent` (meiosis.cpp, lines 50-103) -/

/-- One `unsigned char` storage cell: `some a` holds the allele `a`, `none` is
a cell of a freshly allocated `Col`/`Cube` that nothing has written yet. -/
abbrev Cell := Option Nat

/-- The random draws of one `bivalent` call: `randu` are the `nCO` uniform
draws of line 66 (so `nCO = randu.length` is the Poisson draw of line 56) and
`coin` is the outcome of `Rcpp::rbinom(1,1,0.5)` (`true` for 1). -/
structure GameteDraws where
  randu : List ℚ
  coin : Bool

/-- The assignment `gamete(span(a,b)) = chr(span(a,b))`; `none` when the span
is not inside both vectors. -/
def copySpan (gamete chr : List Cell) (a b : Int) : Option (List Cell) :=
  if 0 ≤ a ∧ a ≤ b ∧ b < gamete.length ∧ b < chr.length then
    some ((List.range gamete.length).map fun (j : Nat) =>
      if a ≤ (j : Int) ∧ (j : Int) ≤ b then chr.getD j none else gamete.getD j none)
  else none

/-- The chromosome that `readChr` selects: `chr1` when it is non-zero. -/
def activeChr (chr1 chr2 : List Cell) (readChr : Nat) : List Cell :=
  if readChr ≠ 0 then chr1 else chr2

/-- The crossover positions of lines 66-68: the uniform draws scaled by the
map length and sorted ascending. -/
def crossoverPositions (genLen : ℚ) (randu : List ℚ) : List ℚ :=
  (randu.map fun u => u * genLen).insertionSort (· ≤ ·)

/-- The loop of lines 78-92 over the remaining crossover positions, from the
state `(gamete, startPos, readChr)`; the result is the state after the loop
(`endPos` equals the final `startPos`). -/
def crossoverWalk (chr1 chr2 : List Cell) (genMap : List ℚ) :
    List ℚ → List Cell → Int → Nat → Option (List Cell × Int × Nat)
  | [], gamete, startPos, readChr => some (gamete, startPos, readChr)
  | p :: rest, gamete, startPos, readChr =>
    match intervalSearch genMap p startPos with
    | none => none
    | some endPos =>
      match (if endPos > startPos then
          copySpan gamete (activeChr chr1 chr2 readChr) (startPos + 1) endPos
        else some gamete) with
      | none => none
      | some gamete1 =>
        crossoverWalk chr1 chr2 genMap rest gamete1 endPos ((readChr + 1) % 2)

/-- The function `bivalent(chr1, chr2, genMap)` with its random draws `d`. -/
def bivalent (chr1 chr2 : List Cell) (genMap : List ℚ) (d : GameteDraws) :
    Option (List Cell) :=
  match readAt genMap ((chr1.length : Int) - 1) with
  | none => none
  | some genLen =>
    if d.randu.length = 0 then
      if d.coin then some chr1 else some chr2
    else
      let readChr : Nat := if d.coin then 1 else 0
      match (activeChr chr1 chr2 readChr)[0]? with
      | none => none
      | some c0 =>
        match crossoverWalk chr1 chr2 genMap (crossoverPositions genLen d.randu)
            ((List.replicate chr1.length none).set 0 c0) 0 readChr with
        | none => none
        | some (gamete, endPos, readChr1) =>
          if endPos < (chr1.length : Int) - 1 then
            copySpan gamete (activeChr chr1 chr2 readChr1) (endPos + 1)
              ((chr1.length : Int) - 1)
          else some gamete

/-! ## The record of a `bivalent` call -/

/-- What one `bivalent` call does besides building the gamete: `searches` are
the values its `intervalSearch` calls return, in call order; `writes` are the
spans `a .. b` of `gamete` that its assignments write (and of the homolog that
they read), in the order of the assignments. -/
structure GameteLog where
  searches : List Int
  writes : List (Int × Int)
deriving DecidableEq

/-- The loop of lines 78-92 as in `crossoverWalk`, together with the record of
its `intervalSearch` results (line 79) and of the spans it assigns (lines 84
and 86). -/
def crossoverWalkLog (chr1 chr2 : List Cell) (genMap : List ℚ) :
    List ℚ → List Cell → Int → Nat → Option ((List Cell × Int × Nat) × GameteLog)
  | [], gamete, startPos, readChr => some ((gamete, startPos, readChr), ⟨[], []⟩)
  | p :: rest, gamete, startPos, readChr =>
    match intervalSearch genMap p startPos with
    | none => none
    | some endPos =>
      match (if endPos > startPos then
          copySpan gamete (activeChr chr1 chr2 readChr) (startPos + 1) endPos
        else some gamete) with
      | none => none
      | some gamete1 =>
        match crossoverWalkLog chr1 chr2 genMap rest gamete1 endPos ((readChr + 1) % 2) with
        | none => none
        | some (st, log) =>
          some (st, ⟨endPos :: log.searches,
            (if endPos > startPos then [(startPos + 1, endPos)] else []) ++ log.writes⟩)

/-- The function `bivalent(chr1, chr2, genMap)` once more, returning with the
gamete the record of its `intervalSearch` results and of the spans of `gamete`
it assigns: the whole
vector for `gamete = chr1` or `gamete = chr2` (lines 60, 62), the element 0
(lines 74, 76), the spans of the loop, and the tail (lines 96, 98). -/
def bivalentLog (chr1 chr2 : List Cell) (genMap : List ℚ) (d : GameteDraws) :
    Option (List Cell × GameteLog) :=
  match readAt genMap ((chr1.length : Int) - 1) with
  | none => none
  | some genLen =>
    if d.randu.length = 0 then
      if d.coin then some (chr1, ⟨[], [(0, (chr1.length : Int) - 1)]⟩)
      else some (chr2, ⟨[], [(0, (chr2.length : Int) - 1)]⟩)
    else
      let readChr : Nat := if d.coin then 1 else 0
      match (activeChr chr1 chr2 readChr)[0]? with
      | none => none
      | some c0 =>
        match crossoverWalkLog chr1 chr2 genMap (crossoverPositions genLen d.randu)
            ((List.replicate chr1.length none).set 0 c0) 0 readChr with
        | none => none
        | some ((gamete, endPos, readChr1), log) =>
          if endPos < (chr1.length : Int) - 1 then
            match copySpan gamete (activeChr chr1 chr2 readChr1) (endPos + 1)
              ((chr1.length : Int) - 1) with
            | none => none
            | some gamete1 =>
              some (gamete1, ⟨log.searches,
                (0, 0) :: log.writes ++ [(endPos + 1, (chr1.length : Int) - 1)]⟩)
          else some (gamete, ⟨log.searches, (0, 0) :: log.writes⟩)

/-! ## Genotype stores: `arma::field<arma::Cube<unsigned char>>` -/

/-- One chromosome block, an `arma::Cube<unsigned char>` of `n_rows` loci by
`n_cols` homologs by `n_slices` individuals; `cell r c s` is the element
`(r, c, s)`. -/
structure Cube where
  n_rows : Nat
  n_cols : Nat
  n_slices : Nat
  cell : Nat → Nat → Nat → Cell

/-- The constructor `Cube(n_rows, n_cols, n_slices)`: nothing is written yet. -/
def Cube.fresh (n_rows n_cols n_slices : Nat) : Cube :=
  ⟨n_rows, n_cols, n_slices, fun _ _ _ => none⟩

/-- The read `cube.slice(s).col(c)`; `none` when the slice or the column is out of bounds. -/
def Cube.col (cube : Cube) (s c : Nat) : Option (List Cell) :=
  if s < cube.n_slices ∧ c < cube.n_cols then
    some ((List.range cube.n_rows).map fun r => cube.cell r c s)
  else none

/-- The assignment `cube.slice(s).col(c) = v`; `none` when the slice or the
column is out of bounds or `v` has not `n_rows` elements. -/
def Cube.setCol (cube : Cube) (s c : Nat) (v : List Cell) : Option Cube :=
  if s < cube.n_slices ∧ c < cube.n_cols ∧ v.length = cube.n_rows then
    some { cube with cell := fun r c1 s1 =>
      if s1 = s ∧ c1 = c then v.getD r none else cube.cell r c1 s1 }
  else none

/-- Width in bits of `arma::uword`, the element type of the parent index
vectors.  The header that fixes it (`alphasimr.h`) is not among the sources; 64
is the Armadillo default on 64-bit platforms, and nothing below depends on the
value. -/
def uwordBits : Nat := 64

/-- The element-wise `v -= 1` on an `arma::uvec` entry: unsigned, so `0 - 1` wraps. -/
def uwordPred (v : Nat) : Nat := (v + 2 ^ uwordBits - 1) % 2 ^ uwordBits

/-- The factor `femaleRecRate = 2/(1/recombRatio+1)` (faithful to the `double`
expression for `recombRatio > 0`, the documented range). -/
def femaleRecRate (recombRatio : ℚ) : ℚ := 2 / (1 / recombRatio + 1)

/-- The factor `maleRecRate = 2/(recombRatio+1)`. -/
def maleRecRate (recombRatio : ℚ) : ℚ := 2 / (recombRatio + 1)

/-- The product `rate * genMap` of a scalar and a map. -/
def scaleMap (rate : ℚ) (genMap : List ℚ) : List ℚ := genMap.map fun y => rate * y

/-! ## `cross2` (meiosis.cpp, lines 112-149) -/

/-- The body of the individual loop of `cross2` (lines 135-144) for the
offspring `ind` on chromosome `chr`: `mGeno` is `motherGeno(chr)`, `mother` and
`father` are the index vectors after `-= 1`, `dr ind 0` and `dr ind 1` the draws
of the female and of the male gamete. -/
def cross2Ind (mGeno : Cube) (fatherGeno : List Cube) (chr : Nat) (mother father : List Nat)
    (femaleMap maleMap : List ℚ) (dr : Nat → Nat → GameteDraws) (tmpGeno : Cube)
    (ind : Nat) : Option Cube := do
  let m ← mother[ind]?
  let m0 ← mGeno.col m 0
  let m1 ← mGeno.col m 1
  let female ← bivalent m0 m1 femaleMap (dr ind 0)
  let tmp1 ← tmpGeno.setCol ind 0 female
  let fGeno ← fatherGeno[chr]?
  let f ← father[ind]?
  let f0 ← fGeno.col f 0
  let f1 ← fGeno.col f 1
  let male ← bivalent f0 f1 maleMap (dr ind 1)
  tmp1.setCol ind 1 male

/-- The body of the chromosome loop of `cross2` (lines 129-146): the block of
chromosome `chr` of the offspring. -/
def cross2Chr (motherGeno : List Cube) (mother : List Nat) (fatherGeno : List Cube)
    (father : List Nat) (genMaps : List (List ℚ)) (recombRatio : ℚ)
    (draws : Nat → Nat → Nat → GameteDraws) (chr : Nat) : Option Cube := do
  let genMap ← genMaps[chr]?
  let mGeno ← motherGeno[chr]?
  (List.range mother.length).foldlM
    (cross2Ind mGeno fatherGeno chr mother father (scaleMap (femaleRecRate recombRatio) genMap)
      (scaleMap (maleRecRate recombRatio) genMap) (draws chr))
    (Cube.fresh mGeno.n_rows 2 mother.length)

/-- The function `cross2`; `mother` and `father` are the 1-based index vectors
as passed by the caller, `draws chr ind 0` and `draws chr ind 1` are the draws
of the female and the male gamete of offspring `ind` on chromosome `chr`. -/
def cross2 (motherGeno : List Cube) (mother : List Nat) (fatherGeno : List Cube)
    (father : List Nat) (genMaps : List (List ℚ)) (recombRatio : ℚ)
    (draws : Nat → Nat → Nat → GameteDraws) : Option (List Cube) :=
  (List.range motherGeno.length).mapM
    (cross2Chr motherGeno (mother.map uwordPred) fatherGeno (father.map uwordPred) genMaps
      recombRatio draws)

/-! ## `createDH2` (meiosis.cpp, lines 153-185) -/

/-- The body of the `nDH` loop of `createDH2` (lines 173-179) for source
individual `ind` and replicate `i`. -/
def createDH2Rep (g : Cube) (nDH : Nat) (genMap : List ℚ) (dr : Nat → Nat → GameteDraws)
    (ind : Nat) (tmp : Cube) (i : Nat) : Option Cube := do
  let c0 ← g.col ind 0
  let c1 ← g.col ind 1
  let gamete ← bivalent c0 c1 genMap (dr ind i)
  let tmp0 ← tmp.setCol (i + ind * nDH) 0 gamete
  tmp0.setCol (i + ind * nDH) 1 gamete

/-- The body of the chromosome loop of `createDH2` (lines 168-182).  `nInd` is
the `int` of line 158; a negative `nInd*nDH` is no valid cube size (the
allocation fails), and with `nInd*nDH ≥ 0` the inner loops run
`nInd` and `nDH` times. -/
def createDH2Chr (geno : List Cube) (nInd nDH : Int) (genMaps : List (List ℚ)) (ratio : ℚ)
    (draws : Nat → Nat → Nat → GameteDraws) (chr : Nat) : Option Cube := do
  let genMap ← genMaps[chr]?
  let g ← geno[chr]?
  if nInd * nDH < 0 then none
  else
    (List.range nInd.toNat).foldlM
      (fun tmp ind =>
        (List.range nDH.toNat).foldlM
          (createDH2Rep g nDH.toNat (scaleMap ratio genMap) (draws chr) ind) tmp)
      (Cube.fresh g.n_rows 2 (nInd * nDH).toNat)

/-- The function `createDH2`; `draws chr ind i` are the draws of replicate `i`
of source individual `ind` on chromosome `chr`. -/
def createDH2 (geno : List Cube) (nDH : Int) (genMaps : List (List ℚ)) (recombRatio : ℚ)
    (useFemale : Bool) (draws : Nat → Nat → Nat → GameteDraws) : Option (List Cube) := do
  let g0 ← geno[0]?
  (List.range geno.length).mapM
    (createDH2Chr geno (g0.n_slices : Int) nDH genMaps
      (if useFemale then femaleRecRate recombRatio else maleRecRate recombRatio) draws)

/-! ## `crossPedigree` (meiosis.cpp, lines 194-255) -/

/-- An `int` converted to `arma::uword` by the usual arithmetic conversions
(reduction modulo `2^uwordBits`); `uwordOfInt (-1)` is the right-hand side of
the comparisons `mother(ind) == -1` and `father(ind) == -1`. -/
def uwordOfInt (i : Int) : Nat := (i % 2 ^ uwordBits).toNat

/-- The two columns handed to `bivalent` for one parent (lines 222-235 for the
mother, 236-250 for the father): `ref` is the parent reference after `-= 1`,
`d0` and `d1` are the outcomes of the two evaluations of `d(g)`, the one inside
the first argument and the one inside the second argument. -/
def pedigreeSource (fGeno tmpGeno : Cube) (ref d0 d1 : Nat) : Option (List Cell × List Cell) :=
  if ref = uwordOfInt (-1) then do
    let c0 ← fGeno.col d0 0
    let c1 ← fGeno.col d1 1
    some (c0, c1)
  else do
    let c0 ← tmpGeno.col ref 0
    let c1 ← tmpGeno.col ref 1
    some (c0, c1)

/-- The body of the individual loop of `crossPedigree` (lines 222-250) for the
entry `ind`: `fGeno` is `founders(chr)`, `mother` and `father` are the reference
vectors after `-= 1`, `dr ind 0` and `dr ind 1` are the draws of the female and
of the male gamete, `fd ind role k` is the outcome of the evaluation of `d(g)`
inside argument `k` of the `bivalent` call of role `role`. -/
def crossPedigreeInd (fGeno : Cube) (mother father : List Nat) (femaleMap maleMap : List ℚ)
    (dr : Nat → Nat → GameteDraws) (fd : Nat → Nat → Nat → Nat) (tmpGeno : Cube)
    (ind : Nat) : Option Cube := do
  let m ← mother[ind]?
  let ms ← pedigreeSource fGeno tmpGeno m (fd ind 0 0) (fd ind 0 1)
  let female ← bivalent ms.1 ms.2 femaleMap (dr ind 0)
  let tmp1 ← tmpGeno.setCol ind 0 female
  let f ← father[ind]?
  let fs ← pedigreeSource fGeno tmp1 f (fd ind 1 0) (fd ind 1 1)
  let male ← bivalent fs.1 fs.2 maleMap (dr ind 1)
  tmp1.setCol ind 1 male

/-- The body of the chromosome loop of `crossPedigree` (lines 216-252). -/
def crossPedigreeChr (founders : List Cube) (mother father : List Nat)
    (genMaps : List (List ℚ)) (recombRatio : ℚ) (draws : Nat → Nat → Nat → GameteDraws)
    (fdraws : Nat → Nat → Nat → Nat → Nat) (chr : Nat) : Option Cube := do
  let fGeno ← founders[chr]?
  let genMap ← genMaps[chr]?
  (List.range mother.length).foldlM
    (crossPedigreeInd fGeno mother father (scaleMap (femaleRecRate recombRatio) genMap)
      (scaleMap (maleRecRate recombRatio) genMap) (draws chr) (fdraws chr))
    (Cube.fresh fGeno.n_rows 2 mother.length)

/-- The function `crossPedigree`; `mother` and `father` are the 1-based
reference vectors as passed by the caller, `draws chr ind role` are the draws of
a gamete and `fdraws chr ind role k` the outcomes of the founder draws `d(g)`
(line 210 reads `founders(0)`, so the store must have a first block). -/
def crossPedigree (founders : List Cube) (mother father : List Nat)
    (genMaps : List (List ℚ)) (recombRatio : ℚ) (draws : Nat → Nat → Nat → GameteDraws)
    (fdraws : Nat → Nat → Nat → Nat → Nat) : Option (List Cube) := do
  let _ ← founders[0]?
  (List.range founders.length).mapM
    (crossPedigreeChr founders (mother.map uwordPred) (father.map uwordPred) genMaps
      recombRatio draws fdraws)

/-! ## `crossPedigree` with its founder generator (meiosis.cpp, lines 207-210) -/

/-- The evaluations of `d(g)` inside the two arguments of one `bivalent` call
(lines 225-226 for the mother, 239-240 for the father), from the state `s` of
the generator `g`: the founder drawn for the first argument, the founder drawn
for the second argument and the state of `g` afterwards.  `gen s` is one
evaluation of `d(g)` in state `s`, the index drawn and the next state.  No draw
happens for a recorded parent.  C++ leaves the order in which the arguments of
a call are evaluated to the compiler: with `firstArgFirst` the evaluation
inside the first argument takes the first value of `g`, without it the
evaluation inside the second argument does (as in code compiled by g++). -/
def founderPair (firstArgFirst : Bool) (gen : Nat → Nat × Nat) (ref s : Nat) :
    Nat × Nat × Nat :=
  if ref = uwordOfInt (-1) then
    if firstArgFirst then ((gen s).1, (gen (gen s).2).1, (gen (gen s).2).2)
    else ((gen (gen s).2).1, (gen s).1, (gen (gen s).2).2)
  else (0, 0, s)

/-- The founder indices that `founderPair` draws, in the order of the draws. -/
def pairDrawn (gen : Nat → Nat × Nat) (ref s : Nat) : List Nat :=
  if ref = uwordOfInt (-1) then [(gen s).1, (gen (gen s).2).1] else []

/-- The state of `g` after the draws of `founderPair`. -/
def pairState (gen : Nat → Nat × Nat) (ref s : Nat) : Nat :=
  if ref = uwordOfInt (-1) then (gen (gen s).2).2 else s

/-- The body of the individual loop of `crossPedigree` (lines 222-250) as in
`crossPedigreeInd`, with the generator `g` in the state: `st` is the block under
construction, the state of `g` and the founder indices drawn so far;
`order ind role` is the order of evaluation of the arguments of the `bivalent`
call of role `role` of entry `ind`. -/
def crossPedigreeIndGen (order : Nat → Nat → Bool) (gen : Nat → Nat × Nat) (fGeno : Cube)
    (mother father : List Nat) (femaleMap maleMap : List ℚ) (dr : Nat → Nat → GameteDraws)
    (st : Cube × Nat × List Nat) (ind : Nat) : Option (Cube × Nat × List Nat) := do
  let m ← mother[ind]?
  let dm := founderPair (order ind 0) gen m st.2.1
  let ms ← pedigreeSource fGeno st.1 m dm.1 dm.2.1
  let female ← bivalent ms.1 ms.2 femaleMap (dr ind 0)
  let tmp1 ← st.1.setCol ind 0 female
  let f ← father[ind]?
  let df := founderPair (order ind 1) gen f dm.2.2
  let fs ← pedigreeSource fGeno tmp1 f df.1 df.2.1
  let male ← bivalent fs.1 fs.2 maleMap (dr ind 1)
  let tmp2 ← tmp1.setCol ind 1 male
  some (tmp2, df.2.2, st.2.2 ++ pairDrawn gen m st.2.1 ++ pairDrawn gen f dm.2.2)

/-- The body of the chromosome loop of `crossPedigree` (lines 216-252), with
the generator: `st` is the list of the blocks built so far, the state of `g` and
the founder indices drawn so far. -/
def crossPedigreeChrGen (order : Nat → Nat → Nat → Bool) (gen : Nat → Nat × Nat)
    (founders : List Cube) (mother father : List Nat) (genMaps : List (List ℚ))
    (recombRatio : ℚ) (draws : Nat → Nat → Nat → GameteDraws)
    (st : List Cube × Nat × List Nat) (chr : Nat) : Option (List Cube × Nat × List Nat) := do
  let fGeno ← founders[chr]?
  let genMap ← genMaps[chr]?
  let r ← (List.range mother.length).foldlM
    (crossPedigreeIndGen (order chr) gen fGeno mother father
      (scaleMap (femaleRecRate recombRatio) genMap)
      (scaleMap (maleRecRate recombRatio) genMap) (draws chr))
    (Cube.fresh fGeno.n_rows 2 mother.length, st.2.1, st.2.2)
  some (st.1 ++ [r.1], r.2.1, r.2.2)

/-- The function `crossPedigree` with its generator: `seed` is the state of the
default-constructed `g` of line 208 and `dist n s` one evaluation of `d(g)` for
a distribution over `n` founders (`D d(0, founders(0).n_slices-1)`, line 210)
with `g` in state `s`; `order chr ind role` is the order in which the two
arguments of a `bivalent` call with founder draws are evaluated (see
`founderPair`).  The result is the store, the final state of `g` and the
founder indices drawn, in the order of the draws. -/
def crossPedigreeGen (order : Nat → Nat → Nat → Bool) (dist : Nat → Nat → Nat × Nat)
    (seed : Nat) (founders : List Cube) (mother father : List Nat) (genMaps : List (List ℚ))
    (recombRatio : ℚ) (draws : Nat → Nat → Nat → GameteDraws) :
    Option (List Cube × Nat × List Nat) := do
  let g0 ← founders[0]?
  (List.range founders.length).foldlM
    (crossPedigreeChrGen order (dist g0.n_slices) founders (mother.map uwordPred)
      (father.map uwordPred) genMaps recombRatio draws)
    ([], seed, [])

/-! ## The generator `g` and the distribution `d` on libstdc++ -/

/-- One step of `std::minstd_rand`, the engine
`linear_congruential_engine<uint_fast32_t, 48271, 0, 2147483647>` of the C++
standard: the next state, which is also the value the engine returns. -/
def minstdNext (s : Nat) : Nat := 48271 * s % 2147483647

/-- The state of a default-constructed `std::minstd_rand` (`default_seed`). -/
def minstdSeed : Nat := 1

/-- One evaluation of `d(g)` for `std::uniform_int_distribution<>(0, n-1)` on a
`std::minstd_rand` in state `s`, as libstdc++ implements it (the standard
leaves the algorithm open): the engine's values `1 .. 2147483646` are shifted
to `0 .. 2147483645`, a value at or past `n * scaling` is rejected and the
engine stepped again, an accepted value is divided by
`scaling = 2147483645 / n`.  `fuel` bounds the number of rejections. -/
def uniformIntDraw (n : Nat) : Nat → Nat → Nat × Nat
  | 0, s => (0, s)
  | fuel + 1, s =>
    if minstdNext s - 1 ≥ n * (2147483645 / n) then uniformIntDraw n fuel (minstdNext s)
    else ((minstdNext s - 1) / (2147483645 / n), minstdNext s)

/-! ## Genotype accessors (getGeno.cpp) -/

/-- An `arma::Mat<unsigned char>` of `n_rows` by `n_cols`; `cell r c` is the
element `(r, c)`. -/
structure Mat where
  n_rows : Nat
  n_cols : Nat
  cell : Nat → Nat → Cell

/-- The constructor `Mat(n_rows, n_cols)`: nothing is written yet. -/
def Mat.fresh (n_rows n_cols : Nat) : Mat :=
  ⟨n_rows, n_cols, fun _ _ => none⟩

/-- The sub-vector `v(arma::span(a, b))`; `none` when the span is not inside `v`. -/
def spanOf (v : List Nat) (a b : Int) : Option (List Nat) :=
  if 0 ≤ a ∧ a ≤ b ∧ b < v.length then some ((v.drop a.toNat).take (b - a + 1).toNat)
  else none

/-- Addition of two `unsigned char` cells: modulo 256; indeterminate when a
cell is not written. -/
def add8 (a b : Cell) : Cell :=
  match a, b with
  | some x, some y => some ((x + y) % 256)
  | _, _ => none

/-- Element `(r, s)` of `arma::sum(g, 1)`: the cells of locus `r` of individual
`s` added up over the homolog columns, in the element type `unsigned char`. -/
def sumHomologs (g : Cube) (r s : Nat) : Cell :=
  (List.range g.n_cols).foldl (fun acc h => add8 acc (g.cell r h s)) (some 0)

/-- One pass of the chromosome loop that the three accessors share (`getGeno`
lines 21-33, `getHaplo` lines 58-71, `getOneHaplo` lines 93-105), for the
chromosome `i` and the state `(output, loc2)`; `lociLoc` is the vector after
`-= 1` and `block g chrLociLoc loc1 loc2 output` stands for the statements that
fill the columns `loc1 .. loc2` of `output` from the block `g = geno(i)`. -/
def selectChr (block : Cube → List Nat → Int → Int → Mat → Option Mat) (geno : List Cube)
    (lociPerChr : List Int) (lociLoc : List Nat) (st : Mat × Int) (i : Nat) :
    Option (Mat × Int) := do
  let n ← lociPerChr[i]?
  if n > 0 then do
    let chrLociLoc ← spanOf lociLoc (st.2 + 1) (st.2 + n)
    let g ← geno[i]?
    let out ← block g chrLociLoc (st.2 + 1) (st.2 + n) st.1
    some (out, st.2 + n)
  else some st

/-- Lines 28-31 of `getGeno`: `tmp = arma::sum(geno(i),1)` (a matrix of loci by
individuals) and `output.cols(loc1,loc2) = (tmp.rows(chrLociLoc)).t()`. -/
def genoBlock (g : Cube) (chrLociLoc : List Nat) (loc1 loc2 : Int) (output : Mat) :
    Option Mat :=
  if (∀ l ∈ chrLociLoc, l < g.n_rows) ∧ loc2 < output.n_cols ∧ g.n_slices = output.n_rows then
    some ⟨output.n_rows, output.n_cols, fun r c =>
      if r < output.n_rows ∧ loc1 ≤ (c : Int) ∧ (c : Int) ≤ loc2 then
        sumHomologs g (chrLociLoc.getD ((c : Int) - loc1).toNat 0) r
      else output.cell r c⟩
  else none

/-- The function `getGeno`; `lociLoc` is the 1-based vector as passed by the caller. -/
def getGeno (geno : List Cube) (lociPerChr : List Int) (lociLoc : List Nat) : Option Mat :=
  match geno[0]? with
  | none => none
  | some g0 =>
    if lociPerChr.sum < 0 then none
    else
      ((List.range geno.length).foldlM
        (selectChr genoBlock geno lociPerChr (lociLoc.map uwordPred))
        (Mat.fresh g0.n_slices lociPerChr.sum.toNat, -1)).map fun st => st.1

/-- Lines 66-68 of `getHaplo` for the individual `ind`:
`output(span(ind*ploidy,(ind+1)*ploidy-1), span(loc1,loc2)) =
(geno(i).slice(ind).rows(chrLociLoc)).t()`. -/
def haploInd (g : Cube) (chrLociLoc : List Nat) (ploidy : Nat) (loc1 loc2 : Int) (output : Mat)
    (ind : Nat) : Option Mat :=
  if ind < g.n_slices ∧ (∀ l ∈ chrLociLoc, l < g.n_rows) ∧ g.n_cols = ploidy ∧ 1 ≤ ploidy ∧
      (ind + 1) * ploidy ≤ output.n_rows ∧ loc2 < output.n_cols then
    some ⟨output.n_rows, output.n_cols, fun r c =>
      if ind * ploidy ≤ r ∧ r < (ind + 1) * ploidy ∧ loc1 ≤ (c : Int) ∧ (c : Int) ≤ loc2 then
        g.cell (chrLociLoc.getD ((c : Int) - loc1).toNat 0) (r - ind * ploidy) ind
      else output.cell r c⟩
  else none

/-- The individual loop of `getHaplo` (lines 65-69). -/
def haploBlock (nInd ploidy : Nat) (g : Cube) (chrLociLoc : List Nat) (loc1 loc2 : Int)
    (output : Mat) : Option Mat :=
  (List.range nInd).foldlM (haploInd g chrLociLoc ploidy loc1 loc2) output

/-- The function `getHaplo`. -/
def getHaplo (geno : List Cube) (lociPerChr : List Int) (lociLoc : List Nat) : Option Mat :=
  match geno[0]? with
  | none => none
  | some g0 =>
    if lociPerChr.sum < 0 then none
    else
      ((List.range geno.length).foldlM
        (selectChr (haploBlock g0.n_slices g0.n_cols) geno lociPerChr (lociLoc.map uwordPred))
        (Mat.fresh (g0.n_slices * g0.n_cols) lociPerChr.sum.toNat, -1)).map fun st => st.1

/-- Lines 101-102 of `getOneHaplo` for the individual `ind`:
`output(ind, span(loc1,loc2)) = (geno(i).slice(ind).submat(chrLociLoc,colSel)).t()`. -/
def oneHaploInd (g : Cube) (chrLociLoc : List Nat) (colSel : Nat) (loc1 loc2 : Int)
    (output : Mat) (ind : Nat) : Option Mat :=
  if ind < g.n_slices ∧ (∀ l ∈ chrLociLoc, l < g.n_rows) ∧ colSel < g.n_cols ∧
      ind < output.n_rows ∧ loc2 < output.n_cols then
    some ⟨output.n_rows, output.n_cols, fun r c =>
      if r = ind ∧ loc1 ≤ (c : Int) ∧ (c : Int) ≤ loc2 then
        g.cell (chrLociLoc.getD ((c : Int) - loc1).toNat 0) colSel ind
      else output.cell r c⟩
  else none

/-- The individual loop of `getOneHaplo` (lines 100-103). -/
def oneHaploBlock (nInd colSel : Nat) (g : Cube) (chrLociLoc : List Nat) (loc1 loc2 : Int)
    (output : Mat) : Option Mat :=
  (List.range nInd).foldlM (oneHaploInd g chrLociLoc colSel loc1 loc2) output

/-- The function `getOneHaplo`; `haplo` is the 1-based `int` selector, and
`colSel(0) = haplo` after `haplo -= 1` converts it to `arma::uword`. -/
def getOneHaplo (geno : List Cube) (lociPerChr : List Int) (lociLoc : List Nat) (haplo : Int) :
    Option Mat :=
  match geno[0]? with
  | none => none
  | some g0 =>
    if lociPerChr.sum < 0 then none
    else
      ((List.range geno.length).foldlM
        (selectChr (oneHaploBlock g0.n_slices (uwordOfInt (haplo - 1))) geno lociPerChr
          (lociLoc.map uwordPred))
        (Mat.fresh g0.n_slices lociPerChr.sum.toNat, -1)).map fun st => st.1

/-! ## Definitions used to state the properties -/

/-- The position `x[i]` as a total function of an `int` index (0 outside the vector). -/
def posAt (x : List ℚ) (i : Int) : ℚ := x.getD i.toNat 0

/-- The number of crossover positions strictly below the position `y`. -/
def crossoversBelow (ps : List ℚ) (y : ℚ) : Nat :=
  ps.countP fun p => decide (p < y)

/-- The value of `readChr` that the coin of line 72 gives. -/
def coinChr (coin : Bool) : Nat := if coin then 1 else 0

/-- The chromosome the coin starts the gamete on: `chr1` for 1, `chr2` for 0. -/
def startChr (chr1 chr2 : List Cell) (coin : Bool) : List Cell :=
  if coin then chr1 else chr2

/-- The homolog the coin did not pick. -/
def otherChr (chr1 chr2 : List Cell) (coin : Bool) : List Cell :=
  if coin then chr2 else chr1

/-- Output individual `t` of a `createDH2` block holds, in both homologs, the
gamete of replicate `t % nDH` of source individual `t / nDH`. -/
def DHWritten (g : Cube) (nDH : Nat) (genMap : List ℚ) (dr : Nat → Nat → GameteDraws)
    (tmp : Cube) (t : Nat) : Prop :=
  ∃ c0 c1 gamete, g.col (t / nDH) 0 = some c0 ∧ g.col (t / nDH) 1 = some c1 ∧
    bivalent c0 c1 genMap (dr (t / nDH) (t % nDH)) = some gamete ∧
    tmp.col t 0 = some gamete ∧ tmp.col t 1 = some gamete

/-- Offspring `i` of a `cross2` block holds in homolog 0 the gamete of the
individual `mother[i]` of `mGeno` under `femaleMap`, and in homolog 1 the gamete
of the individual `father[i]` of `fatherGeno(chr)` under `maleMap` (`mother` and
`father` are the 0-based index vectors). -/
def CrossWritten (mGeno : Cube) (fatherGeno : List Cube) (chr : Nat) (mother father : List Nat)
    (femaleMap maleMap : List ℚ) (dr : Nat → Nat → GameteDraws) (tmp : Cube) (i : Nat) : Prop :=
  ∃ m f fGeno m0 m1 f0 f1 female male,
    mother[i]? = some m ∧ father[i]? = some f ∧ fatherGeno[chr]? = some fGeno ∧
    mGeno.col m 0 = some m0 ∧ mGeno.col m 1 = some m1 ∧
    fGeno.col f 0 = some f0 ∧ fGeno.col f 1 = some f1 ∧
    bivalent m0 m1 femaleMap (dr i 0) = some female ∧
    bivalent f0 f1 maleMap (dr i 1) = some male ∧
    tmp.col i 0 = some female ∧ tmp.col i 1 = some male

/-- The columns `c0`, `c1` are what `crossPedigree` hands to `bivalent` for a
parent reference `ref` of entry `ind`: for the sentinel, column 0 of founder `d0`
and column 1 of founder `d1`; for a reference to an earlier entry, the two
columns of that entry in `tmp`. -/
def PedSource (fGeno tmp : Cube) (ref ind d0 d1 : Nat) (c0 c1 : List Cell) : Prop :=
  (ref = uwordOfInt (-1) → fGeno.col d0 0 = some c0 ∧ fGeno.col d1 1 = some c1) ∧
  (ref ≠ uwordOfInt (-1) → ref < ind → tmp.col ref 0 = some c0 ∧ tmp.col ref 1 = some c1)

/-- Entry `i` of a `crossPedigree` block holds in homolog 0 the gamete of its
maternal source under `femaleMap` and in homolog 1 the gamete of its paternal
source under `maleMap` (`mother` and `father` are the reference vectors after
`-= 1`). -/
def PedWritten (fGeno : Cube) (mother father : List Nat) (femaleMap maleMap : List ℚ)
    (dr : Nat → Nat → GameteDraws) (fd : Nat → Nat → Nat → Nat) (tmp : Cube) (i : Nat) : Prop :=
  ∃ m f m0 m1 f0 f1 female male,
    mother[i]? = some m ∧ father[i]? = some f ∧
    PedSource fGeno tmp m i (fd i 0 0) (fd i 0 1) m0 m1 ∧
    PedSource fGeno tmp f i (fd i 1 0) (fd i 1 1) f0 f1 ∧
    bivalent m0 m1 femaleMap (dr i 0) = some female ∧
    bivalent f0 f1 maleMap (dr i 1) = some male ∧
    tmp.col i 0 = some female ∧ tmp.col i 1 = some male

/-- The first output column of chromosome `i`: the sum of the positive entries
of `lociPerChr` before `i` (the value of `loc2 + 1` when the loop reaches `i`). -/
def chrOffset (lociPerChr : List Int) (i : Nat) : Nat :=
  ((lociPerChr.take i).map Int.toNat).sum

/-- The statements `block` fill the columns `loc1 .. loc2` of an output of `R`
rows from a block `g` that satisfies `ok`: the cell in row `r` of the column of
the selected locus `l` becomes `val g l r`, all other cells are kept. -/
def BlockFills (block : Cube → List Nat → Int → Int → Mat → Option Mat) (R : Nat)
    (ok : Cube → Prop) (val : Cube → Nat → Nat → Cell) : Prop :=
  ∀ (g : Cube) (cl : List Nat) (loc1 loc2 : Int) (out : Mat), ok g →
    (∀ l ∈ cl, l < g.n_rows) → 0 ≤ loc1 → loc1 ≤ loc2 → loc2 < out.n_cols → out.n_rows = R →
    ∃ out1, block g cl loc1 loc2 out = some out1 ∧ out1.n_rows = R ∧
      out1.n_cols = out.n_cols ∧
      ∀ r c : Nat, out1.cell r c =
        if r < R ∧ loc1 ≤ (c : Int) ∧ (c : Int) ≤ loc2 then
          val g (cl.getD ((c : Int) - loc1).toNat 0) r
        else out.cell r c

/-- A locus selection for the store `geno`: one non-negative count per
chromosome, `lociLoc` holds `sum(lociPerChr)` 1-based locus numbers (values of
an `arma::uword`), and the numbers in the slice of chromosome `i` are at most
the locus count of block `i`. -/
def LociSelection (geno : List Cube) (lociPerChr : List Int) (lociLoc : List Nat) : Prop :=
  lociPerChr.length = geno.length ∧ (∀ n ∈ lociPerChr, 0 ≤ n) ∧
  (lociLoc.length : Int) = lociPerChr.sum ∧ (∀ l ∈ lociLoc, 1 ≤ l ∧ l < 2 ^ uwordBits) ∧
  ∀ i : Nat, i < geno.length → ∀ q : Nat, q < (lociPerChr.getD i 0).toNat →
    lociLoc.getD (chrOffset lociPerChr i + q) 0 ≤ (geno.getD i (Cube.fresh 0 0 0)).n_rows

/-- The sum over the homolog columns of the cells of locus `r` of individual
`s`, as a natural number (an unwritten cell counts 0). -/
def homologSum (g : Cube) (r s : Nat) : Nat :=
  ((List.range g.n_cols).map fun h => (g.cell r h s).getD 0).sum

/-- The sum, in the element type `unsigned char`, of the `ploidy` rows
`ind*ploidy .. ind*ploidy + ploidy-1` of a matrix in column `c`. -/
def rowSum8 (m : Mat) (ploidy ind c : Nat) : Cell :=
  (List.range ploidy).foldl (fun acc h => add8 acc (m.cell (ind * ploidy + h) c)) (some 0)

/-- The number of recorded assignments whose span contains the locus `j`. -/
def spanCount (writes : List (Int × Int)) (j : Nat) : Nat :=
  writes.countP fun ab => decide (ab.1 ≤ (j : Int) ∧ (j : Int) ≤ ab.2)

/-- The uniform draws of one gamete lie in the unit interval (`arma::randu`
draws from it). -/
def UnitDraws (d : GameteDraws) : Prop := ∀ u ∈ d.randu, 0 ≤ u ∧ u ≤ 1

/-- A genetic map for a chromosome of `n` loci: `n ≥ 1` positions,
non-decreasing, the first not above 0 and the last, the map length and the mean
of the Poisson draw of line 56, not below 0. -/
def MapFits (n : Nat) (x : List ℚ) : Prop :=
  1 ≤ n ∧ x.length = n ∧ x.Sorted (· ≤ ·) ∧ posAt x 0 ≤ 0 ∧ 0 ≤ posAt x ((n : Int) - 1)

/-- A store of the data model: every block has 2 homologs and `nInd` individuals. -/
def StoreShape (geno : List Cube) (nInd : Nat) : Prop :=
  ∀ g ∈ geno, g.n_cols = 2 ∧ g.n_slices = nInd

/-- One map per chromosome block, each fitting the locus count of its block. -/
def MapsFit (geno : List Cube) (genMaps : List (List ℚ)) : Prop :=
  genMaps.length = geno.length ∧
  ∀ (chr : Nat) (g : Cube) (x : List ℚ), geno[chr]? = some g → genMaps[chr]? = some x →
    MapFits g.n_rows x

/-- 1-based parent indices into a store of `nInd` individuals (values of an
`arma::uword`). -/
def ParentIndices (idx : List Nat) (nInd : Nat) : Prop :=
  ∀ m ∈ idx, 1 ≤ m ∧ m ≤ nInd ∧ m < 2 ^ uwordBits

/-- The store `output` has one block per block of `input`, and block `chr` has
the locus count of input block `chr`, 2 homologs and `nInd` individuals. -/
def ShapedLike (input output : List Cube) (nInd : Nat) : Prop :=
  output.length = input.length ∧
  ∀ chr : Nat, chr < input.length → ∃ g o, input[chr]? = some g ∧ output[chr]? = some o ∧
    o.n_rows = g.n_rows ∧ o.n_cols = 2 ∧ o.n_slices = nInd

/-- 1-based pedigree references into a pedigree of `nInd` entries: 0 stands for
"no parent recorded", a value `v ≥ 1` for entry `v - 1` (values of an
`arma::uword`). -/
def PedigreeRefs (refs : List Nat) (nInd : Nat) : Prop :=
  ∀ m ∈ refs, m ≤ nInd ∧ m < 2 ^ uwordBits

/-- A topologically ordered list of 1-based pedigree references: the reference
of entry `i` (0-based) is 0, "no parent recorded", or the number `v ≤ i` of a
strictly earlier entry `v - 1` (values of an `arma::uword`). -/
def EarlierRefs (refs : List Nat) : Prop :=
  ∀ i v : Nat, refs[i]? = some v → v ≤ i ∧ v < 2 ^ uwordBits

/-- Every cell of the block holds an allele. -/
def Written (g : Cube) : Prop :=
  ∀ r k s : Nat, r < g.n_rows → k < g.n_cols → s < g.n_slices → (g.cell r k s).isSome = true

/-- The generator alone, for one pedigree entry: the state of `g` and the
founder indices drawn after the entry `ind`, from those before it. -/
def founderTraceInd (gen : Nat → Nat × Nat) (mother father : List Nat) (s : Nat × List Nat)
    (ind : Nat) : Nat × List Nat :=
  (pairState gen (father.getD ind 0) (pairState gen (mother.getD ind 0) s.1),
    s.2 ++ pairDrawn gen (mother.getD ind 0) s.1 ++
      pairDrawn gen (father.getD ind 0) (pairState gen (mother.getD ind 0) s.1))

/-- The generator alone, for a whole call: the final state of `g` and the
founder indices drawn by a call with `nChr` chromosomes and the reference
vectors `mother`, `father` (after `-= 1`).  It depends on no crossover draw and
on no order of evaluation. -/
def founderTrace (gen : Nat → Nat × Nat) (seed nChr : Nat) (mother father : List Nat) :
    Nat × List Nat :=
  (List.range nChr).foldl
    (fun s _ => (List.range mother.length).foldl (founderTraceInd gen mother father) s)
    (seed, [])

/-- The state of `g` when the individual loop of chromosome `chr` reaches the
entry `ind`. -/
def genStateAt (gen : Nat → Nat × Nat) (seed : Nat) (mother father : List Nat)
    (chr ind : Nat) : Nat :=
  ((List.range ind).foldl (founderTraceInd gen mother father)
    (founderTrace gen seed chr mother father)).1

/-- The founder draws that the generator gives to `crossPedigree`: the outcome
of the evaluation of `d(g)` inside argument `k` of the `bivalent` call of role
`role` of entry `ind` on chromosome `chr` (`mother`, `father` are the reference
vectors after `-= 1`), under the order of evaluation `order`. -/
def genFounderDraws (order : Nat → Nat → Nat → Bool) (gen : Nat → Nat × Nat) (seed : Nat)
    (mother father : List Nat) : Nat → Nat → Nat → Nat → Nat :=
  fun chr ind role k =>
    if role = 0 then
      if k = 0 then
        (founderPair (order chr ind 0) gen (mother.getD ind 0)
          (genStateAt gen seed mother father chr ind)).1
      else
        (founderPair (order chr ind 0) gen (mother.getD ind 0)
          (genStateAt gen seed mother father chr ind)).2.1
    else
      if k = 0 then
        (founderPair (order chr ind 1) gen (father.getD ind 0)
          (pairState gen (mother.getD ind 0) (genStateAt gen seed mother father chr ind))).1
      else
        (founderPair (order chr ind 1) gen (father.getD ind 0)
          (pairState gen (mother.getD ind 0) (genStateAt gen seed mother father chr ind))).2.1

/-! ## Concrete inputs -/

/-- A two-locus founder store of two homozygous founders: founder 0 is
`00 | 00`, founder 1 is `11 | 11`. -/
def founderCube : Cube :=
  ⟨2, 2, 2, fun _ _ s => if s = 0 then some 0 else some 1⟩

/-- Draws with one crossover at half the map length and the coin on `chr1`, for every gamete. -/
def crossoverDraws : Nat → Nat → Nat → GameteDraws :=
  fun _ _ _ => ⟨[1 / 2], true⟩

/-- Founder draws for a pedigree on one chromosome with two founders: the
values `0 0 1 1 1 0 1 0` that `std::uniform_int_distribution<>(0,1)` returns in
this order on a default-constructed `std::minstd_rand` (libstdc++), assigned to
the evaluations of `d(g)` in the order of the arguments, the first argument of
a call before the second.  (Where the second argument is evaluated first, the
two values of each call change places; see `founderPair`.) -/
def stdFounderDraws : Nat → Nat → Nat → Nat → Nat :=
  fun _ ind role k => [0, 0, 1, 1, 1, 0, 1, 0].getD (4 * ind + 2 * role + k) 0

/-- A two-locus store of two individuals: individual 0 is `00 | 11`, individual 1 is `01 | 10`. -/
def demoCube : Cube :=
  ⟨2, 2, 2, fun r c s =>
    if s = 0 then (if c = 0 then some 0 else some 1)
    else (if r = c then some 0 else some 1)⟩

/-- Draws with one crossover at half the map length for the gametes of role 0
and none for the gametes of role 1. -/
def demoDraws : Nat → Nat → Nat → GameteDraws :=
  fun _ _ role => if role = 0 then ⟨[1 / 2], true⟩ else ⟨[], false⟩

/-- The full selection on a store of one block of two loci: `lociPerChr = [2]`
and the 1-based locus numbers `1, 2`. -/
def fullSelection : List Int × List Nat := ([2], [1, 2])

/-- The homolog `000` of a chromosome of three loci. -/
def zeros3 : List Cell := [some 0, some 0, some 0]

/-- The homolog `111`. -/
def ones3 : List Cell := [some 1, some 1, some 1]

/-- Two crossovers, at a quarter and at three quarters of the map length, coin on `chr1`. -/
def twoCrossovers : GameteDraws := ⟨[3 / 4, 1 / 4], true⟩

/-- The generator of a call on libstdc++: `stdFounderGen n s` is one evaluation
of `d(g)` over `n` founders in state `s`. -/
def stdFounderGen : Nat → Nat → Nat × Nat :=
  fun n s => uniformIntDraw n 64 s

/-- Draws without any crossover, the coin on `chr2`, for every gamete. -/
def plainDraws : Nat → Nat → Nat → GameteDraws :=
  fun _ _ _ => ⟨[], false⟩

/-- The first argument of every call is evaluated first. -/
def leftToRight : Nat → Nat → Nat → Bool := fun _ _ _ => true

/-- The second argument of every call is evaluated first (g++). -/
def rightToLeft : Nat → Nat → Nat → Bool := fun _ _ _ => false

/-! ## Bounds of reads and of the midpoint -/

theorem readAt_some_bounds {α : Type} {x : List α} {i : Int} {v : α}
    (h : readAt x i = some v) : 0 ≤ i ∧ i < x.length := by
  unfold readAt at h
  split at h
  · cases h
  · obtain ⟨hlt, _⟩ := List.getElem?_eq_some_iff.mp h
    omega

theorem truncDiv2_between (l r : Int) (h : r - l > 1) :
    l < truncDiv2 (l + r) ∧ truncDiv2 (l + r) < r := by
  unfold truncDiv2
  split <;> omega

/-! ## Reading positions -/

theorem readAt_eq_posAt {x : List ℚ} {i : Int} (h0 : 0 ≤ i) (h1 : i < x.length) :
    readAt x i = some (posAt x i) := by
  have hlt : i.toNat < x.length := by omega
  simp [readAt, posAt, not_lt.mpr h0, List.getD_eq_getElem?_getD, List.getElem?_eq_getElem hlt]

theorem readAt_some_posAt {x : List ℚ} {i : Int} {v : ℚ} (h : readAt x i = some v) :
    v = posAt x i := by
  obtain ⟨h0, h1⟩ := readAt_some_bounds h
  rw [readAt_eq_posAt h0 h1] at h
  exact (Option.some.inj h).symm

theorem posAt_natCast (x : List ℚ) (j : Nat) : posAt x (j : Int) = x.getD j 0 := by
  simp [posAt]

theorem sorted_getD_le {x : List ℚ} (hs : x.Sorted (· ≤ ·)) {i j : Nat} (hij : i ≤ j)
    (hj : j < x.length) : x.getD i 0 ≤ x.getD j 0 := by
  have hi : i < x.length := lt_of_le_of_lt hij hj
  rw [List.getD_eq_getElem _ _ hi, List.getD_eq_getElem _ _ hj]
  rcases Nat.eq_or_lt_of_le hij with h | h
  · subst h; exact le_refl _
  · exact (List.pairwise_iff_getElem.mp hs) i j hi hj h

theorem sorted_posAt_le {x : List ℚ} (hs : x.Sorted (· ≤ ·)) {i j : Int} (h0 : 0 ≤ i)
    (hij : i ≤ j) (hj : j < x.length) : posAt x i ≤ posAt x j := by
  unfold posAt
  exact sorted_getD_le hs (by omega) (by omega)

/-! ## The two loops of `intervalSearch` -/

theorem tieLoop_spec (x : List ℚ) (v : ℚ) (endI : Int) (hend : endI = (x.length : Int) - 1) :
    ∀ (m : Nat) (left : Int), (endI - left).toNat = m → 0 ≤ left → left < endI →
      ∃ r, tieLoop x v endI left = some r ∧ left ≤ r ∧ r ≤ endI ∧
        (posAt x left = v → posAt x r = v) ∧ (r = endI ∨ posAt x (r + 1) ≠ v) := by
  intro m
  induction m using Nat.strong_induction_on with
  | _ m ih =>
    intro left hm h0 hlt
    have hread : readAt x (left + 1) = some (posAt x (left + 1)) :=
      readAt_eq_posAt (by omega) (by omega)
    rw [tieLoop]
    split
    · rename_i hnone
      rw [hread] at hnone
      cases hnone
    · rename_i w hsome
      rw [hread] at hsome
      have hw : w = posAt x (left + 1) := (Option.some.inj hsome).symm
      subst hw
      by_cases hv : posAt x (left + 1) = v
      · rw [if_pos hv]
        by_cases he : left + 1 = endI
        · rw [if_pos he]
          exact ⟨left + 1, rfl, by omega, by omega, fun _ => hv, Or.inl he⟩
        · rw [if_neg he]
          obtain ⟨r, hr, h1, h2, h3, h4⟩ :=
            ih (endI - (left + 1)).toNat (by omega) (left + 1) rfl (by omega) (by omega)
          exact ⟨r, hr, by omega, h2, fun _ => h3 hv, h4⟩
      · rw [if_neg hv]
        exact ⟨left, rfl, le_refl _, by omega, fun h => h, Or.inr hv⟩

theorem searchLoop_spec (x : List ℚ) (v : ℚ) (endI : Int)
    (hend : endI = (x.length : Int) - 1) :
    ∀ (m : Nat) (left right : Int), (right - left).toNat = m → 0 ≤ left → left < right →
      right ≤ endI →
      ∃ r, searchLoop x v endI left right = some r ∧ left ≤ r ∧ r ≤ endI ∧
        (posAt x left ≤ v → v < posAt x right →
          posAt x r ≤ v ∧ ((r < endI ∧ v < posAt x (r + 1)) ∨
            (posAt x r = v ∧ (r = endI ∨ posAt x (r + 1) ≠ v)))) := by
  intro m
  induction m using Nat.strong_induction_on with
  | _ m ih =>
    intro left right hm h0 hlt hre
    rw [searchLoop]
    by_cases hgap : right - left > 1
    · rw [dif_pos hgap]
      obtain ⟨hm1, hm2⟩ := truncDiv2_between left right hgap
      have hread : readAt x (truncDiv2 (left + right)) =
          some (posAt x (truncDiv2 (left + right))) :=
        readAt_eq_posAt (by omega) (by omega)
      rw [hread]
      simp only []
      by_cases hv : posAt x (truncDiv2 (left + right)) = v
      · rw [if_pos hv, if_pos (by omega)]
        obtain ⟨r, hr, h1, h2, h3, h4⟩ :=
          tieLoop_spec x v endI hend _ (truncDiv2 (left + right)) rfl (by omega) (by omega)
        exact ⟨r, hr, by omega, h2, fun _ _ => ⟨le_of_eq (h3 hv), Or.inr ⟨h3 hv, h4⟩⟩⟩
      · rw [if_neg hv]
        by_cases hgt : posAt x (truncDiv2 (left + right)) > v
        · rw [if_pos hgt]
          obtain ⟨r, hr, h1, h2, h3⟩ :=
            ih (truncDiv2 (left + right) - left).toNat (by omega) left _ rfl h0 hm1
              (by omega)
          exact ⟨r, hr, h1, h2, fun hl _ => h3 hl hgt⟩
        · rw [if_neg hgt]
          obtain ⟨r, hr, h1, h2, h3⟩ :=
            ih (right - truncDiv2 (left + right)).toNat (by omega) _ right rfl (by omega)
              hm2 hre
          exact ⟨r, hr, by omega, h2, fun _ hr2 => h3 (not_lt.mp hgt) hr2⟩
    · rw [dif_neg hgap]
      have hrl : right = left + 1 := by omega
      refine ⟨left, rfl, le_refl _, by omega, fun hl hr2 => ⟨hl, Or.inl ⟨by omega, ?_⟩⟩⟩
      rw [← hrl]
      exact hr2

/-! ## What `intervalSearch` returns -/

/-- On any vector and for any `left` inside it the search returns: the
sentinel exactly when `value < x[left]`, otherwise an index of `left .. n-1`. -/
theorem intervalSearch_total (x : List ℚ) (v : ℚ) (left : Int) (h0 : 0 ≤ left)
    (h1 : left < x.length) :
    ∃ r, intervalSearch x v left = some r ∧ (r = -1 ↔ v < posAt x left) ∧
      (r = -1 ∨ (left ≤ r ∧ r < x.length)) := by
  unfold intervalSearch
  rw [readAt_eq_posAt h0 h1]
  simp only []
  by_cases hgt : posAt x left > v
  · rw [if_pos hgt]
    exact ⟨-1, rfl, ⟨fun _ => hgt, fun _ => rfl⟩, Or.inl rfl⟩
  · rw [if_neg hgt, readAt_eq_posAt (by omega) (by omega)]
    simp only []
    by_cases hle : posAt x ((x.length : Int) - 1) ≤ v
    · rw [if_pos hle]
      exact ⟨_, rfl, ⟨fun h => by omega, fun h => absurd h hgt⟩, Or.inr ⟨by omega, by omega⟩⟩
    · rw [if_neg hle]
      have hne : left ≠ (x.length : Int) - 1 := by
        intro h
        rw [← h] at hle
        exact hle (not_lt.mp hgt)
      obtain ⟨r, hr, h2, h3, _⟩ :=
        searchLoop_spec x v _ rfl _ left ((x.length : Int) - 1) rfl h0 (by omega) (le_refl _)
      exact ⟨r, hr, ⟨fun h => by omega, fun h => absurd h hgt⟩, Or.inr ⟨h2, by omega⟩⟩

/-- On a non-decreasing vector, a search that starts at a position not above
`value` returns the index `e` that splits the vector: the positions up to `e`
are `≤ value` and the positions after `e` are `> value`. -/
theorem intervalSearch_sorted (x : List ℚ) (v : ℚ) (left : Int)
    (hs : x.Sorted (· ≤ ·)) (h0 : 0 ≤ left) (h1 : left < x.length)
    (hv : posAt x left ≤ v) :
    ∃ e : Nat, intervalSearch x v left = some (e : Int) ∧ left ≤ (e : Int) ∧ e < x.length ∧
      ∀ j : Nat, j < x.length → (j ≤ e ↔ x.getD j 0 ≤ v) := by
  unfold intervalSearch
  rw [readAt_eq_posAt h0 h1]
  simp only []
  rw [if_neg (not_lt.mpr hv), readAt_eq_posAt (by omega) (by omega)]
  simp only []
  by_cases hle : posAt x ((x.length : Int) - 1) ≤ v
  · rw [if_pos hle]
    refine ⟨x.length - 1, by congr 1; omega, by omega, by omega, fun j hj => ?_⟩
    refine ⟨fun _ => ?_, fun _ => by omega⟩
    have := sorted_getD_le hs (Nat.le_sub_one_of_lt hj) (by omega : x.length - 1 < x.length)
    have h2 : posAt x ((x.length : Int) - 1) = x.getD (x.length - 1) 0 := by
      unfold posAt; congr 1; omega
    rw [h2] at hle
    exact le_trans this hle
  · rw [if_neg hle]
    have hne : left ≠ (x.length : Int) - 1 := by
      intro h
      rw [← h] at hle
      exact hle hv
    obtain ⟨r, hr, h2, h3, h4⟩ :=
      searchLoop_spec x v _ rfl _ left ((x.length : Int) - 1) rfl h0 (by omega) (le_refl _)
    obtain ⟨h5, h6⟩ := h4 hv (not_le.mp hle)
    have hgap : r < (x.length : Int) - 1 ∧ v < posAt x (r + 1) := by
      rcases h6 with h6 | ⟨h6, h7⟩
      · exact h6
      · have hr1 : r ≠ (x.length : Int) - 1 := by
          intro h
          rw [h] at h6
          exact hle (le_of_eq h6)
        rcases h7 with h7 | h7
        · exact absurd h7 hr1
        · refine ⟨by omega, lt_of_le_of_ne ?_ (Ne.symm h7)⟩
          rw [← h6]
          exact sorted_posAt_le hs (by omega) (by omega) (by omega)
    refine ⟨r.toNat, by rw [hr]; congr 1; omega, by omega, by omega, fun j hj => ?_⟩
    constructor
    · intro hjr
      have := sorted_posAt_le hs (i := (j : Int)) (j := r) (by omega) (by omega) (by omega)
      rw [posAt_natCast] at this
      exact le_trans this h5
    · intro hjv
      by_contra hcon
      have := sorted_posAt_le hs (i := r + 1) (j := (j : Int)) (by omega) (by omega) (by omega)
      rw [posAt_natCast] at this
      exact absurd (lt_of_lt_of_le hgap.2 this) (not_lt.mpr hjv)

/-! ## The crossover walk of `bivalent` -/

theorem copySpan_spec (g chr : List Cell) (a b : Int) (h0 : 0 ≤ a) (hab : a ≤ b)
    (hg : b < g.length) (hc : b < chr.length) :
    ∃ g1, copySpan g chr a b = some g1 ∧ g1.length = g.length ∧
      ∀ j : Nat, j < g.length →
        g1[j]? = if a ≤ (j : Int) ∧ (j : Int) ≤ b then chr[j]? else g[j]? := by
  unfold copySpan
  rw [if_pos ⟨h0, hab, hg, hc⟩]
  refine ⟨_, rfl, by simp, fun j hj => ?_⟩
  rw [List.getElem?_map, List.getElem?_range hj]
  simp only [Option.map_some']
  split
  · rename_i hj2
    have hjc : j < chr.length := by omega
    rw [List.getD_eq_getElem _ _ hjc, List.getElem?_eq_getElem hjc]
  · rw [List.getD_eq_getElem _ _ hj, List.getElem?_eq_getElem hj]

theorem activeChr_length (chr1 chr2 : List Cell) (r : Nat) (h : chr2.length = chr1.length) :
    (activeChr chr1 chr2 r).length = chr1.length := by
  unfold activeChr
  split
  · rfl
  · exact h

theorem crossoversBelow_cons (p : ℚ) (ps : List ℚ) (y : ℚ) :
    crossoversBelow (p :: ps) y = crossoversBelow ps y + if p < y then 1 else 0 := by
  unfold crossoversBelow
  rw [List.countP_cons]
  simp

theorem crossoversBelow_eq_zero (ps : List ℚ) (y : ℚ) (h : ∀ p ∈ ps, y ≤ p) :
    crossoversBelow ps y = 0 := by
  unfold crossoversBelow
  rw [List.countP_eq_zero]
  intro p hp
  simpa using h p hp

theorem crossoversBelow_eq_length (ps : List ℚ) (y : ℚ) (h : ∀ p ∈ ps, p < y) :
    crossoversBelow ps y = ps.length := by
  unfold crossoversBelow
  rw [List.countP_eq_length]
  intro p hp
  simpa using h p hp

/-- The state after the crossover loop, from a state `(g, s, r)` whose
`startPos` is a valid index not above the remaining positions: the search never
fails, `startPos` only moves right, and the loci `s+1 .. s1` it passes are copied
from the chromosome that is active after the crossovers below their position. -/
theorem crossoverWalk_spec (chr1 chr2 : List Cell) (x : List ℚ)
    (hs : x.Sorted (· ≤ ·)) (h2 : chr2.length = chr1.length) (hx : x.length = chr1.length) :
    ∀ (ps : List ℚ) (g : List Cell) (s : Int) (r : Nat), ps.Sorted (· ≤ ·) →
      (∀ p ∈ ps, posAt x s ≤ p) → 0 ≤ s → s < chr1.length → g.length = chr1.length → r ≤ 1 →
      ∃ (g1 : List Cell) (s1 : Nat),
        crossoverWalk chr1 chr2 x ps g s r = some (g1, (s1 : Int), (r + ps.length) % 2) ∧
        g1.length = chr1.length ∧ s ≤ (s1 : Int) ∧ s1 < chr1.length ∧
        (ps = [] → (s1 : Int) = s) ∧
        (∀ j : Nat, j < chr1.length → s1 < j → ∀ p ∈ ps, p < x.getD j 0) ∧
        ∀ j : Nat, j < chr1.length →
          g1[j]? = if s < (j : Int) ∧ j ≤ s1 then
              (activeChr chr1 chr2 ((r + crossoversBelow ps (x.getD j 0)) % 2))[j]?
            else g[j]? := by
  intro ps
  induction ps with
  | nil =>
    intro g s r _ _ h0 hsn hg hr
    refine ⟨g, s.toNat, ?_, hg, by omega, by omega, fun _ => by omega, ?_, fun j hj => ?_⟩
    · simp only [crossoverWalk, List.length_nil, Nat.add_zero]
      rw [Nat.mod_eq_of_lt (by omega)]
      congr 3
      omega
    · intro j _ _ p hp
      cases hp
    · rw [if_neg (by omega)]
  | cons p rest ih =>
    intro g s r hps hall h0 hsn hg hr
    obtain ⟨e, he, hse, hen, hsplit⟩ :=
      intervalSearch_sorted x p s hs h0 (by omega) (hall p (List.mem_cons_self _ _))
    have hrest : rest.Sorted (· ≤ ·) := hps.of_cons
    have hprest : ∀ q ∈ rest, p ≤ q := fun q hq => List.rel_of_sorted_cons hps q hq
    have hxe : posAt x (e : Int) ≤ p := by
      rw [posAt_natCast]
      exact (hsplit e hen).mp (le_refl _)
    -- the segment written by this crossover
    have hseg : ∃ g0, (if (e : Int) > s then
          copySpan g (activeChr chr1 chr2 r) (s + 1) e else some g) = some g0 ∧
        g0.length = chr1.length ∧
        ∀ j : Nat, j < chr1.length →
          g0[j]? = if s < (j : Int) ∧ j ≤ e then (activeChr chr1 chr2 r)[j]? else g[j]? := by
      by_cases hgt : (e : Int) > s
      · rw [if_pos hgt]
        obtain ⟨g0, hg0, hlen, hcell⟩ :=
          copySpan_spec g (activeChr chr1 chr2 r) (s + 1) e (by omega) (by omega) (by omega)
            (by rw [activeChr_length chr1 chr2 r h2]; omega)
        refine ⟨g0, hg0, by omega, fun j hj => ?_⟩
        rw [hcell j (by omega)]
        by_cases hc : s < (j : Int) ∧ j ≤ e
        · rw [if_pos hc, if_pos (by omega)]
        · rw [if_neg hc, if_neg (by omega)]
      · rw [if_neg hgt]
        exact ⟨g, rfl, hg, fun j _ => by rw [if_neg (by omega)]⟩
    obtain ⟨g0, hg0, hlen0, hcell0⟩ := hseg
    obtain ⟨g1, s1, hwalk, hlen1, hes1, hs1n, _, hafter, hcell1⟩ :=
      ih g0 e ((r + 1) % 2) hrest (fun q hq => le_trans hxe (hprest q hq)) (by omega)
        (by omega) hlen0 (by omega)
    refine ⟨g1, s1, ?_, hlen1, by omega, hs1n, fun h => absurd h (List.cons_ne_nil _ _), ?_,
      fun j hj => ?_⟩
    · simp only [crossoverWalk, he, hg0, hwalk, List.length_cons]
      congr 3
      omega
    · intro j hj hlt q hq
      rcases List.mem_cons.mp hq with h | h
      · subst h
        exact not_le.mp (fun hcon => by
          have := (hsplit j (by omega)).mpr hcon
          omega)
      · exact hafter j hj hlt q h
    · rw [hcell1 j hj, hcell0 j hj, crossoversBelow_cons]
      by_cases hje : j ≤ e
      · rw [if_neg (by omega)]
        by_cases hsj : s < (j : Int)
        · rw [if_pos ⟨hsj, hje⟩, if_pos ⟨hsj, by omega⟩]
          have hxj : x.getD j 0 ≤ p := (hsplit j (by omega)).mp hje
          rw [crossoversBelow_eq_zero rest _ (fun q hq => le_trans hxj (hprest q hq)),
            if_neg (not_lt.mpr hxj)]
          congr 2
          omega
        · rw [if_neg (by omega), if_neg (by omega)]
      · have hpj : p < x.getD j 0 :=
          not_le.mp (fun hcon => hje ((hsplit j (by omega)).mpr hcon))
        by_cases hjs : j ≤ s1
        · rw [if_pos ⟨by omega, hjs⟩, if_pos ⟨by omega, hjs⟩, if_pos hpj]
          congr 2
          omega
        · rw [if_neg (by omega), if_neg (by omega), if_neg (by omega)]

/-- The gamete of `bivalent` when at least one crossover is drawn, on a
non-decreasing map and with no crossover position below the first map position:
`bivalent` returns a gamete of the length of the homologs, and locus `j` holds
the cell of the chromosome selected by the coin plus the number of crossover
positions below `genMap[j]`, taken modulo 2. -/
theorem bivalent_crossover_spec (chr1 chr2 : List Cell) (x : List ℚ) (d : GameteDraws)
    (hn : 1 ≤ chr1.length) (h2 : chr2.length = chr1.length) (hx : x.length = chr1.length)
    (hs : x.Sorted (· ≤ ·)) (hk : d.randu.length ≠ 0)
    (hp : ∀ p ∈ crossoverPositions (posAt x ((chr1.length : Int) - 1)) d.randu,
      posAt x 0 ≤ p) :
    ∃ g, bivalent chr1 chr2 x d = some g ∧ g.length = chr1.length ∧
      ∀ j : Nat, j < chr1.length →
        g[j]? = (activeChr chr1 chr2 ((coinChr d.coin +
          crossoversBelow (crossoverPositions (posAt x ((chr1.length : Int) - 1)) d.randu)
            (x.getD j 0)) % 2))[j]? := by
  have hr : coinChr d.coin ≤ 1 := by unfold coinChr; split <;> omega
  have hc0 : ∃ c0, (activeChr chr1 chr2 (coinChr d.coin))[0]? = some c0 := by
    have hl := activeChr_length chr1 chr2 (coinChr d.coin) h2
    exact ⟨_, List.getElem?_eq_getElem (by omega)⟩
  obtain ⟨c0, hc0⟩ := hc0
  have hsorted : (crossoverPositions (posAt x ((chr1.length : Int) - 1)) d.randu).Sorted
      (· ≤ ·) := List.sorted_insertionSort _ _
  obtain ⟨g1, s1, hwalk, hlen1, _, hs1n, _, hafter, hcell1⟩ :=
    crossoverWalk_spec chr1 chr2 x hs h2 hx _ ((List.replicate chr1.length none).set 0 c0) 0
      (coinChr d.coin) hsorted hp (le_refl _) (by omega) (by simp) hr
  -- the tail of lines 94-100
  have htail : ∃ g, (if (s1 : Int) < (chr1.length : Int) - 1 then
        copySpan g1 (activeChr chr1 chr2 ((coinChr d.coin + (crossoverPositions
          (posAt x ((chr1.length : Int) - 1)) d.randu).length) % 2)) ((s1 : Int) + 1)
          ((chr1.length : Int) - 1)
      else some g1) = some g ∧ g.length = chr1.length ∧
      ∀ j : Nat, j < chr1.length →
        g[j]? = if s1 < j then (activeChr chr1 chr2 ((coinChr d.coin + (crossoverPositions
          (posAt x ((chr1.length : Int) - 1)) d.randu).length) % 2))[j]? else g1[j]? := by
    by_cases hlt : (s1 : Int) < (chr1.length : Int) - 1
    · rw [if_pos hlt]
      obtain ⟨g, hg, hlen, hcell⟩ := copySpan_spec g1 (activeChr chr1 chr2 ((coinChr d.coin +
        (crossoverPositions (posAt x ((chr1.length : Int) - 1)) d.randu).length) % 2))
        ((s1 : Int) + 1) ((chr1.length : Int) - 1) (by omega) (by omega) (by omega)
        (by rw [activeChr_length chr1 chr2 _ h2]; omega)
      refine ⟨g, hg, by omega, fun j hj => ?_⟩
      rw [hcell j (by omega)]
      by_cases hc : s1 < j
      · rw [if_pos hc, if_pos (by omega)]
      · rw [if_neg hc, if_neg (by omega)]
    · rw [if_neg hlt]
      exact ⟨g1, rfl, hlen1, fun j hj => by rw [if_neg (by omega)]⟩
  obtain ⟨g, hg, hlen, hcell⟩ := htail
  refine ⟨g, ?_, hlen, fun j hj => ?_⟩
  · unfold bivalent
    rw [readAt_eq_posAt (by omega) (by omega)]
    simp only [if_neg hk]
    change (match (activeChr chr1 chr2 (coinChr d.coin))[0]? with
      | none => none
      | some c0 =>
        match crossoverWalk chr1 chr2 x
            (crossoverPositions (posAt x ((chr1.length : Int) - 1)) d.randu)
            ((List.replicate chr1.length none).set 0 c0) 0 (coinChr d.coin) with
        | none => none
        | some (gamete, endPos, readChr1) =>
          if endPos < (chr1.length : Int) - 1 then
            copySpan gamete (activeChr chr1 chr2 readChr1) (endPos + 1)
              ((chr1.length : Int) - 1)
          else some gamete) = some g
    rw [hc0]
    simp only []
    rw [hwalk]
    exact hg
  · rw [hcell j hj]
    by_cases hjs : s1 < j
    · rw [if_pos hjs, crossoversBelow_eq_length _ _ (hafter j hj hjs)]
    · rw [if_neg hjs, hcell1 j hj]
      by_cases hj0 : (0 : Int) < (j : Int)
      · rw [if_pos ⟨hj0, by omega⟩]
      · rw [if_neg (by omega)]
        have hjz : j = 0 := by omega
        subst hjz
        rw [crossoversBelow_eq_zero _ _ (fun p hp1 => by
          have := hp p hp1
          simpa [posAt] using this)]
        simp only [Nat.add_zero, Nat.mod_eq_of_lt (show coinChr d.coin < 2 by omega)]
        rw [hc0]
        simp [hj]

theorem activeChr_parity (chr1 chr2 : List Cell) (coin : Bool) (c : Nat) :
    activeChr chr1 chr2 ((coinChr coin + c) % 2) =
      if c % 2 = 0 then startChr chr1 chr2 coin else otherChr chr1 chr2 coin := by
  unfold activeChr coinChr startChr otherChr
  rcases Nat.mod_two_eq_zero_or_one c with hc | hc
  · cases coin
    · have h : (0 + c) % 2 = 0 := by omega
      simp [hc]
    · have h : (1 + c) % 2 = 1 := by omega
      simp [hc, h]
  · cases coin
    · have h : (0 + c) % 2 = 1 := by omega
      simp [hc]
    · have h : (1 + c) % 2 = 0 := by omega
      simp [hc, h]

/-! ## Loops over `0 .. n-1` and writes into a cube -/

theorem foldlM_range_inv {σ : Type} (f : σ → Nat → Option σ) (P : Nat → σ → Prop) :
    ∀ (n : Nat) (s0 s : σ), P 0 s0 →
      (∀ (i : Nat) (t t1 : σ), i < n → P i t → f t i = some t1 → P (i + 1) t1) →
      (List.range n).foldlM f s0 = some s → P n s := by
  intro n
  induction n with
  | zero =>
    intro s0 s h0 _ h
    simp only [List.range_zero, List.foldlM_nil] at h
    cases h
    exact h0
  | succ n ih =>
    intro s0 s h0 hstep h
    rw [List.range_succ, List.foldlM_append] at h
    cases hmid : (List.range n).foldlM f s0 with
    | none => rw [hmid] at h; cases h
    | some t =>
      rw [hmid] at h
      have hP : P n t := ih s0 t h0 (fun i a b hi => hstep i a b (by omega)) hmid
      have hlast : f t n = some s := by
        simpa [List.foldlM_cons, List.foldlM_nil] using h
      exact hstep n t s (by omega) hP hlast

theorem mapM_some_getElem {α β : Type} (f : α → Option β) :
    ∀ (l : List α) (r : List β), l.mapM f = some r →
      r.length = l.length ∧ ∀ k : Nat, k < l.length → (l[k]?).bind f = r[k]? := by
  intro l
  induction l with
  | nil =>
    intro r h
    simp only [List.mapM_nil] at h
    cases h
    exact ⟨rfl, fun k hk => by simp at hk⟩
  | cons a l ih =>
    intro r h
    rw [List.mapM_cons] at h
    cases hb : f a with
    | none => rw [hb] at h; cases h
    | some b =>
      cases hbs : l.mapM f with
      | none => rw [hb, hbs] at h; cases h
      | some bs =>
        rw [hb, hbs] at h
        cases h
        obtain ⟨hlen, hget⟩ := ih bs hbs
        refine ⟨by simp [hlen], fun k hk => ?_⟩
        cases k with
        | zero => simp [hb]
        | succ k =>
          simp only [List.getElem?_cons_succ]
          exact hget k (by simpa using hk)

theorem mapM_range_some {β : Type} (f : Nat → Option β) (n : Nat) (r : List β)
    (h : (List.range n).mapM f = some r) :
    r.length = n ∧ ∀ k : Nat, k < n → f k = r[k]? := by
  obtain ⟨hlen, hget⟩ := mapM_some_getElem f _ r h
  rw [List.length_range] at hlen hget
  refine ⟨hlen, fun k hk => ?_⟩
  have := hget k hk
  rw [List.getElem?_range hk] at this
  simpa using this

theorem Cube.setCol_some {cube t : Cube} {s c : Nat} {v : List Cell}
    (h : cube.setCol s c v = some t) :
    t.n_rows = cube.n_rows ∧ t.n_cols = cube.n_cols ∧ t.n_slices = cube.n_slices ∧
      s < cube.n_slices ∧ c < cube.n_cols ∧ v.length = cube.n_rows ∧
      ∀ r c1 s1, t.cell r c1 s1 = if s1 = s ∧ c1 = c then v.getD r none else cube.cell r c1 s1 := by
  unfold Cube.setCol at h
  split at h
  · rename_i hcond
    cases h
    exact ⟨rfl, rfl, rfl, hcond.1, hcond.2.1, hcond.2.2, fun _ _ _ => rfl⟩
  · cases h

theorem Cube.col_setCol {cube t : Cube} {s c : Nat} {v : List Cell}
    (h : cube.setCol s c v = some t) (s1 c1 : Nat) :
    t.col s1 c1 = if s1 = s ∧ c1 = c then some v else cube.col s1 c1 := by
  obtain ⟨hr, hc, hs, hs1, hc1, hv, hcell⟩ := Cube.setCol_some h
  unfold Cube.col
  rw [hr, hc, hs]
  by_cases hsc : s1 = s ∧ c1 = c
  · rw [if_pos hsc, if_pos (by omega)]
    congr 1
    apply List.ext_getElem
    · simp [hv]
    · intro r h1 h2
      simp only [List.getElem_map, List.getElem_range]
      rw [hcell, if_pos hsc, List.getD_eq_getElem _ _ h2]
  · rw [if_neg hsc]
    split
    · congr 1
      apply List.map_congr_left
      intro r _
      rw [hcell, if_neg hsc]
    · rfl

theorem Cube.col_some_cell {cube : Cube} {s c : Nat} {v : List Cell}
    (h : cube.col s c = some v) :
    s < cube.n_slices ∧ c < cube.n_cols ∧ v.length = cube.n_rows ∧
      ∀ r : Nat, r < cube.n_rows → v[r]? = some (cube.cell r c s) := by
  unfold Cube.col at h
  split at h
  · rename_i hcond
    cases h
    refine ⟨hcond.1, hcond.2, by simp, fun r hr => ?_⟩
    rw [List.getElem?_map, List.getElem?_range hr]
    rfl
  · cases h

/-! ## The loops of `createDH2` -/

theorem createDH2Rep_some {g : Cube} {nDH : Nat} {genMap : List ℚ}
    {dr : Nat → Nat → GameteDraws} {ind i : Nat} {tmp t : Cube}
    (h : createDH2Rep g nDH genMap dr ind tmp i = some t) :
    ∃ c0 c1 gamete tmp0, g.col ind 0 = some c0 ∧ g.col ind 1 = some c1 ∧
      bivalent c0 c1 genMap (dr ind i) = some gamete ∧
      tmp.setCol (i + ind * nDH) 0 gamete = some tmp0 ∧
      tmp0.setCol (i + ind * nDH) 1 gamete = some t := by
  simp only [createDH2Rep, Option.bind_eq_bind, Option.bind_eq_some] at h
  obtain ⟨c0, h0, c1, h1, gamete, hg, tmp0, ht0, ht⟩ := h
  exact ⟨c0, c1, gamete, tmp0, h0, h1, hg, ht0, ht⟩

theorem createDH2Rep_inv {g : Cube} {nDH : Nat} {genMap : List ℚ}
    {dr : Nat → Nat → GameteDraws} {ind i : Nat} {tmp t : Cube} (hi : i < nDH)
    (h : createDH2Rep g nDH genMap dr ind tmp i = some t)
    (hW : ∀ k : Nat, k < ind * nDH + i → DHWritten g nDH genMap dr tmp k) :
    t.n_rows = tmp.n_rows ∧ t.n_cols = tmp.n_cols ∧ t.n_slices = tmp.n_slices ∧
      ∀ k : Nat, k < ind * nDH + (i + 1) → DHWritten g nDH genMap dr t k := by
  obtain ⟨c0, c1, gamete, tmp0, h0, h1, hg, ht0, ht⟩ := createDH2Rep_some h
  obtain ⟨a1, a2, a3, _⟩ := Cube.setCol_some ht0
  obtain ⟨b1, b2, b3, _⟩ := Cube.setCol_some ht
  refine ⟨by omega, by omega, by omega, fun k hk => ?_⟩
  by_cases hkeq : k = i + ind * nDH
  · subst hkeq
    have hdiv : (i + ind * nDH) / nDH = ind := by
      rw [Nat.add_mul_div_right _ _ (by omega), Nat.div_eq_of_lt hi, Nat.zero_add]
    have hmod : (i + ind * nDH) % nDH = i := by
      rw [Nat.add_mul_mod_self_right, Nat.mod_eq_of_lt hi]
    refine ⟨c0, c1, gamete, by rw [hdiv]; exact h0, by rw [hdiv]; exact h1,
      by rw [hdiv, hmod]; exact hg, ?_, ?_⟩
    · rw [Cube.col_setCol ht, if_neg (by omega), Cube.col_setCol ht0, if_pos ⟨rfl, rfl⟩]
    · rw [Cube.col_setCol ht, if_pos ⟨rfl, rfl⟩]
  · obtain ⟨d0, d1, gam, e0, e1, eg, f0, f1⟩ := hW k (by omega)
    refine ⟨d0, d1, gam, e0, e1, eg, ?_, ?_⟩
    · rw [Cube.col_setCol ht, if_neg (by omega), Cube.col_setCol ht0, if_neg (by omega)]
      exact f0
    · rw [Cube.col_setCol ht, if_neg (by omega), Cube.col_setCol ht0, if_neg (by omega)]
      exact f1

/-- A block that `createDH2` produces: it has the locus count of the source
block, 2 homologs and `nInd * nDH` individuals, and every individual is written
as `DHWritten` says. -/
theorem createDH2Chr_some {geno : List Cube} {nInd : Nat} {nDH : Int}
    {genMaps : List (List ℚ)} {ratio : ℚ} {draws : Nat → Nat → Nat → GameteDraws}
    {chr : Nat} {cube : Cube}
    (h : createDH2Chr geno (nInd : Int) nDH genMaps ratio draws chr = some cube) :
    ∃ g genMap, geno[chr]? = some g ∧ genMaps[chr]? = some genMap ∧
      cube.n_rows = g.n_rows ∧ cube.n_cols = 2 ∧ cube.n_slices = nInd * nDH.toNat ∧
      ∀ t : Nat, t < nInd * nDH.toNat →
        DHWritten g nDH.toNat (scaleMap ratio genMap) (draws chr) cube t := by
  simp only [createDH2Chr, Option.bind_eq_bind, Option.bind_eq_some] at h
  obtain ⟨genMap, hmap, g, hg, h⟩ := h
  split at h
  · cases h
  · rename_i hneg
    have hsl : ((nInd : Int) * nDH).toNat = nInd * nDH.toNat := by
      rcases Nat.eq_zero_or_pos nInd with hz | hpos
      · subst hz; simp
      · have hd : 0 ≤ nDH := by
          by_contra hcon
          have : (nInd : Int) * nDH < 0 :=
            Int.mul_neg_of_pos_of_neg (by exact_mod_cast hpos) (by omega)
          exact hneg this
        have hcast : ((nInd * nDH.toNat : Nat) : Int) = (nInd : Int) * nDH := by
          rw [Nat.cast_mul, Int.toNat_of_nonneg hd]
        rw [← hcast, Int.toNat_natCast]
    have hloop := foldlM_range_inv
      (fun tmp ind => (List.range nDH.toNat).foldlM
        (createDH2Rep g nDH.toNat (scaleMap ratio genMap) (draws chr) ind) tmp)
      (fun m tmp => tmp.n_rows = g.n_rows ∧ tmp.n_cols = 2 ∧
        tmp.n_slices = nInd * nDH.toNat ∧
        ∀ k : Nat, k < m * nDH.toNat →
          DHWritten g nDH.toNat (scaleMap ratio genMap) (draws chr) tmp k)
      (nInd : Int).toNat (Cube.fresh g.n_rows 2 ((nInd : Int) * nDH).toNat) cube
      ⟨rfl, rfl, hsl, fun k hk => by simp at hk⟩
      (by
        intro ind tmp tmp1 _ hP hinner
        have hin := foldlM_range_inv
          (createDH2Rep g nDH.toNat (scaleMap ratio genMap) (draws chr) ind)
          (fun i tmp => tmp.n_rows = g.n_rows ∧ tmp.n_cols = 2 ∧
            tmp.n_slices = nInd * nDH.toNat ∧
            ∀ k : Nat, k < ind * nDH.toNat + i →
              DHWritten g nDH.toNat (scaleMap ratio genMap) (draws chr) tmp k)
          nDH.toNat tmp tmp1 hP
          (by
            intro i t t1 hi hQ hstep
            obtain ⟨q1, q2, q3, q4⟩ := hQ
            obtain ⟨r1, r2, r3, r4⟩ := createDH2Rep_inv hi hstep q4
            exact ⟨by omega, by omega, by omega, r4⟩)
          hinner
        obtain ⟨r1, r2, r3, r4⟩ := hin
        refine ⟨r1, r2, r3, fun k hk => r4 k ?_⟩
        rw [Nat.add_mul, Nat.one_mul] at hk
        exact hk)
      h
    obtain ⟨r1, r2, r3, r4⟩ := hloop
    exact ⟨g, genMap, hg, hmap, r1, r2, r3, fun t ht => r4 t (by simpa using ht)⟩

/-! ## The loops of `cross2` -/

theorem cross2Ind_inv {mGeno : Cube} {fatherGeno : List Cube} {chr : Nat}
    {mother father : List Nat} {femaleMap maleMap : List ℚ} {dr : Nat → Nat → GameteDraws}
    {tmp t : Cube} {ind : Nat}
    (h : cross2Ind mGeno fatherGeno chr mother father femaleMap maleMap dr tmp ind = some t)
    (hW : ∀ k : Nat, k < ind →
      CrossWritten mGeno fatherGeno chr mother father femaleMap maleMap dr tmp k) :
    t.n_rows = tmp.n_rows ∧ t.n_cols = tmp.n_cols ∧ t.n_slices = tmp.n_slices ∧
      ∀ k : Nat, k < ind + 1 →
        CrossWritten mGeno fatherGeno chr mother father femaleMap maleMap dr t k := by
  simp only [cross2Ind, Option.bind_eq_bind, Option.bind_eq_some] at h
  obtain ⟨m, hm, m0, hm0, m1, hm1, female, hfem, tmp1, ht1, fGeno, hfg, f, hf, f0, hf0, f1,
    hf1, male, hmale, ht⟩ := h
  obtain ⟨a1, a2, a3, _⟩ := Cube.setCol_some ht1
  obtain ⟨b1, b2, b3, _⟩ := Cube.setCol_some ht
  refine ⟨by omega, by omega, by omega, fun k hk => ?_⟩
  by_cases hkeq : k = ind
  · subst hkeq
    refine ⟨m, f, fGeno, m0, m1, f0, f1, female, male, hm, hf, hfg, hm0, hm1, hf0, hf1, hfem,
      hmale, ?_, ?_⟩
    · rw [Cube.col_setCol ht, if_neg (by omega), Cube.col_setCol ht1, if_pos ⟨rfl, rfl⟩]
    · rw [Cube.col_setCol ht, if_pos ⟨rfl, rfl⟩]
  · obtain ⟨m', f', fGeno', m0', m1', f0', f1', female', male', e1, e2, e3, e4, e5, e6, e7, e8,
      e9, e10, e11⟩ := hW k (by omega)
    refine ⟨m', f', fGeno', m0', m1', f0', f1', female', male', e1, e2, e3, e4, e5, e6, e7, e8,
      e9, ?_, ?_⟩
    · rw [Cube.col_setCol ht, if_neg (by omega), Cube.col_setCol ht1, if_neg (by omega)]
      exact e10
    · rw [Cube.col_setCol ht, if_neg (by omega), Cube.col_setCol ht1, if_neg (by omega)]
      exact e11

/-- A block that `cross2` produces: it has the locus count of the maternal
block, 2 homologs and one individual per entry of `mother`, and every
individual is written as `CrossWritten` says. -/
theorem cross2Chr_some {motherGeno : List Cube} {mother : List Nat} {fatherGeno : List Cube}
    {father : List Nat} {genMaps : List (List ℚ)} {recombRatio : ℚ}
    {draws : Nat → Nat → Nat → GameteDraws} {chr : Nat} {cube : Cube}
    (h : cross2Chr motherGeno mother fatherGeno father genMaps recombRatio draws chr
      = some cube) :
    ∃ mGeno genMap, motherGeno[chr]? = some mGeno ∧ genMaps[chr]? = some genMap ∧
      cube.n_rows = mGeno.n_rows ∧ cube.n_cols = 2 ∧ cube.n_slices = mother.length ∧
      ∀ i : Nat, i < mother.length →
        CrossWritten mGeno fatherGeno chr mother father
          (scaleMap (femaleRecRate recombRatio) genMap)
          (scaleMap (maleRecRate recombRatio) genMap) (draws chr) cube i := by
  simp only [cross2Chr, Option.bind_eq_bind, Option.bind_eq_some] at h
  obtain ⟨genMap, hmap, mGeno, hg, h⟩ := h
  have hloop := foldlM_range_inv
    (cross2Ind mGeno fatherGeno chr mother father (scaleMap (femaleRecRate recombRatio) genMap)
      (scaleMap (maleRecRate recombRatio) genMap) (draws chr))
    (fun k tmp => tmp.n_rows = mGeno.n_rows ∧ tmp.n_cols = 2 ∧ tmp.n_slices = mother.length ∧
      ∀ i : Nat, i < k →
        CrossWritten mGeno fatherGeno chr mother father
          (scaleMap (femaleRecRate recombRatio) genMap)
          (scaleMap (maleRecRate recombRatio) genMap) (draws chr) tmp i)
    mother.length (Cube.fresh mGeno.n_rows 2 mother.length) cube
    ⟨rfl, rfl, rfl, fun i hi => by simp at hi⟩
    (by
      intro ind t t1 _ hP hstep
      obtain ⟨q1, q2, q3, q4⟩ := hP
      obtain ⟨r1, r2, r3, r4⟩ := cross2Ind_inv hstep q4
      exact ⟨by omega, by omega, by omega, r4⟩)
    h
  obtain ⟨r1, r2, r3, r4⟩ := hloop
  exact ⟨mGeno, genMap, hg, hmap, r1, r2, r3, r4⟩

theorem uwordPred_of_pos {v : Nat} (h1 : 1 ≤ v) (h2 : v < 2 ^ uwordBits) :
    uwordPred v = v - 1 := by
  unfold uwordPred
  have hpos : 0 < 2 ^ uwordBits := Nat.two_pow_pos _
  have : v + 2 ^ uwordBits - 1 = (v - 1) + 2 ^ uwordBits := by omega
  rw [this, Nat.add_mod_right, Nat.mod_eq_of_lt (by omega)]

/-! ## The loops of `crossPedigree` -/

theorem pedigreeSource_some {fGeno tmp : Cube} {ref d0 d1 : Nat} {cs : List Cell × List Cell}
    (h : pedigreeSource fGeno tmp ref d0 d1 = some cs) :
    (ref = uwordOfInt (-1) → fGeno.col d0 0 = some cs.1 ∧ fGeno.col d1 1 = some cs.2) ∧
    (ref ≠ uwordOfInt (-1) → tmp.col ref 0 = some cs.1 ∧ tmp.col ref 1 = some cs.2) := by
  unfold pedigreeSource at h
  split at h
  · rename_i hs
    simp only [Option.bind_eq_bind, Option.bind_eq_some] at h
    obtain ⟨c0, h0, c1, h1, hcs⟩ := h
    cases hcs
    exact ⟨fun _ => ⟨h0, h1⟩, fun hne => absurd hs hne⟩
  · rename_i hs
    simp only [Option.bind_eq_bind, Option.bind_eq_some] at h
    obtain ⟨c0, h0, c1, h1, hcs⟩ := h
    cases hcs
    exact ⟨fun he => absurd he hs, fun _ => ⟨h0, h1⟩⟩

theorem crossPedigreeInd_inv {fGeno : Cube} {mother father : List Nat}
    {femaleMap maleMap : List ℚ} {dr : Nat → Nat → GameteDraws} {fd : Nat → Nat → Nat → Nat}
    {tmp t : Cube} {ind : Nat}
    (h : crossPedigreeInd fGeno mother father femaleMap maleMap dr fd tmp ind = some t)
    (hW : ∀ k : Nat, k < ind → PedWritten fGeno mother father femaleMap maleMap dr fd tmp k) :
    t.n_rows = tmp.n_rows ∧ t.n_cols = tmp.n_cols ∧ t.n_slices = tmp.n_slices ∧
      ∀ k : Nat, k < ind + 1 →
        PedWritten fGeno mother father femaleMap maleMap dr fd t k := by
  simp only [crossPedigreeInd, Option.bind_eq_bind, Option.bind_eq_some] at h
  obtain ⟨m, hm, ms, hms, female, hfem, tmp1, ht1, f, hf, fs, hfs, male, hmale, ht⟩ := h
  obtain ⟨a1, a2, a3, _⟩ := Cube.setCol_some ht1
  obtain ⟨b1, b2, b3, _⟩ := Cube.setCol_some ht
  have hkeep : ∀ s c : Nat, s ≠ ind → t.col s c = tmp.col s c := by
    intro s c hs
    rw [Cube.col_setCol ht, if_neg (by omega), Cube.col_setCol ht1, if_neg (by omega)]
  have hkeep1 : ∀ s c : Nat, s ≠ ind → tmp1.col s c = tmp.col s c := by
    intro s c hs
    rw [Cube.col_setCol ht1, if_neg (by omega)]
  refine ⟨by omega, by omega, by omega, fun k hk => ?_⟩
  by_cases hkeq : k = ind
  · subst hkeq
    obtain ⟨hmF, hmR⟩ := pedigreeSource_some hms
    obtain ⟨hfF, hfR⟩ := pedigreeSource_some hfs
    refine ⟨m, f, ms.1, ms.2, fs.1, fs.2, female, male, hm, hf, ⟨hmF, fun hne hlt => ?_⟩,
      ⟨hfF, fun hne hlt => ?_⟩, hfem, hmale, ?_, ?_⟩
    · rw [hkeep m 0 (by omega), hkeep m 1 (by omega)]
      exact hmR hne
    · rw [hkeep f 0 (by omega), hkeep f 1 (by omega), ← hkeep1 f 0 (by omega),
        ← hkeep1 f 1 (by omega)]
      exact hfR hne
    · rw [Cube.col_setCol ht, if_neg (by omega), Cube.col_setCol ht1, if_pos ⟨rfl, rfl⟩]
    · rw [Cube.col_setCol ht, if_pos ⟨rfl, rfl⟩]
  · obtain ⟨m', f', m0, m1, f0, f1, female', male', e1, e2, e3, e4, e5, e6, e7, e8⟩ :=
      hW k (by omega)
    refine ⟨m', f', m0, m1, f0, f1, female', male', e1, e2, ⟨e3.1, fun hne hlt => ?_⟩,
      ⟨e4.1, fun hne hlt => ?_⟩, e5, e6, ?_, ?_⟩
    · rw [hkeep m' 0 (by omega), hkeep m' 1 (by omega)]
      exact e3.2 hne hlt
    · rw [hkeep f' 0 (by omega), hkeep f' 1 (by omega)]
      exact e4.2 hne hlt
    · rw [hkeep k 0 hkeq]
      exact e7
    · rw [hkeep k 1 hkeq]
      exact e8

/-- A block that `crossPedigree` produces: it has the locus count of the
founder block, 2 homologs and one individual per pedigree entry, and every
entry is written as `PedWritten` says. -/
theorem crossPedigreeChr_some {founders : List Cube} {mother father : List Nat}
    {genMaps : List (List ℚ)} {recombRatio : ℚ} {draws : Nat → Nat → Nat → GameteDraws}
    {fdraws : Nat → Nat → Nat → Nat → Nat} {chr : Nat} {cube : Cube}
    (h : crossPedigreeChr founders mother father genMaps recombRatio draws fdraws chr
      = some cube) :
    ∃ fGeno genMap, founders[chr]? = some fGeno ∧ genMaps[chr]? = some genMap ∧
      cube.n_rows = fGeno.n_rows ∧ cube.n_cols = 2 ∧ cube.n_slices = mother.length ∧
      ∀ i : Nat, i < mother.length →
        PedWritten fGeno mother father (scaleMap (femaleRecRate recombRatio) genMap)
          (scaleMap (maleRecRate recombRatio) genMap) (draws chr) (fdraws chr) cube i := by
  simp only [crossPedigreeChr, Option.bind_eq_bind, Option.bind_eq_some] at h
  obtain ⟨fGeno, hg, genMap, hmap, h⟩ := h
  have hloop := foldlM_range_inv
    (crossPedigreeInd fGeno mother father (scaleMap (femaleRecRate recombRatio) genMap)
      (scaleMap (maleRecRate recombRatio) genMap) (draws chr) (fdraws chr))
    (fun k tmp => tmp.n_rows = fGeno.n_rows ∧ tmp.n_cols = 2 ∧ tmp.n_slices = mother.length ∧
      ∀ i : Nat, i < k →
        PedWritten fGeno mother father (scaleMap (femaleRecRate recombRatio) genMap)
          (scaleMap (maleRecRate recombRatio) genMap) (draws chr) (fdraws chr) tmp i)
    mother.length (Cube.fresh fGeno.n_rows 2 mother.length) cube
    ⟨rfl, rfl, rfl, fun i hi => by simp at hi⟩
    (by
      intro ind t t1 _ hP hstep
      obtain ⟨q1, q2, q3, q4⟩ := hP
      obtain ⟨r1, r2, r3, r4⟩ := crossPedigreeInd_inv hstep q4
      exact ⟨by omega, by omega, by omega, r4⟩)
    h
  obtain ⟨r1, r2, r3, r4⟩ := hloop
  exact ⟨fGeno, genMap, hg, hmap, r1, r2, r3, r4⟩

/-! ## The chromosome loop of the accessors -/

theorem foldlM_range_exists {σ : Type} (f : σ → Nat → Option σ) (P : Nat → σ → Prop) :
    ∀ (n : Nat) (s0 : σ), P 0 s0 →
      (∀ (i : Nat) (t : σ), i < n → P i t → ∃ t1, f t i = some t1 ∧ P (i + 1) t1) →
      ∃ s, (List.range n).foldlM f s0 = some s ∧ P n s := by
  intro n
  induction n with
  | zero =>
    intro s0 h0 _
    exact ⟨s0, by simp, h0⟩
  | succ n ih =>
    intro s0 h0 hstep
    obtain ⟨t, ht, hP⟩ := ih s0 h0 (fun i a hi => hstep i a (by omega))
    obtain ⟨t1, ht1, hP1⟩ := hstep n t (by omega) hP
    refine ⟨t1, ?_, hP1⟩
    rw [List.range_succ, List.foldlM_append, ht]
    simpa [List.foldlM_cons, List.foldlM_nil] using ht1

theorem chrOffset_succ (l : List Int) (k : Nat) :
    chrOffset l (k + 1) = chrOffset l k + (l.getD k 0).toNat := by
  unfold chrOffset
  rw [List.take_succ, List.map_append, List.sum_append, List.getD_eq_getElem?_getD]
  cases l[k]? with
  | none => simp
  | some n => simp

theorem chrOffset_mono (l : List Int) {i k : Nat} (h : i ≤ k) :
    chrOffset l i ≤ chrOffset l k := by
  induction k, h using Nat.le_induction with
  | base => exact le_refl _
  | succ k _ ih =>
    rw [chrOffset_succ]
    omega

theorem sum_map_toNat (l : List Int) (h : ∀ n ∈ l, 0 ≤ n) :
    (((l.map Int.toNat).sum : Nat) : Int) = l.sum := by
  induction l with
  | nil => rfl
  | cons a l ih =>
    have ha : 0 ≤ a := h a (List.mem_cons_self _ _)
    have := ih (fun n hn => h n (List.mem_cons_of_mem _ hn))
    simp only [List.map_cons, List.sum_cons, Nat.cast_add]
    omega

theorem chrOffset_le_sum (l : List Int) (h : ∀ n ∈ l, 0 ≤ n) (k : Nat) :
    ((chrOffset l k : Nat) : Int) ≤ l.sum := by
  have h1 : chrOffset l k ≤ chrOffset l (max k l.length) := chrOffset_mono l (le_max_left _ _)
  have h2 : chrOffset l (max k l.length) = (l.map Int.toNat).sum := by
    unfold chrOffset
    rw [List.take_of_length_le (le_max_right _ _)]
  have h3 := sum_map_toNat l h
  omega

theorem chrOffset_length (l : List Int) (h : ∀ n ∈ l, 0 ≤ n) :
    ((chrOffset l l.length : Nat) : Int) = l.sum := by
  unfold chrOffset
  rw [List.take_length]
  exact sum_map_toNat l h

theorem spanOf_spec (v : List Nat) (a b : Int) (h0 : 0 ≤ a) (hab : a ≤ b)
    (hb : b < v.length) :
    ∃ cl, spanOf v a b = some cl ∧ cl.length = (b - a + 1).toNat ∧
      ∀ q : Nat, q < (b - a + 1).toNat → cl.getD q 0 = v.getD (a.toNat + q) 0 := by
  unfold spanOf
  rw [if_pos ⟨h0, hab, hb⟩]
  refine ⟨_, rfl, ?_, fun q hq => ?_⟩
  · rw [List.length_take, List.length_drop]
    omega
  · rw [List.getD_eq_getElem?_getD, List.getD_eq_getElem?_getD,
      List.getElem?_take_of_lt hq, List.getElem?_drop]

/-- The chromosome loop of an accessor whose block statements satisfy
`BlockFills`: when `lociPerChr` has an entry for every chromosome, the selected
columns fit into the output and into `locs`, and every selected locus lies in
its block, the loop returns, and row `r` of the `q`-th column of chromosome `i`
holds `val` of the `q`-th selected locus of that chromosome. -/
theorem selectLoop_spec (block : Cube → List Nat → Int → Int → Mat → Option Mat) (R C : Nat)
    (ok : Cube → Prop) (val : Cube → Nat → Nat → Cell) (hblock : BlockFills block R ok val)
    (geno : List Cube) (lociPerChr : List Int) (locs : List Nat) (out0 : Mat)
    (hR : out0.n_rows = R) (hC : out0.n_cols = C) (hlen : geno.length ≤ lociPerChr.length)
    (hfitC : chrOffset lociPerChr geno.length ≤ C)
    (hfitL : chrOffset lociPerChr geno.length ≤ locs.length)
    (hok : ∀ (i : Nat) (g : Cube), geno[i]? = some g → 0 < lociPerChr.getD i 0 → ok g)
    (hrange : ∀ (i : Nat) (g : Cube), geno[i]? = some g →
      ∀ q : Nat, q < (lociPerChr.getD i 0).toNat →
        locs.getD (chrOffset lociPerChr i + q) 0 < g.n_rows) :
    ∃ st, (List.range geno.length).foldlM (selectChr block geno lociPerChr locs) (out0, -1)
        = some st ∧ st.1.n_rows = R ∧ st.1.n_cols = C ∧
      ∀ (i : Nat) (g : Cube), geno[i]? = some g →
        ∀ q : Nat, q < (lociPerChr.getD i 0).toNat → ∀ r : Nat, r < R →
          st.1.cell r (chrOffset lociPerChr i + q)
            = val g (locs.getD (chrOffset lociPerChr i + q) 0) r := by
  have hloop := foldlM_range_exists (selectChr block geno lociPerChr locs)
    (fun k st => st.2 = ((chrOffset lociPerChr k : Nat) : Int) - 1 ∧ st.1.n_rows = R ∧
      st.1.n_cols = C ∧
      ∀ (i : Nat) (g : Cube), i < k → geno[i]? = some g →
        ∀ q : Nat, q < (lociPerChr.getD i 0).toNat → ∀ r : Nat, r < R →
          st.1.cell r (chrOffset lociPerChr i + q)
            = val g (locs.getD (chrOffset lociPerChr i + q) 0) r)
    geno.length (out0, -1)
    ⟨by simp [chrOffset], hR, hC, fun i g hi => by omega⟩
    (by
      intro k st hk hP
      obtain ⟨h1, h2, h3, h4⟩ := hP
      have hn : lociPerChr[k]? = some (lociPerChr.getD k 0) := by
        rw [List.getD_eq_getElem?_getD, List.getElem?_eq_getElem (by omega)]
        rfl
      have hg : ∃ g, geno[k]? = some g := ⟨_, List.getElem?_eq_getElem hk⟩
      obtain ⟨g, hg⟩ := hg
      have hsucc := chrOffset_succ lociPerChr k
      have hmono : chrOffset lociPerChr (k + 1) ≤ chrOffset lociPerChr geno.length :=
        chrOffset_mono lociPerChr (by omega)
      by_cases hpos : lociPerChr.getD k 0 > 0
      · obtain ⟨cl, hcl, _, hclget⟩ :=
          spanOf_spec locs (st.2 + 1) (st.2 + lociPerChr.getD k 0) (by omega) (by omega)
            (by omega)
        have hq : (st.2 + lociPerChr.getD k 0 - (st.2 + 1) + 1).toNat
            = (lociPerChr.getD k 0).toNat := by omega
        have hoff : (st.2 + 1).toNat = chrOffset lociPerChr k := by omega
        rw [hq, hoff] at hclget
        have hcllen : cl.length = (lociPerChr.getD k 0).toNat := by
          have := spanOf_spec locs (st.2 + 1) (st.2 + lociPerChr.getD k 0) (by omega)
            (by omega) (by omega)
          obtain ⟨cl1, hcl1, hlen1, _⟩ := this
          rw [hcl] at hcl1
          cases hcl1
          omega
        have hmem : ∀ l ∈ cl, l < g.n_rows := by
          intro l hl
          obtain ⟨q, hq1, hq2⟩ := List.mem_iff_getElem.mp hl
          have h5 := hclget q (by omega)
          rw [List.getD_eq_getElem _ _ hq1, hq2] at h5
          rw [h5]
          exact hrange k g hg q (by omega)
        obtain ⟨out1, hb1, hb2, hb3, hb4⟩ :=
          hblock g cl (st.2 + 1) (st.2 + lociPerChr.getD k 0) st.1 (hok k g hg hpos) hmem
            (by omega) (by omega) (by omega) h2
        have hc1 : out1.n_cols = C := by omega
        have hloc : st.2 + lociPerChr.getD k 0
            = ((chrOffset lociPerChr (k + 1) : Nat) : Int) - 1 := by omega
        refine ⟨(out1, st.2 + lociPerChr.getD k 0), ?_, hloc, hb2, hc1,
          fun i g1 hi hg1 q hq1 r hr => ?_⟩
        · simp only [selectChr, hn, Option.bind_eq_bind, Option.some_bind, if_pos hpos, hcl,
            hg, hb1]
        · simp only
          rw [hb4]
          by_cases hik : i = k
          · subst hik
            rw [hg] at hg1
            cases hg1
            rw [if_pos ⟨hr, by omega, by omega⟩]
            have hidx : (((chrOffset lociPerChr i + q : Nat) : Int) - (st.2 + 1)).toNat = q := by
              omega
            rw [hidx, hclget q hq1]
          · have hlt : chrOffset lociPerChr (i + 1) ≤ chrOffset lociPerChr k :=
              chrOffset_mono lociPerChr (by omega)
            have hs := chrOffset_succ lociPerChr i
            rw [if_neg (by omega)]
            exact h4 i g1 (by omega) hg1 q hq1 r hr
      · refine ⟨st, ?_, by omega, h2, h3, fun i g1 hi hg1 q hq1 r hr => ?_⟩
        · simp only [selectChr, hn, Option.bind_eq_bind, Option.some_bind, if_neg hpos]
        · by_cases hik : i = k
          · subst hik
            omega
          · exact h4 i g1 (by omega) hg1 q hq1 r hr)
  obtain ⟨st, hst, h1, h2, h3, h4⟩ := hloop
  exact ⟨st, hst, h2, h3, fun i g hg q hq r hr =>
    h4 i g (by
      by_contra hcon
      rw [List.getElem?_eq_none (by omega)] at hg
      cases hg) hg q hq r hr⟩

/-! ## The block statements of the three accessors -/

theorem genoBlock_fills (R : Nat) :
    BlockFills genoBlock R (fun g => g.n_slices = R) (fun g l r => sumHomologs g l r) := by
  intro g cl loc1 loc2 out hok hmem _ _ hlt hR
  unfold genoBlock
  rw [if_pos ⟨hmem, hlt, by rw [hok, hR]⟩]
  refine ⟨_, rfl, hR, rfl, fun r c => ?_⟩
  simp only [hR]

theorem block_row (ind p r : Nat) (h1 : ind * p ≤ r) (h2 : r < (ind + 1) * p) :
    r / p = ind ∧ r % p = r - ind * p := by
  have hdiv : r / p = ind := Nat.div_eq_of_lt_le h1 h2
  refine ⟨hdiv, ?_⟩
  have := Nat.mod_add_div r p
  rw [hdiv, Nat.mul_comm] at this
  omega

theorem haploBlock_fills (nInd ploidy : Nat) :
    BlockFills (haploBlock nInd ploidy) (nInd * ploidy)
      (fun g => nInd ≤ g.n_slices ∧ g.n_cols = ploidy ∧ 1 ≤ ploidy)
      (fun g l r => g.cell l (r % ploidy) (r / ploidy)) := by
  intro g cl loc1 loc2 out hok hmem _ _ hlt hR
  obtain ⟨hsl, hcols, hp⟩ := hok
  have hloop := foldlM_range_exists (haploInd g cl ploidy loc1 loc2)
    (fun k o => o.n_rows = nInd * ploidy ∧ o.n_cols = out.n_cols ∧
      ∀ r c : Nat, o.cell r c =
        if r < k * ploidy ∧ loc1 ≤ (c : Int) ∧ (c : Int) ≤ loc2 then
          g.cell (cl.getD ((c : Int) - loc1).toNat 0) (r % ploidy) (r / ploidy)
        else out.cell r c)
    nInd out
    ⟨hR, rfl, fun r c => by rw [if_neg (by omega)]⟩
    (by
      intro ind o hind hQ
      obtain ⟨q1, q2, q3⟩ := hQ
      have hrows : (ind + 1) * ploidy ≤ o.n_rows := by
        rw [q1]
        exact Nat.mul_le_mul_right _ (by omega)
      have hsome : haploInd g cl ploidy loc1 loc2 o ind = some ⟨o.n_rows, o.n_cols, fun r c =>
          if ind * ploidy ≤ r ∧ r < (ind + 1) * ploidy ∧ loc1 ≤ (c : Int) ∧ (c : Int) ≤ loc2 then
            g.cell (cl.getD ((c : Int) - loc1).toNat 0) (r - ind * ploidy) ind
          else o.cell r c⟩ := by
        unfold haploInd
        rw [if_pos ⟨by omega, hmem, hcols, hp, hrows, by omega⟩]
      refine ⟨_, hsome, q1, q2, fun r c => ?_⟩
      simp only
      have hsm : (ind + 1) * ploidy = ind * ploidy + ploidy := Nat.succ_mul _ _
      by_cases hcol : loc1 ≤ (c : Int) ∧ (c : Int) ≤ loc2
      · by_cases hin : ind * ploidy ≤ r ∧ r < (ind + 1) * ploidy
        · obtain ⟨hd, hm⟩ := block_row ind ploidy r hin.1 hin.2
          rw [if_pos ⟨hin.1, hin.2, hcol.1, hcol.2⟩, if_pos ⟨hin.2, hcol.1, hcol.2⟩, hd, hm]
        · rw [if_neg (fun hcon => hin ⟨hcon.1, hcon.2.1⟩), q3]
          by_cases hlow : r < ind * ploidy
          · rw [if_pos ⟨hlow, hcol.1, hcol.2⟩, if_pos ⟨by omega, hcol.1, hcol.2⟩]
          · rw [if_neg (fun hcon => hlow hcon.1), if_neg (fun hcon => by
              have := hcon.1
              omega)]
      · rw [if_neg (fun hcon => hcol ⟨hcon.2.2.1, hcon.2.2.2⟩), q3,
          if_neg (fun hcon => hcol ⟨hcon.2.1, hcon.2.2⟩),
          if_neg (fun hcon => hcol ⟨hcon.2.1, hcon.2.2⟩)])
  obtain ⟨o, ho, h1, h2, h3⟩ := hloop
  exact ⟨o, ho, h1, h2, h3⟩

theorem oneHaploBlock_fills (nInd colSel : Nat) :
    BlockFills (oneHaploBlock nInd colSel) nInd
      (fun g => nInd ≤ g.n_slices ∧ colSel < g.n_cols)
      (fun g l r => g.cell l colSel r) := by
  intro g cl loc1 loc2 out hok hmem _ _ hlt hR
  obtain ⟨hsl, hcol⟩ := hok
  have hloop := foldlM_range_exists (oneHaploInd g cl colSel loc1 loc2)
    (fun k o => o.n_rows = nInd ∧ o.n_cols = out.n_cols ∧
      ∀ r c : Nat, o.cell r c =
        if r < k ∧ loc1 ≤ (c : Int) ∧ (c : Int) ≤ loc2 then
          g.cell (cl.getD ((c : Int) - loc1).toNat 0) colSel r
        else out.cell r c)
    nInd out
    ⟨hR, rfl, fun r c => by rw [if_neg (by omega)]⟩
    (by
      intro ind o hind hQ
      obtain ⟨q1, q2, q3⟩ := hQ
      have hsome : oneHaploInd g cl colSel loc1 loc2 o ind = some ⟨o.n_rows, o.n_cols,
          fun r c =>
            if r = ind ∧ loc1 ≤ (c : Int) ∧ (c : Int) ≤ loc2 then
              g.cell (cl.getD ((c : Int) - loc1).toNat 0) colSel ind
            else o.cell r c⟩ := by
        unfold oneHaploInd
        rw [if_pos ⟨by omega, hmem, hcol, by omega, by omega⟩]
      refine ⟨_, hsome, q1, q2, fun r c => ?_⟩
      simp only
      by_cases hcl : loc1 ≤ (c : Int) ∧ (c : Int) ≤ loc2
      · by_cases hr : r = ind
        · subst hr
          rw [if_pos ⟨rfl, hcl.1, hcl.2⟩, if_pos ⟨by omega, hcl.1, hcl.2⟩]
        · rw [if_neg (fun hcon => hr hcon.1), q3]
          by_cases hlow : r < ind
          · rw [if_pos ⟨hlow, hcl.1, hcl.2⟩, if_pos ⟨by omega, hcl.1, hcl.2⟩]
          · rw [if_neg (fun hcon => hlow hcon.1), if_neg (fun hcon => by
              have := hcon.1
              omega)]
      · rw [if_neg (fun hcon => hcl ⟨hcon.2.1, hcon.2.2⟩), q3,
          if_neg (fun hcon => hcl ⟨hcon.2.1, hcon.2.2⟩),
          if_neg (fun hcon => hcl ⟨hcon.2.1, hcon.2.2⟩)])
  obtain ⟨o, ho, h1, h2, h3⟩ := hloop
  exact ⟨o, ho, h1, h2, h3⟩

/-! ## What the accessors return -/

theorem sumHomologs_eq (g : Cube) (r s : Nat)
    (hw : ∀ h : Nat, h < g.n_cols → (g.cell r h s).isSome = true) :
    sumHomologs g r s = some (homologSum g r s % 256) := by
  unfold sumHomologs homologSum
  have key : ∀ n : Nat, (∀ h : Nat, h < n → (g.cell r h s).isSome = true) →
      (List.range n).foldl (fun acc h => add8 acc (g.cell r h s)) (some 0)
        = some (((List.range n).map fun h => (g.cell r h s).getD 0).sum % 256) := by
    intro n
    induction n with
    | zero => intro _; rfl
    | succ n ih =>
      intro hn
      rw [List.range_succ, List.foldl_append, ih (fun h hh => hn h (by omega)),
        List.map_append, List.sum_append]
      obtain ⟨a, ha⟩ := Option.isSome_iff_exists.mp (hn n (by omega))
      simp only [List.foldl_cons, List.foldl_nil, ha, add8, List.map_cons, List.map_nil,
        List.sum_cons, List.sum_nil, Option.getD_some, Nat.add_zero]
      congr 1
      omega
  exact key g.n_cols hw

theorem selection_facts {geno : List Cube} {lociPerChr : List Int} {lociLoc : List Nat}
    (hsel : LociSelection geno lociPerChr lociLoc) :
    ¬ lociPerChr.sum < 0 ∧ geno.length ≤ lociPerChr.length ∧
    chrOffset lociPerChr geno.length ≤ lociPerChr.sum.toNat ∧
    chrOffset lociPerChr geno.length ≤ (lociLoc.map uwordPred).length ∧
    ∀ (i : Nat) (g : Cube), geno[i]? = some g →
      ∀ q : Nat, q < (lociPerChr.getD i 0).toNat →
        (lociLoc.map uwordPred).getD (chrOffset lociPerChr i + q) 0
          = lociLoc.getD (chrOffset lociPerChr i + q) 0 - 1 ∧
        (lociLoc.map uwordPred).getD (chrOffset lociPerChr i + q) 0 < g.n_rows := by
  obtain ⟨hlen, hnn, hloc, hbase, hrange⟩ := hsel
  have hle := chrOffset_le_sum lociPerChr hnn geno.length
  refine ⟨by omega, by omega, by omega, by rw [List.length_map]; omega, fun i g hg q hq => ?_⟩
  have hi : i < geno.length := by
    by_contra hcon
    rw [List.getElem?_eq_none (by omega)] at hg
    cases hg
  have hgD : geno.getD i (Cube.fresh 0 0 0) = g := by
    rw [List.getD_eq_getElem?_getD, hg]
    rfl
  have hr := hrange i hi q hq
  rw [hgD] at hr
  have hsucc := chrOffset_succ lociPerChr i
  have hmono : chrOffset lociPerChr (i + 1) ≤ chrOffset lociPerChr geno.length :=
    chrOffset_mono lociPerChr (by omega)
  have hidx : chrOffset lociPerChr i + q < lociLoc.length := by omega
  have hmemb : lociLoc.getD (chrOffset lociPerChr i + q) 0 ∈ lociLoc := by
    rw [List.getD_eq_getElem _ _ hidx]
    exact List.getElem_mem _
  obtain ⟨hb1, hb2⟩ := hbase _ hmemb
  have hmap : (lociLoc.map uwordPred).getD (chrOffset lociPerChr i + q) 0
      = uwordPred (lociLoc.getD (chrOffset lociPerChr i + q) 0) := by
    rw [List.getD_eq_getElem _ _ (by rw [List.length_map]; exact hidx),
      List.getD_eq_getElem _ _ hidx, List.getElem_map]
  rw [hmap, uwordPred_of_pos hb1 hb2]
  exact ⟨rfl, by omega⟩

/-- On a store whose blocks share the individual count `nInd`, and for a locus
selection, `getGeno` returns a matrix of `nInd` rows and `sum(lociPerChr)`
columns whose cell in row `ind` of the `q`-th column of chromosome `i` is the
8-bit sum over the homologs of the selected locus of individual `ind`. -/
theorem getGeno_spec (geno : List Cube) (lociPerChr : List Int) (lociLoc : List Nat)
    (nInd : Nat) (hne : 0 < geno.length) (hInd : ∀ g ∈ geno, g.n_slices = nInd)
    (hsel : LociSelection geno lociPerChr lociLoc) :
    ∃ out, getGeno geno lociPerChr lociLoc = some out ∧ out.n_rows = nInd ∧
      (out.n_cols : Int) = lociPerChr.sum ∧
      ∀ (i : Nat) (g : Cube), geno[i]? = some g →
        ∀ q : Nat, q < (lociPerChr.getD i 0).toNat → ∀ ind : Nat, ind < nInd →
          out.cell ind (chrOffset lociPerChr i + q)
            = sumHomologs g (lociLoc.getD (chrOffset lociPerChr i + q) 0 - 1) ind := by
  obtain ⟨hsum, hlen, hfitC, hfitL, hlocs⟩ := selection_facts hsel
  have hg0 : ∃ g0, geno[0]? = some g0 := ⟨_, List.getElem?_eq_getElem hne⟩
  obtain ⟨g0, hg0⟩ := hg0
  have hn0 : g0.n_slices = nInd := hInd g0 (List.getElem?_mem hg0)
  obtain ⟨st, hst, h1, h2, h3⟩ :=
    selectLoop_spec genoBlock nInd lociPerChr.sum.toNat (fun g => g.n_slices = nInd)
      (fun g l r => sumHomologs g l r) (genoBlock_fills nInd) geno lociPerChr
      (lociLoc.map uwordPred) (Mat.fresh g0.n_slices lociPerChr.sum.toNat) hn0 rfl hlen hfitC
      hfitL (fun i g hg _ => hInd g (List.getElem?_mem hg))
      (fun i g hg q hq => (hlocs i g hg q hq).2)
  refine ⟨st.1, ?_, h1, by omega, fun i g hg q hq ind hind => ?_⟩
  · unfold getGeno
    rw [hg0]
    simp only [if_neg hsum, hst, Option.map_some']
  · rw [h3 i g hg q hq ind hind, (hlocs i g hg q hq).1]

/-- On a store whose blocks share the individual count `nInd` and the homolog
count `ploidy ≥ 1`, and for a locus selection, `getHaplo` returns a matrix of
`nInd * ploidy` rows and `sum(lociPerChr)` columns whose cell in row `r` of the
`q`-th column of chromosome `i` is the cell of the selected locus in homolog
`r % ploidy` of individual `r / ploidy`. -/
theorem getHaplo_spec (geno : List Cube) (lociPerChr : List Int) (lociLoc : List Nat)
    (nInd ploidy : Nat) (hne : 0 < geno.length)
    (hInd : ∀ g ∈ geno, g.n_slices = nInd ∧ g.n_cols = ploidy) (hp : 1 ≤ ploidy)
    (hsel : LociSelection geno lociPerChr lociLoc) :
    ∃ out, getHaplo geno lociPerChr lociLoc = some out ∧ out.n_rows = nInd * ploidy ∧
      (out.n_cols : Int) = lociPerChr.sum ∧
      ∀ (i : Nat) (g : Cube), geno[i]? = some g →
        ∀ q : Nat, q < (lociPerChr.getD i 0).toNat → ∀ r : Nat, r < nInd * ploidy →
          out.cell r (chrOffset lociPerChr i + q)
            = g.cell (lociLoc.getD (chrOffset lociPerChr i + q) 0 - 1) (r % ploidy)
                (r / ploidy) := by
  obtain ⟨hsum, hlen, hfitC, hfitL, hlocs⟩ := selection_facts hsel
  have hg0 : ∃ g0, geno[0]? = some g0 := ⟨_, List.getElem?_eq_getElem hne⟩
  obtain ⟨g0, hg0⟩ := hg0
  obtain ⟨hn0, hc0⟩ := hInd g0 (List.getElem?_mem hg0)
  obtain ⟨st, hst, h1, h2, h3⟩ :=
    selectLoop_spec (haploBlock nInd ploidy) (nInd * ploidy) lociPerChr.sum.toNat
      (fun g => nInd ≤ g.n_slices ∧ g.n_cols = ploidy ∧ 1 ≤ ploidy)
      (fun g l r => g.cell l (r % ploidy) (r / ploidy)) (haploBlock_fills nInd ploidy) geno
      lociPerChr (lociLoc.map uwordPred) (Mat.fresh (nInd * ploidy) lociPerChr.sum.toNat) rfl
      rfl hlen hfitC hfitL
      (fun i g hg _ => ⟨le_of_eq (hInd g (List.getElem?_mem hg)).1.symm,
        (hInd g (List.getElem?_mem hg)).2, hp⟩)
      (fun i g hg q hq => (hlocs i g hg q hq).2)
  refine ⟨st.1, ?_, h1, by omega, fun i g hg q hq r hr => ?_⟩
  · unfold getHaplo
    rw [hg0]
    simp only [if_neg hsum, hn0, hc0, hst, Option.map_some']
  · rw [h3 i g hg q hq r hr, (hlocs i g hg q hq).1]

/-- On a store whose blocks share the individual count `nInd` and the homolog
count `ploidy`, for a locus selection and a 1-based selector
`1 ≤ haplo ≤ ploidy` (an `int`), `getOneHaplo` returns a matrix of `nInd` rows
and `sum(lociPerChr)` columns whose cell in row `ind` of the `q`-th column of
chromosome `i` is the cell of the selected locus in homolog `haplo - 1` of
individual `ind`. -/
theorem getOneHaplo_spec (geno : List Cube) (lociPerChr : List Int) (lociLoc : List Nat)
    (haplo : Int) (nInd ploidy : Nat) (hne : 0 < geno.length)
    (hInd : ∀ g ∈ geno, g.n_slices = nInd ∧ g.n_cols = ploidy)
    (hh1 : 1 ≤ haplo) (hh2 : haplo ≤ ploidy) (hh3 : haplo < 2 ^ 31)
    (hsel : LociSelection geno lociPerChr lociLoc) :
    ∃ out, getOneHaplo geno lociPerChr lociLoc haplo = some out ∧ out.n_rows = nInd ∧
      (out.n_cols : Int) = lociPerChr.sum ∧
      ∀ (i : Nat) (g : Cube), geno[i]? = some g →
        ∀ q : Nat, q < (lociPerChr.getD i 0).toNat → ∀ ind : Nat, ind < nInd →
          out.cell ind (chrOffset lociPerChr i + q)
            = g.cell (lociLoc.getD (chrOffset lociPerChr i + q) 0 - 1) (haplo - 1).toNat
                ind := by
  obtain ⟨hsum, hlen, hfitC, hfitL, hlocs⟩ := selection_facts hsel
  have hg0 : ∃ g0, geno[0]? = some g0 := ⟨_, List.getElem?_eq_getElem hne⟩
  obtain ⟨g0, hg0⟩ := hg0
  obtain ⟨hn0, hc0⟩ := hInd g0 (List.getElem?_mem hg0)
  have hsel0 : uwordOfInt (haplo - 1) = (haplo - 1).toNat := by
    unfold uwordOfInt uwordBits
    rw [Int.emod_eq_of_lt (by omega) (by omega)]
  obtain ⟨st, hst, h1, h2, h3⟩ :=
    selectLoop_spec (oneHaploBlock nInd (haplo - 1).toNat) nInd lociPerChr.sum.toNat
      (fun g => nInd ≤ g.n_slices ∧ (haplo - 1).toNat < g.n_cols)
      (fun g l r => g.cell l (haplo - 1).toNat r) (oneHaploBlock_fills nInd (haplo - 1).toNat)
      geno lociPerChr (lociLoc.map uwordPred) (Mat.fresh nInd lociPerChr.sum.toNat) rfl rfl hlen
      hfitC hfitL
      (fun i g hg _ => ⟨le_of_eq (hInd g (List.getElem?_mem hg)).1.symm, by
        rw [(hInd g (List.getElem?_mem hg)).2]
        omega⟩)
      (fun i g hg q hq => (hlocs i g hg q hq).2)
  refine ⟨st.1, ?_, h1, by omega, fun i g hg q hq ind hind => ?_⟩
  · unfold getOneHaplo
    rw [hg0]
    simp only [if_neg hsum, hn0, hsel0, hst, Option.map_some']
  · rw [h3 i g hg q hq ind hind, (hlocs i g hg q hq).1]

/-! ## Claims about `intervalSearch` -/

/-- C2: on a non-decreasing vector `x` of length `n ≥ 2`, for `left` in
`0 .. n-1` and `x[left] ≤ value < x[n-1]`, `intervalSearch(x, value, left)`
returns an index `i` with `left ≤ i < n-1` and `x[i] ≤ value < x[i+1]`. -/
theorem intervalSearch_returns_interval (x : List ℚ) (value : ℚ) (left : Int)
    (hs : x.Sorted (· ≤ ·)) (hn : 2 ≤ x.length) (h0 : 0 ≤ left)
    (h1 : left ≤ (x.length : Int) - 1) (hlo : posAt x left ≤ value)
    (hhi : value < posAt x ((x.length : Int) - 1)) :
    ∃ i : Int, intervalSearch x value left = some i ∧ left ≤ i ∧ i < (x.length : Int) - 1 ∧
      posAt x i ≤ value ∧ value < posAt x (i + 1) := by
  obtain ⟨e, he, hle, hlt, hsplit⟩ := intervalSearch_sorted x value left hs h0 (by omega) hlo
  have hlast : ¬ (x.length - 1 ≤ e) := by
    intro hcon
    have := (hsplit (x.length - 1) (by omega)).mp hcon
    have h2 : posAt x ((x.length : Int) - 1) = x.getD (x.length - 1) 0 := by
      unfold posAt; congr 1; omega
    rw [h2] at hhi
    exact absurd hhi (not_lt.mpr this)
  refine ⟨(e : Int), he, hle, by omega, ?_, ?_⟩
  · rw [posAt_natCast]
    exact (hsplit e hlt).mp (le_refl _)
  · have h3 : posAt x ((e : Int) + 1) = x.getD (e + 1) 0 := by
      unfold posAt; congr 1
    rw [h3]
    exact not_le.mp (fun hcon => absurd ((hsplit (e + 1) (by omega)).mpr hcon) (by omega))

/-- C7: on a non-decreasing vector `x`, for a value `v` that occurs in `x`,
`intervalSearch(x, v, 0)` returns the largest index `i` with `x[i] = v`. -/
theorem intervalSearch_rightmost_tie (x : List ℚ) (v : ℚ) (hs : x.Sorted (· ≤ ·))
    (hv : v ∈ x) :
    ∃ i : Nat, intervalSearch x v 0 = some (i : Int) ∧ i < x.length ∧ x.getD i 0 = v ∧
      ∀ j : Nat, j < x.length → x.getD j 0 = v → j ≤ i := by
  obtain ⟨k, hk, hkv⟩ := List.mem_iff_getElem.mp hv
  have hkv2 : x.getD k 0 = v := by rw [List.getD_eq_getElem _ _ hk]; exact hkv
  have h0v : posAt x 0 ≤ v := by
    have := sorted_getD_le hs (Nat.zero_le k) hk
    rw [hkv2] at this
    simpa [posAt] using this
  obtain ⟨e, he, _, hlt, hsplit⟩ :=
    intervalSearch_sorted x v 0 hs (le_refl _) (by omega) h0v
  have hke : k ≤ e := (hsplit k hk).mpr (le_of_eq hkv2)
  refine ⟨e, he, hlt, le_antisymm ((hsplit e hlt).mp (le_refl _)) ?_, fun j hj hjv => ?_⟩
  · rw [← hkv2]
    exact sorted_getD_le hs hke hlt
  · exact (hsplit j hj).mpr (le_of_eq hjv)

/-- C8: on any vector `x` and for `left` in `0 .. n-1` (so the length `n` is at least 1),
`intervalSearch(x, value, left)` returns the sentinel `-1` exactly when
`value < x[left]`, and a non-negative index otherwise. -/
theorem intervalSearch_sentinel_iff (x : List ℚ) (value : ℚ) (left : Int)
    (h0 : 0 ≤ left) (h1 : left ≤ (x.length : Int) - 1) :
    ∃ r : Int, intervalSearch x value left = some r ∧ (r = -1 ↔ value < posAt x left) ∧
      (¬ value < posAt x left → 0 ≤ r) := by
  obtain ⟨r, hr, hiff, hrange⟩ := intervalSearch_total x value left h0 (by omega)
  refine ⟨r, hr, hiff, fun hnot => ?_⟩
  rcases hrange with h | h
  · exact absurd (hiff.mp h) hnot
  · omega

/-- C9: on a non-decreasing vector `x` of length `n ≥ 1`, for `left` in
`0 .. n-1` and `value ≥ x[n-1]`, `intervalSearch(x, value, left)` returns the
last index `n-1`. -/
theorem intervalSearch_past_end (x : List ℚ) (value : ℚ) (left : Int)
    (hs : x.Sorted (· ≤ ·)) (hn : 1 ≤ x.length) (h0 : 0 ≤ left)
    (h1 : left ≤ (x.length : Int) - 1) (hv : posAt x ((x.length : Int) - 1) ≤ value) :
    intervalSearch x value left = some ((x.length : Int) - 1) := by
  have hlv : posAt x left ≤ value :=
    le_trans (sorted_posAt_le hs h0 h1 (by omega)) hv
  obtain ⟨e, he, _, hlt, hsplit⟩ := intervalSearch_sorted x value left hs h0 (by omega) hlv
  have h2 : posAt x ((x.length : Int) - 1) = x.getD (x.length - 1) 0 := by
    unfold posAt; congr 1; omega
  rw [h2] at hv
  have := (hsplit (x.length - 1) (by omega)).mpr hv
  rw [he]
  congr 1
  omega

/-- C10: on a non-decreasing vector `x`, a search restarted at any `left` in
`0 .. n-1` with `x[left] ≤ value` returns the index that the search from 0
returns; hence for `v1 ≤ v2` and `e = intervalSearch(x, v1, 0) ≥ 0`, the chained
search `intervalSearch(x, v2, e)` returns the index that `intervalSearch(x, v2, 0)`
returns. -/
theorem intervalSearch_restart (x : List ℚ) (value v1 v2 : ℚ) (left e : Int)
    (hs : x.Sorted (· ≤ ·)) :
    (0 ≤ left → left ≤ (x.length : Int) - 1 → posAt x left ≤ value →
      ∃ i : Int, 0 ≤ i ∧ intervalSearch x value left = some i ∧
        intervalSearch x value 0 = some i) ∧
    (v1 ≤ v2 → intervalSearch x v1 0 = some e → 0 ≤ e →
      ∃ i : Int, 0 ≤ i ∧ intervalSearch x v2 e = some i ∧
        intervalSearch x v2 0 = some i) := by
  have restart : ∀ (w : ℚ) (l : Int), 0 ≤ l → l ≤ (x.length : Int) - 1 → posAt x l ≤ w →
      ∃ i : Int, 0 ≤ i ∧ intervalSearch x w l = some i ∧ intervalSearch x w 0 = some i := by
    intro w l hl0 hl1 hlw
    have h0w : posAt x 0 ≤ w := le_trans (sorted_posAt_le hs (le_refl _) hl0 (by omega)) hlw
    obtain ⟨a, ha, _, halt, hsa⟩ := intervalSearch_sorted x w l hs hl0 (by omega) hlw
    obtain ⟨b, hb, _, hblt, hsb⟩ := intervalSearch_sorted x w 0 hs (le_refl _) (by omega) h0w
    have hab : a = b :=
      le_antisymm ((hsb a halt).mpr ((hsa a halt).mp (le_refl _)))
        ((hsa b hblt).mpr ((hsb b hblt).mp (le_refl _)))
    exact ⟨(b : Int), by omega, by rw [ha, hab], hb⟩
  refine ⟨restart value left, fun h12 he he0 => ?_⟩
  have hlen : (0 : Int) < x.length := by
    unfold intervalSearch at he
    cases hr : readAt x 0 with
    | none => rw [hr] at he; cases he
    | some w => exact (readAt_some_bounds hr).2
  obtain ⟨r, hr, hiff, _⟩ := intervalSearch_total x v1 0 (le_refl _) hlen
  rw [he] at hr
  have hre : e = r := Option.some.inj hr
  have h0v : posAt x 0 ≤ v1 := not_lt.mp (fun hcon => by
    have := hiff.mpr hcon
    omega)
  obtain ⟨a, ha, _, halt, hsa⟩ := intervalSearch_sorted x v1 0 hs (le_refl _) hlen h0v
  rw [he] at ha
  have hea : e = (a : Int) := Option.some.inj ha
  have hxe : posAt x e ≤ v1 := by
    rw [hea, posAt_natCast]
    exact (hsa a halt).mp (le_refl _)
  exact restart v2 e he0 (by omega) (le_trans hxe h12)

/-- Witness for C2: the map `[0, 1, 1, 3]`, `value = 1`, `left = 0`. -/
theorem intervalSearch_returns_interval_witness :
    (([0, 1, 1, 3] : List ℚ).Sorted (· ≤ ·) ∧ 2 ≤ ([0, 1, 1, 3] : List ℚ).length ∧
      posAt [0, 1, 1, 3] 0 ≤ 1 ∧ (1 : ℚ) < posAt [0, 1, 1, 3] 3) ∧
    ∃ i : Int, intervalSearch [0, 1, 1, 3] 1 0 = some i ∧ 0 ≤ i ∧
      i < (([0, 1, 1, 3] : List ℚ).length : Int) - 1 ∧
      posAt [0, 1, 1, 3] i ≤ 1 ∧ 1 < posAt [0, 1, 1, 3] (i + 1) :=
  ⟨⟨by with_unfolding_all decide, by decide, by with_unfolding_all decide,
      by with_unfolding_all decide⟩,
    intervalSearch_returns_interval [0, 1, 1, 3] 1 0 (by with_unfolding_all decide)
      (by decide) (by decide) (by decide) (by with_unfolding_all decide)
      (by with_unfolding_all decide)⟩

/-- Witness for C7: the value 1 occurs twice in `[0, 1, 1, 3]`. -/
theorem intervalSearch_rightmost_tie_witness :
    (([0, 1, 1, 3] : List ℚ).Sorted (· ≤ ·) ∧ (1 : ℚ) ∈ ([0, 1, 1, 3] : List ℚ)) ∧
    ∃ i : Nat, intervalSearch [0, 1, 1, 3] 1 0 = some (i : Int) ∧
      i < ([0, 1, 1, 3] : List ℚ).length ∧ ([0, 1, 1, 3] : List ℚ).getD i 0 = 1 ∧
      ∀ j : Nat, j < ([0, 1, 1, 3] : List ℚ).length →
        ([0, 1, 1, 3] : List ℚ).getD j 0 = 1 → j ≤ i :=
  ⟨⟨by with_unfolding_all decide, by with_unfolding_all decide⟩,
    intervalSearch_rightmost_tie [0, 1, 1, 3] 1 (by with_unfolding_all decide)
      (by with_unfolding_all decide)⟩

/-- Witness for C8: an unsorted vector, searched from `left = 1`. -/
theorem intervalSearch_sentinel_iff_witness :
    ((0 : Int) ≤ 1 ∧
      (1 : Int) ≤ (([2, 0, 5, 1] : List ℚ).length : Int) - 1) ∧
    ∃ r : Int, intervalSearch [2, 0, 5, 1] (1 / 2) 1 = some r ∧
      (r = -1 ↔ (1 / 2 : ℚ) < posAt [2, 0, 5, 1] 1) ∧
      (¬ (1 / 2 : ℚ) < posAt [2, 0, 5, 1] 1 → 0 ≤ r) :=
  ⟨⟨by decide, by decide⟩,
    intervalSearch_sentinel_iff [2, 0, 5, 1] (1 / 2) 1 (by decide) (by decide)⟩

/-- Witness for C9: a query past the end of `[0, 1, 1, 3]`, searched from `left = 2`. -/
theorem intervalSearch_past_end_witness :
    (([0, 1, 1, 3] : List ℚ).Sorted (· ≤ ·) ∧ posAt [0, 1, 1, 3] 3 ≤ 7 / 2) ∧
    intervalSearch [0, 1, 1, 3] (7 / 2) 2 = some ((([0, 1, 1, 3] : List ℚ).length : Int) - 1) :=
  ⟨⟨by with_unfolding_all decide, by with_unfolding_all decide⟩,
    intervalSearch_past_end [0, 1, 1, 3] (7 / 2) 2 (by with_unfolding_all decide) (by decide)
      (by decide) (by decide) (by with_unfolding_all decide)⟩

/-- Witness for C10: on `[0, 1, 1, 3]`, the restart at `left = 1` for
`value = 2`, and the chained searches for `v1 = 1`, `v2 = 2` (where `e = 2`). -/
theorem intervalSearch_restart_witness :
    (([0, 1, 1, 3] : List ℚ).Sorted (· ≤ ·) ∧ posAt [0, 1, 1, 3] 1 ≤ 2 ∧
      (1 : ℚ) ≤ 2 ∧ intervalSearch [0, 1, 1, 3] 1 0 = some 2) ∧
    (∃ i : Int, 0 ≤ i ∧ intervalSearch [0, 1, 1, 3] 2 1 = some i ∧
      intervalSearch [0, 1, 1, 3] 2 0 = some i) ∧
    (∃ i : Int, 0 ≤ i ∧ intervalSearch [0, 1, 1, 3] 2 2 = some i ∧
      intervalSearch [0, 1, 1, 3] 2 0 = some i) :=
  have hs : ([0, 1, 1, 3] : List ℚ).Sorted (· ≤ ·) := by with_unfolding_all decide
  have hv : posAt [0, 1, 1, 3] 1 ≤ 2 := by with_unfolding_all decide
  have h12 : (1 : ℚ) ≤ 2 := by with_unfolding_all decide
  have he : intervalSearch [0, 1, 1, 3] 1 0 = some 2 := by with_unfolding_all decide
  ⟨⟨hs, hv, h12, he⟩,
    (intervalSearch_restart [0, 1, 1, 3] 2 1 2 1 2 hs).1 (by decide) (by decide) hv,
    (intervalSearch_restart [0, 1, 1, 3] 2 1 2 1 2 hs).2 h12 he (by decide)⟩

/-! ## Claims about `bivalent` -/

/-- C1: `bivalent` with `k ≥ 1` crossovers, on homologs of equal length
`n ≥ 1`, a non-decreasing map of length `n` and (sorted) crossover positions
none of which is below `map[0]`: the gamete has length `n` and its locus `j` is
copied from the starting chromosome (`chr1` for coin 1, `chr2` for coin 0) when
the number of crossover positions `p_i < map[j]` is even, and from the other
chromosome when that number is odd. -/
theorem bivalent_crossover_parity (chr1 chr2 : List Cell) (genMap : List ℚ) (d : GameteDraws)
    (hn : 1 ≤ chr1.length) (h2 : chr2.length = chr1.length)
    (hm : genMap.length = chr1.length) (hs : genMap.Sorted (· ≤ ·))
    (hk : 1 ≤ d.randu.length)
    (hp : ∀ p ∈ crossoverPositions (posAt genMap ((chr1.length : Int) - 1)) d.randu,
      posAt genMap 0 ≤ p) :
    (crossoverPositions (posAt genMap ((chr1.length : Int) - 1)) d.randu).Sorted (· ≤ ·) ∧
    ∃ gamete, bivalent chr1 chr2 genMap d = some gamete ∧ gamete.length = chr1.length ∧
      ∀ j : Nat, j < chr1.length →
        gamete[j]? =
          if crossoversBelow (crossoverPositions (posAt genMap ((chr1.length : Int) - 1))
              d.randu) (genMap.getD j 0) % 2 = 0
          then (startChr chr1 chr2 d.coin)[j]? else (otherChr chr1 chr2 d.coin)[j]? := by
  refine ⟨List.sorted_insertionSort _ _, ?_⟩
  obtain ⟨g, hg, hlen, hcell⟩ :=
    bivalent_crossover_spec chr1 chr2 genMap d hn h2 hm hs (by omega) hp
  refine ⟨g, hg, hlen, fun j hj => ?_⟩
  rw [hcell j hj, activeChr_parity]
  split <;> rfl

/-- C3: `bivalent` with no crossover (`k = 0`) returns `chr1` itself when the
coin is 1 and `chr2` itself when the coin is 0 (the map length `genMap(nSites-1)`
must be readable: `1 ≤ nSites ≤ genMap.n_elem`). -/
theorem bivalent_no_crossover (chr1 chr2 : List Cell) (genMap : List ℚ) (d : GameteDraws)
    (hn : 1 ≤ chr1.length) (hm : chr1.length ≤ genMap.length) (hk : d.randu.length = 0) :
    bivalent chr1 chr2 genMap d = some (if d.coin then chr1 else chr2) := by
  unfold bivalent
  rw [readAt_eq_posAt (by omega) (by omega)]
  simp only [if_pos hk]
  split <;> rfl

/-- C4: `bivalent` with exactly one crossover at position `p = u * L`, on a
non-decreasing map with `map[0] ≤ p` and homologs of equal length `n`: with
`e = intervalSearch(map, p, 0)`, the gamete equals the starting chromosome on
the loci `0 .. e` and the other chromosome on the loci `e+1 .. n-1`.  On the map
`[0, 1]` with `chr1 = [0,0]`, `chr2 = [1,1]` and `p = 1/2` the gamete is `[0,1]`
when the coin starts on `chr1` and `[1,0]` when it starts on `chr2`. -/
theorem bivalent_single_crossover (chr1 chr2 : List Cell) (genMap : List ℚ) (u : ℚ)
    (coin : Bool) (hn : 1 ≤ chr1.length) (h2 : chr2.length = chr1.length)
    (hm : genMap.length = chr1.length) (hs : genMap.Sorted (· ≤ ·))
    (hp : posAt genMap 0 ≤ u * posAt genMap ((chr1.length : Int) - 1)) :
    (∃ e : Int, intervalSearch genMap (u * posAt genMap ((chr1.length : Int) - 1)) 0 = some e ∧
      0 ≤ e ∧ e ≤ (chr1.length : Int) - 1 ∧
      ∃ gamete, bivalent chr1 chr2 genMap ⟨[u], coin⟩ = some gamete ∧
        gamete.length = chr1.length ∧
        ∀ j : Nat, j < chr1.length →
          gamete[j]? = if (j : Int) ≤ e then (startChr chr1 chr2 coin)[j]?
            else (otherChr chr1 chr2 coin)[j]?) ∧
    bivalent [some 0, some 0] [some 1, some 1] [0, 1] ⟨[1 / 2], true⟩ = some [some 0, some 1] ∧
    bivalent [some 0, some 0] [some 1, some 1] [0, 1] ⟨[1 / 2], false⟩
      = some [some 1, some 0] := by
  refine ⟨?_, by with_unfolding_all decide, by with_unfolding_all decide⟩
  have hpos : crossoverPositions (posAt genMap ((chr1.length : Int) - 1)) [u] =
      [u * posAt genMap ((chr1.length : Int) - 1)] := by
    simp [crossoverPositions]
  obtain ⟨e, he, _, hen, hsplit⟩ :=
    intervalSearch_sorted genMap (u * posAt genMap ((chr1.length : Int) - 1)) 0 hs (le_refl _)
      (by omega) hp
  obtain ⟨g, hg, hlen, hcell⟩ :=
    bivalent_crossover_spec chr1 chr2 genMap ⟨[u], coin⟩ hn h2 hm hs (by simp)
      (by
        intro p hp1
        rw [hpos] at hp1
        rw [List.mem_singleton.mp hp1]
        exact hp)
  refine ⟨(e : Int), he, by omega, by omega, g, hg, hlen, fun j hj => ?_⟩
  rw [hcell j hj, activeChr_parity]
  have hcount : crossoversBelow [u * posAt genMap ((chr1.length : Int) - 1)]
      (genMap.getD j 0) =
      if u * posAt genMap ((chr1.length : Int) - 1) < genMap.getD j 0 then 1 else 0 := by
    rw [crossoversBelow_cons]
    simp [crossoversBelow]
  simp only [hpos, hcount]
  by_cases hje : j ≤ e
  · have hxj : genMap.getD j 0 ≤ u * posAt genMap ((chr1.length : Int) - 1) :=
      (hsplit j (by omega)).mp hje
    rw [if_neg (not_lt.mpr hxj), if_pos (show 0 % 2 = 0 by decide),
      if_pos (show (j : Int) ≤ (e : Int) by omega)]
  · have hxj : u * posAt genMap ((chr1.length : Int) - 1) < genMap.getD j 0 :=
      not_le.mp (fun hcon => hje ((hsplit j (by omega)).mpr hcon))
    rw [if_pos hxj, if_neg (show ¬ (1 % 2 = 0) by decide),
      if_neg (show ¬ (j : Int) ≤ (e : Int) by omega)]

/-- Witness for C1: two crossovers, at 3/10 and 4/5, on the map `[0, 1/2, 1]`. -/
theorem bivalent_crossover_parity_witness :
    (([0, 1 / 2, 1] : List ℚ).Sorted (· ≤ ·) ∧
      ∀ p ∈ crossoverPositions (posAt [0, 1 / 2, 1] 2) [4 / 5, 3 / 10],
        posAt [0, 1 / 2, 1] 0 ≤ p) ∧
    ((crossoverPositions (posAt [0, 1 / 2, 1]
        ((([some 0, some 0, some 0] : List Cell).length : Int) - 1)) [4 / 5, 3 / 10]).Sorted
        (· ≤ ·) ∧
    ∃ gamete, bivalent [some 0, some 0, some 0] [some 1, some 1, some 1] [0, 1 / 2, 1]
        ⟨[4 / 5, 3 / 10], true⟩ = some gamete ∧
      gamete.length = ([some 0, some 0, some 0] : List Cell).length ∧
      ∀ j : Nat, j < ([some 0, some 0, some 0] : List Cell).length →
        gamete[j]? =
          if crossoversBelow (crossoverPositions (posAt [0, 1 / 2, 1]
              ((([some 0, some 0, some 0] : List Cell).length : Int) - 1)) [4 / 5, 3 / 10])
              (([0, 1 / 2, 1] : List ℚ).getD j 0) % 2 = 0
          then (startChr [some 0, some 0, some 0] [some 1, some 1, some 1] true)[j]?
          else (otherChr [some 0, some 0, some 0] [some 1, some 1, some 1] true)[j]?) :=
  ⟨⟨by with_unfolding_all decide, by with_unfolding_all decide⟩,
    bivalent_crossover_parity [some 0, some 0, some 0] [some 1, some 1, some 1] [0, 1 / 2, 1]
      ⟨[4 / 5, 3 / 10], true⟩ (by decide) (by decide) (by decide)
      (by with_unfolding_all decide) (by decide) (by with_unfolding_all decide)⟩

/-- Witness for C3: no crossover on a two-locus chromosome, coin 0. -/
theorem bivalent_no_crossover_witness :
    (1 ≤ ([some 0, some 1] : List Cell).length ∧
      ([some 0, some 1] : List Cell).length ≤ ([0, 1] : List ℚ).length ∧
      (GameteDraws.mk [] false).randu.length = 0) ∧
    bivalent [some 0, some 1] [some 1, some 0] [0, 1] ⟨[], false⟩ =
      some (if (GameteDraws.mk [] false).coin then [some 0, some 1] else [some 1, some 0]) :=
  ⟨⟨by decide, by decide, by decide⟩,
    bivalent_no_crossover [some 0, some 1] [some 1, some 0] [0, 1] ⟨[], false⟩ (by decide)
      (by decide) (by decide)⟩

/-- Witness for C4: the two-locus scenario, coin on `chr1`. -/
theorem bivalent_single_crossover_witness :
    (([0, 1] : List ℚ).Sorted (· ≤ ·) ∧ posAt [0, 1] 0 ≤ 1 / 2 * posAt [0, 1] 1) ∧
    ((∃ e : Int, intervalSearch [0, 1] (1 / 2 * posAt [0, 1]
        ((([some 0, some 0] : List Cell).length : Int) - 1)) 0 = some e ∧
      0 ≤ e ∧ e ≤ (([some 0, some 0] : List Cell).length : Int) - 1 ∧
      ∃ gamete, bivalent [some 0, some 0] [some 1, some 1] [0, 1] ⟨[1 / 2], true⟩ = some gamete ∧
        gamete.length = ([some 0, some 0] : List Cell).length ∧
        ∀ j : Nat, j < ([some 0, some 0] : List Cell).length →
          gamete[j]? = if (j : Int) ≤ e then (startChr [some 0, some 0] [some 1, some 1] true)[j]?
            else (otherChr [some 0, some 0] [some 1, some 1] true)[j]?) ∧
    bivalent [some 0, some 0] [some 1, some 1] [0, 1] ⟨[1 / 2], true⟩ = some [some 0, some 1] ∧
    bivalent [some 0, some 0] [some 1, some 1] [0, 1] ⟨[1 / 2], false⟩
      = some [some 1, some 0]) :=
  ⟨⟨by with_unfolding_all decide, by with_unfolding_all decide⟩,
    bivalent_single_crossover [some 0, some 0] [some 1, some 1] [0, 1] (1 / 2) true (by decide)
      (by decide) (by decide) (by with_unfolding_all decide) (by with_unfolding_all decide)⟩

/-! ## Claims about `cross2` -/

/-- C5: in every store that `cross2` returns (for a ratio `r > 0` and 1-based
parent indices), for every chromosome `c` and offspring `i`, homolog 0 is
`bivalent` of columns 0 and 1 of individual `mother[i]-1` of the maternal block
under `genMaps[c]` scaled by `2/(1/r+1)`, and homolog 1 is `bivalent` of columns
0 and 1 of individual `father[i]-1` of the paternal block under `genMaps[c]`
scaled by `2/(r+1)`, each with its own draws. -/
theorem cross2_homologs (motherGeno : List Cube) (mother : List Nat) (fatherGeno : List Cube)
    (father : List Nat) (genMaps : List (List ℚ)) (recombRatio : ℚ)
    (draws : Nat → Nat → Nat → GameteDraws) (_hr : 0 < recombRatio)
    (hm : ∀ m ∈ mother, 1 ≤ m ∧ m < 2 ^ uwordBits)
    (hf : ∀ f ∈ father, 1 ≤ f ∧ f < 2 ^ uwordBits)
    (h : (cross2 motherGeno mother fatherGeno father genMaps recombRatio draws).isSome = true) :
    ∃ geno, cross2 motherGeno mother fatherGeno father genMaps recombRatio draws = some geno ∧
      geno.length = motherGeno.length ∧
      ∀ c : Nat, c < motherGeno.length → ∀ i : Nat, i < mother.length →
        ∃ cube mGeno fGeno genMap m f m0 m1 f0 f1 female male,
          geno[c]? = some cube ∧ motherGeno[c]? = some mGeno ∧
          fatherGeno[c]? = some fGeno ∧ genMaps[c]? = some genMap ∧
          mother[i]? = some m ∧ father[i]? = some f ∧
          mGeno.col (m - 1) 0 = some m0 ∧ mGeno.col (m - 1) 1 = some m1 ∧
          fGeno.col (f - 1) 0 = some f0 ∧ fGeno.col (f - 1) 1 = some f1 ∧
          bivalent m0 m1 (scaleMap (2 / (1 / recombRatio + 1)) genMap) (draws c i 0)
            = some female ∧
          bivalent f0 f1 (scaleMap (2 / (recombRatio + 1)) genMap) (draws c i 1)
            = some male ∧
          cube.col i 0 = some female ∧ cube.col i 1 = some male := by
  obtain ⟨geno, hgeno⟩ := Option.isSome_iff_exists.mp h
  refine ⟨geno, hgeno, ?_⟩
  unfold cross2 at hgeno
  obtain ⟨hlen, hget⟩ := mapM_range_some _ _ geno hgeno
  refine ⟨hlen, fun c hc i hi => ?_⟩
  have hcube : ∃ cube, geno[c]? = some cube :=
    ⟨_, List.getElem?_eq_getElem (by omega)⟩
  obtain ⟨cube, hcube⟩ := hcube
  have hchr := hget c hc
  rw [hcube] at hchr
  obtain ⟨mGeno, genMap, hmg, hmap, _, _, _, hW⟩ := cross2Chr_some hchr
  obtain ⟨m, f, fGeno, m0, m1, f0, f1, female, male, e1, e2, e3, e4, e5, e6, e7, e8, e9, e10,
    e11⟩ := hW i (by simpa using hi)
  rw [List.getElem?_map] at e1 e2
  obtain ⟨mv, hmv, hmeq⟩ := Option.map_eq_some'.mp e1
  obtain ⟨fv, hfv, hfeq⟩ := Option.map_eq_some'.mp e2
  have hm1 := hm mv (List.getElem?_mem hmv)
  have hf1 := hf fv (List.getElem?_mem hfv)
  rw [uwordPred_of_pos hm1.1 hm1.2] at hmeq
  rw [uwordPred_of_pos hf1.1 hf1.2] at hfeq
  subst hmeq
  subst hfeq
  exact ⟨cube, mGeno, fGeno, genMap, mv, fv, m0, m1, f0, f1, female, male, hcube, hmg, e3, hmap,
    hmv, hfv, e4, e5, e6, e7, e8, e9, e10, e11⟩

/-- Witness for C5: two offspring (parents 1 x 2 and 2 x 1) on one chromosome
of two loci, ratio 1. -/
theorem cross2_homologs_witness :
    ((0 : ℚ) < 1 ∧ (∀ m ∈ [1, 2], 1 ≤ m ∧ m < 2 ^ uwordBits) ∧
      (∀ f ∈ [2, 1], 1 ≤ f ∧ f < 2 ^ uwordBits) ∧
      (cross2 [demoCube] [1, 2] [demoCube] [2, 1] [[0, 1]] 1 demoDraws).isSome = true) ∧
    ∃ geno, cross2 [demoCube] [1, 2] [demoCube] [2, 1] [[0, 1]] 1 demoDraws = some geno ∧
      geno.length = [demoCube].length ∧
      ∀ c : Nat, c < [demoCube].length → ∀ i : Nat, i < [1, 2].length →
        ∃ cube mGeno fGeno genMap m f m0 m1 f0 f1 female male,
          geno[c]? = some cube ∧ [demoCube][c]? = some mGeno ∧
          [demoCube][c]? = some fGeno ∧ [[(0 : ℚ), 1]][c]? = some genMap ∧
          [1, 2][i]? = some m ∧ [2, 1][i]? = some f ∧
          mGeno.col (m - 1) 0 = some m0 ∧ mGeno.col (m - 1) 1 = some m1 ∧
          fGeno.col (f - 1) 0 = some f0 ∧ fGeno.col (f - 1) 1 = some f1 ∧
          bivalent m0 m1 (scaleMap (2 / (1 / 1 + 1)) genMap) (demoDraws c i 0) = some female ∧
          bivalent f0 f1 (scaleMap (2 / (1 + 1)) genMap) (demoDraws c i 1) = some male ∧
          cube.col i 0 = some female ∧ cube.col i 1 = some male :=
  ⟨⟨by with_unfolding_all decide, by decide, by decide, by with_unfolding_all decide⟩,
    cross2_homologs [demoCube] [1, 2] [demoCube] [2, 1] [[0, 1]] 1 demoDraws
      (by with_unfolding_all decide) (by decide) (by decide) (by with_unfolding_all decide)⟩

/-! ## Same-gap crossovers, the `createDH2` order, equal-sex scaling -/

/-- C11: same-gap crossovers in `bivalent`: if all `k ≥ 1` crossover positions
resolve to one and the same map interval `e` (`intervalSearch` returns the index
`e ≥ 0` for each), then for even `k` the gamete equals the starting chromosome
on every locus, and for odd `k` it equals the starting chromosome on the loci
`0 .. e` and the other chromosome on the loci `e+1 .. n-1`. -/
theorem bivalent_same_gap (chr1 chr2 : List Cell) (genMap : List ℚ) (d : GameteDraws) (e : Int)
    (hn : 1 ≤ chr1.length) (h2 : chr2.length = chr1.length)
    (hm : genMap.length = chr1.length) (hs : genMap.Sorted (· ≤ ·))
    (hk : 1 ≤ d.randu.length) (he0 : 0 ≤ e)
    (hall : ∀ p ∈ crossoverPositions (posAt genMap ((chr1.length : Int) - 1)) d.randu,
      intervalSearch genMap p 0 = some e) :
    ∃ gamete, bivalent chr1 chr2 genMap d = some gamete ∧ gamete.length = chr1.length ∧
      ∀ j : Nat, j < chr1.length →
        gamete[j]? =
          if d.randu.length % 2 = 0 then (startChr chr1 chr2 d.coin)[j]?
          else if (j : Int) ≤ e then (startChr chr1 chr2 d.coin)[j]?
          else (otherChr chr1 chr2 d.coin)[j]? := by
  have hp : ∀ p ∈ crossoverPositions (posAt genMap ((chr1.length : Int) - 1)) d.randu,
      posAt genMap 0 ≤ p := by
    intro p hpm
    obtain ⟨r, hr, hiff, _⟩ := intervalSearch_total genMap p 0 (le_refl _) (by omega)
    rw [hall p hpm] at hr
    have hre : e = r := Option.some.inj hr
    exact not_lt.mp (fun hcon => by
      have := hiff.mpr hcon
      omega)
  have hsplit : ∀ p ∈ crossoverPositions (posAt genMap ((chr1.length : Int) - 1)) d.randu,
      ∀ j : Nat, j < chr1.length → ((j : Int) ≤ e ↔ genMap.getD j 0 ≤ p) := by
    intro p hpm j hj
    obtain ⟨a, ha, _, _, hsa⟩ :=
      intervalSearch_sorted genMap p 0 hs (le_refl _) (by omega) (hp p hpm)
    rw [hall p hpm] at ha
    have hea : e = (a : Int) := Option.some.inj ha
    rw [hea]
    exact ⟨fun h => (hsa j (by omega)).mp (by omega), fun h => by
      have := (hsa j (by omega)).mpr h
      omega⟩
  have hlen : (crossoverPositions (posAt genMap ((chr1.length : Int) - 1)) d.randu).length
      = d.randu.length := by
    simp [crossoverPositions]
  obtain ⟨g, hg, hglen, hcell⟩ :=
    bivalent_crossover_spec chr1 chr2 genMap d hn h2 hm hs (by omega) hp
  refine ⟨g, hg, hglen, fun j hj => ?_⟩
  rw [hcell j hj, activeChr_parity]
  by_cases hje : (j : Int) ≤ e
  · rw [crossoversBelow_eq_zero _ _ (fun p hpm => (hsplit p hpm j hj).mp hje)]
    rw [if_pos (show 0 % 2 = 0 by decide), if_pos hje]
    split <;> rfl
  · rw [crossoversBelow_eq_length _ _ (fun p hpm =>
      not_le.mp (fun hcon => hje ((hsplit p hpm j hj).mpr hcon))), hlen, if_neg hje]
    split <;> rfl

/-- C16: in every store that `createDH2` returns (for a ratio `r > 0`), with
`nInd` the individual count of the first source block, every output block has
`nInd * nDH` individuals, and both homologs of output individual `t` are one
gamete `bivalent(homolog 0, homolog 1 of source individual t / nDH)` under
`genMaps[c]` scaled by `2/(1/r+1)` if `useFemale` and by `2/(r+1)` otherwise. -/
theorem createDH2_order (geno : List Cube) (nDH : Int) (genMaps : List (List ℚ))
    (recombRatio : ℚ) (useFemale : Bool) (draws : Nat → Nat → Nat → GameteDraws)
    (_hr : 0 < recombRatio)
    (h : (createDH2 geno nDH genMaps recombRatio useFemale draws).isSome = true) :
    ∃ output g0, createDH2 geno nDH genMaps recombRatio useFemale draws = some output ∧
      geno[0]? = some g0 ∧ output.length = geno.length ∧
      ∀ c : Nat, c < geno.length →
        ∃ cube g genMap, output[c]? = some cube ∧ geno[c]? = some g ∧
          genMaps[c]? = some genMap ∧
          (cube.n_slices : Int) = (g0.n_slices : Int) * nDH ∧
          ∀ t : Nat, t < cube.n_slices →
            ∃ c0 c1 gamete, g.col (t / nDH.toNat) 0 = some c0 ∧
              g.col (t / nDH.toNat) 1 = some c1 ∧
              bivalent c0 c1
                (scaleMap (if useFemale then 2 / (1 / recombRatio + 1)
                  else 2 / (recombRatio + 1)) genMap)
                (draws c (t / nDH.toNat) (t % nDH.toNat)) = some gamete ∧
              cube.col t 0 = some gamete ∧ cube.col t 1 = some gamete := by
  obtain ⟨output, hout⟩ := Option.isSome_iff_exists.mp h
  have hout1 := hout
  simp only [createDH2, Option.bind_eq_bind, Option.bind_eq_some] at hout1
  obtain ⟨g0, hg0, hmapM⟩ := hout1
  obtain ⟨hlen, hget⟩ := mapM_range_some _ _ output hmapM
  refine ⟨output, g0, hout, hg0, hlen, fun c hc => ?_⟩
  have hcube : ∃ cube, output[c]? = some cube := ⟨_, List.getElem?_eq_getElem (by omega)⟩
  obtain ⟨cube, hcube⟩ := hcube
  have hchr := hget c hc
  rw [hcube] at hchr
  have hneg : ¬ ((g0.n_slices : Int) * nDH < 0) := by
    intro hcon
    simp only [createDH2Chr, Option.bind_eq_bind, Option.bind_eq_some] at hchr
    obtain ⟨_, _, _, _, hif⟩ := hchr
    rw [if_pos hcon] at hif
    cases hif
  obtain ⟨g, genMap, hg, hmap, _, _, hsl, hW⟩ := createDH2Chr_some hchr
  refine ⟨cube, g, genMap, hcube, hg, hmap, ?_, fun t ht => ?_⟩
  · rw [hsl]
    rcases Nat.eq_zero_or_pos g0.n_slices with hz | hpos
    · rw [hz]; simp
    · have hd : 0 ≤ nDH := by
        by_contra hcon
        exact hneg (Int.mul_neg_of_pos_of_neg (by exact_mod_cast hpos) (by omega))
      rw [Nat.cast_mul, Int.toNat_of_nonneg hd]
  · obtain ⟨c0, c1, gamete, e0, e1, eg, f0, f1⟩ := hW t (by omega)
    refine ⟨c0, c1, gamete, e0, e1, ?_, f0, f1⟩
    cases useFemale <;> simpa [femaleRecRate, maleRecRate] using eg

/-- C17: equal-sex scaling: for `recombRatio = 1` the female factor
`2/(1/r+1)` and the male factor `2/(r+1)` are both exactly 1, so the female and
the male map that `cross2` and `crossPedigree` pass to `bivalent`, and the map
that `createDH2` passes for either value of `useFemale`, equal the input map
entry for entry. -/
theorem scaling_equal_sexes (stores : List Cube) (mother father : List Nat)
    (genMaps : List (List ℚ)) (genMap : List ℚ) (nDH : Int) (useFemale : Bool)
    (draws : Nat → Nat → Nat → GameteDraws) (fdraws : Nat → Nat → Nat → Nat → Nat)
    (chr : Nat) :
    femaleRecRate 1 = 1 ∧ maleRecRate 1 = 1 ∧
    scaleMap (femaleRecRate 1) genMap = genMap ∧ scaleMap (maleRecRate 1) genMap = genMap ∧
    cross2Chr stores mother stores father genMaps 1 draws chr =
      ((genMaps[chr]?).bind fun gm => (stores[chr]?).bind fun mGeno =>
        (List.range mother.length).foldlM
          (cross2Ind mGeno stores chr mother father gm gm (draws chr))
          (Cube.fresh mGeno.n_rows 2 mother.length)) ∧
    crossPedigreeChr stores mother father genMaps 1 draws fdraws chr =
      ((stores[chr]?).bind fun fGeno => (genMaps[chr]?).bind fun gm =>
        (List.range mother.length).foldlM
          (crossPedigreeInd fGeno mother father gm gm (draws chr) (fdraws chr))
          (Cube.fresh fGeno.n_rows 2 mother.length)) ∧
    createDH2 stores nDH genMaps 1 useFemale draws =
      ((stores[0]?).bind fun g0 =>
        (List.range stores.length).mapM
          (createDH2Chr stores (g0.n_slices : Int) nDH genMaps 1 draws)) ∧
    createDH2Chr stores (mother.length : Int) nDH genMaps 1 draws chr =
      ((genMaps[chr]?).bind fun gm => (stores[chr]?).bind fun g =>
        if (mother.length : Int) * nDH < 0 then none
        else
          (List.range (mother.length : Int).toNat).foldlM
            (fun tmp ind =>
              (List.range nDH.toNat).foldlM
                (createDH2Rep g nDH.toNat gm (draws chr) ind) tmp)
            (Cube.fresh g.n_rows 2 ((mother.length : Int) * nDH).toNat)) := by
  have hf : femaleRecRate 1 = 1 := by unfold femaleRecRate; norm_num
  have hm : maleRecRate 1 = 1 := by unfold maleRecRate; norm_num
  have hone : ∀ gm : List ℚ, scaleMap 1 gm = gm := by
    intro gm
    unfold scaleMap
    simp
  refine ⟨hf, hm, by rw [hf]; exact hone genMap, by rw [hm]; exact hone genMap, ?_, ?_, ?_, ?_⟩
  · simp only [cross2Chr, hf, hm, hone, Option.bind_eq_bind]
  · simp only [crossPedigreeChr, hf, hm, hone, Option.bind_eq_bind]
  · cases useFemale <;> simp only [createDH2, hf, hm, Option.bind_eq_bind, if_true,
      Bool.false_eq_true, if_false]
  · simp only [createDH2Chr, hone, Option.bind_eq_bind]

/-- Witness for C11: two crossovers, at 1/10 and 2/5, in the first gap of the
map `[0, 1/2, 1]`. -/
theorem bivalent_same_gap_witness :
    (([0, 1 / 2, 1] : List ℚ).Sorted (· ≤ ·) ∧
      ∀ p ∈ crossoverPositions (posAt [0, 1 / 2, 1] 2) [2 / 5, 1 / 10],
        intervalSearch [0, 1 / 2, 1] p 0 = some 0) ∧
    ∃ gamete, bivalent [some 0, some 0, some 0] [some 1, some 1, some 1] [0, 1 / 2, 1]
        ⟨[2 / 5, 1 / 10], false⟩ = some gamete ∧
      gamete.length = ([some 0, some 0, some 0] : List Cell).length ∧
      ∀ j : Nat, j < ([some 0, some 0, some 0] : List Cell).length →
        gamete[j]? =
          if (GameteDraws.mk [2 / 5, 1 / 10] false).randu.length % 2 = 0
          then (startChr [some 0, some 0, some 0] [some 1, some 1, some 1] false)[j]?
          else if (j : Int) ≤ 0
          then (startChr [some 0, some 0, some 0] [some 1, some 1, some 1] false)[j]?
          else (otherChr [some 0, some 0, some 0] [some 1, some 1, some 1] false)[j]? :=
  ⟨⟨by with_unfolding_all decide, by with_unfolding_all decide⟩,
    bivalent_same_gap [some 0, some 0, some 0] [some 1, some 1, some 1] [0, 1 / 2, 1]
      ⟨[2 / 5, 1 / 10], false⟩ 0 (by decide) (by decide) (by decide)
      (by with_unfolding_all decide) (by decide) (by decide) (by with_unfolding_all decide)⟩

/-- Witness for C16: two doubled haploids from each of the two individuals of `demoCube`. -/
theorem createDH2_order_witness :
    ((0 : ℚ) < 1 ∧ (createDH2 [demoCube] 2 [[0, 1]] 1 true demoDraws).isSome = true) ∧
    ∃ output g0, createDH2 [demoCube] 2 [[0, 1]] 1 true demoDraws = some output ∧
      [demoCube][0]? = some g0 ∧ output.length = [demoCube].length ∧
      ∀ c : Nat, c < [demoCube].length →
        ∃ cube g genMap, output[c]? = some cube ∧ [demoCube][c]? = some g ∧
          [[(0 : ℚ), 1]][c]? = some genMap ∧
          (cube.n_slices : Int) = (g0.n_slices : Int) * 2 ∧
          ∀ t : Nat, t < cube.n_slices →
            ∃ c0 c1 gamete, g.col (t / (2 : Int).toNat) 0 = some c0 ∧
              g.col (t / (2 : Int).toNat) 1 = some c1 ∧
              bivalent c0 c1
                (scaleMap (if true = true then 2 / (1 / 1 + 1) else 2 / (1 + 1)) genMap)
                (demoDraws c (t / (2 : Int).toNat) (t % (2 : Int).toNat)) = some gamete ∧
              cube.col t 0 = some gamete ∧ cube.col t 1 = some gamete :=
  ⟨⟨by with_unfolding_all decide, by with_unfolding_all decide⟩,
    createDH2_order [demoCube] 2 [[0, 1]] 1 true demoDraws (by with_unfolding_all decide)
      (by with_unfolding_all decide)⟩

/-! ## Claims about `crossPedigree` -/

/-- C12 (evaluation at the failing input): two founders `00 | 00` and
`11 | 11`, a pedigree of two entries without recorded parents, one crossover at
half the map length in every gamete.  The two founder draws of the maternal
gamete of entry 1 are 1 and 0, so `bivalent` receives column 0 of founder 1 and
column 1 of founder 0 and the maternal homolog is `10`, which is no gamete of a
single founder under the same map and draws (founder 0 gives `00`, founder 1
gives `11`). -/
theorem crossPedigree_founder_columns_differ :
    ((crossPedigree [founderCube] [0, 0] [0, 0] [[0, 1]] 1 crossoverDraws stdFounderDraws).bind
      fun geno => (geno[0]?).bind fun cube => cube.col 1 0) = some [some 1, some 0] ∧
    (stdFounderDraws 0 1 0 0 = 1 ∧ stdFounderDraws 0 1 0 1 = 0 ∧
      founderCube.col 1 0 = some [some 1, some 1] ∧
      founderCube.col 0 1 = some [some 0, some 0]) ∧
    ((founderCube.col 0 0).bind fun c0 => (founderCube.col 0 1).bind fun c1 =>
      bivalent c0 c1 (scaleMap (femaleRecRate 1) [0, 1]) (crossoverDraws 0 1 0))
      = some [some 0, some 0] ∧
    ((founderCube.col 1 0).bind fun c0 => (founderCube.col 1 1).bind fun c1 =>
      bivalent c0 c1 (scaleMap (femaleRecRate 1) [0, 1]) (crossoverDraws 0 1 0))
      = some [some 1, some 1] := by
  refine ⟨by with_unfolding_all decide, ⟨by decide, by decide, by with_unfolding_all decide,
    by with_unfolding_all decide⟩, by with_unfolding_all decide, by with_unfolding_all decide⟩

/-- C13 (evaluation at the failing input): for the pedigree of
`crossPedigree_founder_columns_differ`, `crossPedigree` gives entry 1 the
maternal homolog `10`, and whichever founder indices `m0, m1` and `f0, f1` (each
1 or 2) are given to `cross2` on the founder store with the same crossover
draws, the maternal homolog of offspring 1 is a different one. -/
theorem crossPedigree_not_cross2 :
    ((crossPedigree [founderCube] [0, 0] [0, 0] [[0, 1]] 1 crossoverDraws stdFounderDraws).bind
      fun geno => (geno[0]?).bind fun cube => cube.col 1 0) = some [some 1, some 0] ∧
    ([1, 2].all fun m0 => [1, 2].all fun m1 => [1, 2].all fun f0 => [1, 2].all fun f1 =>
      decide (((cross2 [founderCube] [m0, m1] [founderCube] [f0, f1] [[0, 1]] 1
          crossoverDraws).bind
        fun geno => (geno[0]?).bind fun cube => cube.col 1 0) ≠ some [some 1, some 0])) = true ∧
    ((cross2 [founderCube] [1, 1] [founderCube] [1, 1] [[0, 1]] 1 crossoverDraws).bind
      fun geno => (geno[0]?).bind fun cube => cube.col 1 0) = some [some 0, some 0] ∧
    ((cross2 [founderCube] [1, 2] [founderCube] [1, 1] [[0, 1]] 1 crossoverDraws).bind
      fun geno => (geno[0]?).bind fun cube => cube.col 1 0) = some [some 1, some 1] := by
  refine ⟨by with_unfolding_all decide, by with_unfolding_all decide,
    by with_unfolding_all decide, by with_unfolding_all decide⟩

/-- C14: in every store that `crossPedigree` returns (ratio `r > 0`), on every
chromosome `c`: when entry `i` has the recorded mother reference `v` (1-based,
`v - 1 < i`), homolog 0 of output entry `i` is `bivalent` of homolog 0 and
homolog 1 of output entry `v - 1` under the female-scaled map; when it has the
recorded father reference `w` (`w - 1 < i`), homolog 1 is `bivalent` of the two
homologs of output entry `w - 1` under the male-scaled map; and the columns
handed to `bivalent` for a recorded parent depend neither on the founder block
nor on the founder draws. -/
theorem crossPedigree_recorded_parent (founders : List Cube) (mother father : List Nat)
    (genMaps : List (List ℚ)) (recombRatio : ℚ) (draws : Nat → Nat → Nat → GameteDraws)
    (fdraws : Nat → Nat → Nat → Nat → Nat) (c i v w : Nat) (_hr : 0 < recombRatio)
    (h : (crossPedigree founders mother father genMaps recombRatio draws fdraws).isSome = true)
    (hc : c < founders.length) (hi : i < mother.length) :
    ∃ geno cube genMap,
      crossPedigree founders mother father genMaps recombRatio draws fdraws = some geno ∧
      geno[c]? = some cube ∧ genMaps[c]? = some genMap ∧
      (mother[i]? = some v → 1 ≤ v → v < 2 ^ uwordBits → v - 1 < i →
        (∃ p0 p1 gamete, cube.col (v - 1) 0 = some p0 ∧ cube.col (v - 1) 1 = some p1 ∧
          bivalent p0 p1 (scaleMap (2 / (1 / recombRatio + 1)) genMap) (draws c i 0)
            = some gamete ∧
          cube.col i 0 = some gamete) ∧
        ∀ (fGeno fGeno1 tmp : Cube) (d0 d1 e0 e1 : Nat),
          pedigreeSource fGeno tmp (uwordPred v) d0 d1
            = pedigreeSource fGeno1 tmp (uwordPred v) e0 e1) ∧
      (father[i]? = some w → 1 ≤ w → w < 2 ^ uwordBits → w - 1 < i →
        (∃ p0 p1 gamete, cube.col (w - 1) 0 = some p0 ∧ cube.col (w - 1) 1 = some p1 ∧
          bivalent p0 p1 (scaleMap (2 / (recombRatio + 1)) genMap) (draws c i 1)
            = some gamete ∧
          cube.col i 1 = some gamete) ∧
        ∀ (fGeno fGeno1 tmp : Cube) (d0 d1 e0 e1 : Nat),
          pedigreeSource fGeno tmp (uwordPred w) d0 d1
            = pedigreeSource fGeno1 tmp (uwordPred w) e0 e1) := by
  have hsent : uwordOfInt (-1) = 2 ^ uwordBits - 1 := by
    unfold uwordOfInt uwordBits
    decide
  have hindep : ∀ u : Nat, 1 ≤ u → u < 2 ^ uwordBits →
      uwordPred u = u - 1 ∧ uwordPred u ≠ uwordOfInt (-1) ∧
      ∀ (fGeno fGeno1 tmp : Cube) (d0 d1 e0 e1 : Nat),
        pedigreeSource fGeno tmp (uwordPred u) d0 d1
          = pedigreeSource fGeno1 tmp (uwordPred u) e0 e1 := by
    intro u hu1 hu2
    have hpred : uwordPred u = u - 1 := uwordPred_of_pos hu1 hu2
    have hne : uwordPred u ≠ uwordOfInt (-1) := by
      rw [hpred, hsent]
      omega
    refine ⟨hpred, hne, fun fGeno fGeno1 tmp d0 d1 e0 e1 => ?_⟩
    unfold pedigreeSource
    rw [if_neg hne, if_neg hne]
  obtain ⟨geno, hgeno⟩ := Option.isSome_iff_exists.mp h
  have hgeno1 := hgeno
  simp only [crossPedigree, Option.bind_eq_bind, Option.bind_eq_some] at hgeno1
  obtain ⟨_, _, hmapM⟩ := hgeno1
  obtain ⟨hlen, hget⟩ := mapM_range_some _ _ geno hmapM
  have hcube : ∃ cube, geno[c]? = some cube := ⟨_, List.getElem?_eq_getElem (by omega)⟩
  obtain ⟨cube, hcube⟩ := hcube
  have hchr := hget c hc
  rw [hcube] at hchr
  obtain ⟨fGeno, genMap, _, hmap, _, _, _, hW⟩ := crossPedigreeChr_some hchr
  obtain ⟨m, f, m0, m1, f0, f1, female, male, e1, e2, e3, e4, e5, e6, e7, e8⟩ :=
    hW i (by simpa using hi)
  rw [List.getElem?_map] at e1 e2
  refine ⟨geno, cube, genMap, hgeno, hcube, hmap, ?_, ?_⟩
  · intro hv hv1 hv2 hvi
    obtain ⟨hpred, hne, hind⟩ := hindep v hv1 hv2
    rw [hv] at e1
    have hm : m = v - 1 := by
      have := Option.some.inj e1
      rw [← this]
      exact hpred
    subst hm
    rw [← hpred] at e3
    obtain ⟨s0, s1⟩ := e3.2 hne (by rw [hpred]; exact hvi)
    rw [hpred] at s0 s1
    exact ⟨⟨m0, m1, female, s0, s1, e5, e7⟩, hind⟩
  · intro hw hw1 hw2 hwi
    obtain ⟨hpred, hne, hind⟩ := hindep w hw1 hw2
    rw [hw] at e2
    have hf : f = w - 1 := by
      have := Option.some.inj e2
      rw [← this]
      exact hpred
    subst hf
    rw [← hpred] at e4
    obtain ⟨s0, s1⟩ := e4.2 hne (by rw [hpred]; exact hwi)
    rw [hpred] at s0 s1
    exact ⟨⟨f0, f1, male, s0, s1, e6, e8⟩, hind⟩

/-- Witness for C14: entry 1 has entry 0 as recorded mother and father; entry 0
has no recorded parents. -/
theorem crossPedigree_recorded_parent_witness :
    ((0 : ℚ) < 1 ∧
      (crossPedigree [founderCube] [0, 1] [0, 1] [[0, 1]] 1 crossoverDraws
        stdFounderDraws).isSome = true ∧
      0 < [founderCube].length ∧ 1 < [0, 1].length ∧
      [0, 1][1]? = some 1 ∧ 1 ≤ 1 ∧ 1 < 2 ^ uwordBits ∧ 1 - 1 < 1) ∧
    ∃ geno cube genMap,
      crossPedigree [founderCube] [0, 1] [0, 1] [[0, 1]] 1 crossoverDraws stdFounderDraws
        = some geno ∧
      geno[0]? = some cube ∧ [[(0 : ℚ), 1]][0]? = some genMap ∧
      (∃ p0 p1 gamete, cube.col (1 - 1) 0 = some p0 ∧ cube.col (1 - 1) 1 = some p1 ∧
        bivalent p0 p1 (scaleMap (2 / (1 / 1 + 1)) genMap) (crossoverDraws 0 1 0)
          = some gamete ∧
        cube.col 1 0 = some gamete) ∧
      (∃ p0 p1 gamete, cube.col (1 - 1) 0 = some p0 ∧ cube.col (1 - 1) 1 = some p1 ∧
        bivalent p0 p1 (scaleMap (2 / (1 + 1)) genMap) (crossoverDraws 0 1 1)
          = some gamete ∧
        cube.col 1 1 = some gamete) := by
  obtain ⟨geno, cube, genMap, h1, h2, h3, hm, hf⟩ :=
    crossPedigree_recorded_parent [founderCube] [0, 1] [0, 1] [[0, 1]] 1 crossoverDraws
      stdFounderDraws 0 1 1 1 (by with_unfolding_all decide) (by with_unfolding_all decide)
      (by decide) (by decide)
  exact ⟨⟨by with_unfolding_all decide, by with_unfolding_all decide, by decide, by decide,
      by decide, by decide, by decide, by decide⟩,
    geno, cube, genMap, h1, h2, h3,
    (hm (by decide) (by decide) (by decide) (by decide)).1,
    (hf (by decide) (by decide) (by decide) (by decide)).1⟩

/-! ## Claims about the accessors -/

/-- C18: `getGeno` dosage: for a store whose blocks share one individual count
`nInd` and for a locus selection, the result has one row per individual and
`sum(lociPerChr)` columns, and for every individual `ind` and every column in
the slice of chromosome `i` the cell is the sum over the homologs of the
selected locus `lociLoc[c] - 1` of block `i`, taken in the element type
`unsigned char` (modulo 256; the plain sum whenever that is below 256, as for
0/1 alleles); a chromosome with `lociPerChr = 0` contributes no column. -/
theorem getGeno_dosage (geno : List Cube) (lociPerChr : List Int) (lociLoc : List Nat)
    (nInd : Nat) (hne : 0 < geno.length) (hInd : ∀ g ∈ geno, g.n_slices = nInd)
    (hsel : LociSelection geno lociPerChr lociLoc) :
    ∃ out, getGeno geno lociPerChr lociLoc = some out ∧ out.n_rows = nInd ∧
      (out.n_cols : Int) = lociPerChr.sum ∧
      (∀ (i : Nat) (g : Cube), geno[i]? = some g →
        ∀ q : Nat, q < (lociPerChr.getD i 0).toNat → ∀ ind : Nat, ind < nInd →
          out.cell ind (chrOffset lociPerChr i + q)
            = sumHomologs g (lociLoc.getD (chrOffset lociPerChr i + q) 0 - 1) ind ∧
          ((∀ h : Nat, h < g.n_cols →
              (g.cell (lociLoc.getD (chrOffset lociPerChr i + q) 0 - 1) h ind).isSome = true) →
            out.cell ind (chrOffset lociPerChr i + q)
              = some (homologSum g (lociLoc.getD (chrOffset lociPerChr i + q) 0 - 1) ind % 256) ∧
            (homologSum g (lociLoc.getD (chrOffset lociPerChr i + q) 0 - 1) ind < 256 →
              out.cell ind (chrOffset lociPerChr i + q)
                = some (homologSum g (lociLoc.getD (chrOffset lociPerChr i + q) 0 - 1) ind)))) ∧
      ∀ i : Nat, lociPerChr.getD i 0 = 0 →
        chrOffset lociPerChr (i + 1) = chrOffset lociPerChr i := by
  obtain ⟨out, hout, hrows, hcols, hcell⟩ := getGeno_spec geno lociPerChr lociLoc nInd hne hInd hsel
  refine ⟨out, hout, hrows, hcols, fun i g hg q hq ind hind => ?_, fun i hi => ?_⟩
  · have hc := hcell i g hg q hq ind hind
    refine ⟨hc, fun hw => ?_⟩
    have hs := sumHomologs_eq g (lociLoc.getD (chrOffset lociPerChr i + q) 0 - 1) ind hw
    refine ⟨by rw [hc, hs], fun hlt => ?_⟩
    rw [hc, hs, Nat.mod_eq_of_lt hlt]
  · rw [chrOffset_succ, hi]
    rfl

/-- C19: `getHaplo` ordering: for a store whose blocks share the individual
count `nInd` and the homolog count `ploidy ≥ 1` and for a locus selection, the
result has `nInd * ploidy` rows and `sum(lociPerChr)` columns, and row
`ind * ploidy + h` holds, in every column of the slice of chromosome `i`, the
cell of the selected locus `lociLoc[c] - 1` in homolog `h` of individual `ind`. -/
theorem getHaplo_ordering (geno : List Cube) (lociPerChr : List Int) (lociLoc : List Nat)
    (nInd ploidy : Nat) (hne : 0 < geno.length)
    (hInd : ∀ g ∈ geno, g.n_slices = nInd ∧ g.n_cols = ploidy) (hp : 1 ≤ ploidy)
    (hsel : LociSelection geno lociPerChr lociLoc) :
    ∃ out, getHaplo geno lociPerChr lociLoc = some out ∧ out.n_rows = nInd * ploidy ∧
      (out.n_cols : Int) = lociPerChr.sum ∧
      ∀ (i : Nat) (g : Cube), geno[i]? = some g →
        ∀ q : Nat, q < (lociPerChr.getD i 0).toNat →
          ∀ ind : Nat, ind < nInd → ∀ h : Nat, h < ploidy →
            out.cell (ind * ploidy + h) (chrOffset lociPerChr i + q)
              = g.cell (lociLoc.getD (chrOffset lociPerChr i + q) 0 - 1) h ind := by
  obtain ⟨out, hout, hrows, hcols, hcell⟩ :=
    getHaplo_spec geno lociPerChr lociLoc nInd ploidy hne hInd hp hsel
  refine ⟨out, hout, hrows, hcols, fun i g hg q hq ind hind h hh => ?_⟩
  have hsm : (ind + 1) * ploidy = ind * ploidy + ploidy := Nat.succ_mul _ _
  have hle : (ind + 1) * ploidy ≤ nInd * ploidy := Nat.mul_le_mul_right _ (by omega)
  obtain ⟨hd, hm⟩ := block_row ind ploidy (ind * ploidy + h) (by omega) (by omega)
  rw [hcell i g hg q hq (ind * ploidy + h) (by omega), hd, hm]
  congr 1
  omega

/-- C20: `getOneHaplo`: for a store whose blocks share the individual count
`nInd` and the homolog count `ploidy`, for a locus selection and a 1-based
selector `1 ≤ haplo ≤ ploidy`, the result has `nInd` rows and `sum(lociPerChr)`
columns, row `ind` holds, in every column of the slice of chromosome `i`, the
cell of the selected locus in homolog `haplo - 1` of individual `ind`, and it is
row `ind * ploidy + haplo - 1` of the result of `getHaplo` on the same
arguments. -/
theorem getOneHaplo_row (geno : List Cube) (lociPerChr : List Int) (lociLoc : List Nat)
    (haplo : Int) (nInd ploidy : Nat) (hne : 0 < geno.length)
    (hInd : ∀ g ∈ geno, g.n_slices = nInd ∧ g.n_cols = ploidy)
    (hh1 : 1 ≤ haplo) (hh2 : haplo ≤ ploidy) (hh3 : haplo < 2 ^ 31)
    (hsel : LociSelection geno lociPerChr lociLoc) :
    ∃ out outH, getOneHaplo geno lociPerChr lociLoc haplo = some out ∧
      getHaplo geno lociPerChr lociLoc = some outH ∧ out.n_rows = nInd ∧
      (out.n_cols : Int) = lociPerChr.sum ∧
      ∀ (i : Nat) (g : Cube), geno[i]? = some g →
        ∀ q : Nat, q < (lociPerChr.getD i 0).toNat → ∀ ind : Nat, ind < nInd →
          out.cell ind (chrOffset lociPerChr i + q)
            = g.cell (lociLoc.getD (chrOffset lociPerChr i + q) 0 - 1) (haplo - 1).toNat ind ∧
          out.cell ind (chrOffset lociPerChr i + q)
            = outH.cell (ind * ploidy + (haplo - 1).toNat) (chrOffset lociPerChr i + q) := by
  obtain ⟨out, hout, hrows, hcols, hcell⟩ :=
    getOneHaplo_spec geno lociPerChr lociLoc haplo nInd ploidy hne hInd hh1 hh2 hh3 hsel
  obtain ⟨outH, houtH, _, _, hcellH⟩ :=
    getHaplo_spec geno lociPerChr lociLoc nInd ploidy hne hInd (by omega) hsel
  refine ⟨out, outH, hout, houtH, hrows, hcols, fun i g hg q hq ind hind => ?_⟩
  have hc := hcell i g hg q hq ind hind
  refine ⟨hc, ?_⟩
  have hsm : (ind + 1) * ploidy = ind * ploidy + ploidy := Nat.succ_mul _ _
  have hle : (ind + 1) * ploidy ≤ nInd * ploidy := Nat.mul_le_mul_right _ (by omega)
  obtain ⟨hd, hm⟩ := block_row ind ploidy (ind * ploidy + (haplo - 1).toNat) (by omega)
    (by omega)
  rw [hc, hcellH i g hg q hq (ind * ploidy + (haplo - 1).toNat) (by omega), hd, hm]
  congr 1
  omega

/-- Witness for C18: three blocks `demoCube`, one locus selected on the first,
none on the second, two on the third. -/
theorem getGeno_dosage_witness :
    (0 < [demoCube, demoCube, demoCube].length ∧
      (∀ g ∈ [demoCube, demoCube, demoCube], g.n_slices = 2) ∧
      LociSelection [demoCube, demoCube, demoCube] [1, 0, 2] [2, 1, 2]) ∧
    ∃ out, getGeno [demoCube, demoCube, demoCube] [1, 0, 2] [2, 1, 2] = some out ∧
      out.n_rows = 2 ∧ (out.n_cols : Int) = ([1, 0, 2] : List Int).sum ∧
      (∀ (i : Nat) (g : Cube), [demoCube, demoCube, demoCube][i]? = some g →
        ∀ q : Nat, q < (([1, 0, 2] : List Int).getD i 0).toNat → ∀ ind : Nat, ind < 2 →
          out.cell ind (chrOffset [1, 0, 2] i + q)
            = sumHomologs g (([2, 1, 2] : List Nat).getD (chrOffset [1, 0, 2] i + q) 0 - 1) ind ∧
          ((∀ h : Nat, h < g.n_cols →
              (g.cell (([2, 1, 2] : List Nat).getD (chrOffset [1, 0, 2] i + q) 0 - 1) h
                ind).isSome = true) →
            out.cell ind (chrOffset [1, 0, 2] i + q)
              = some (homologSum g
                  (([2, 1, 2] : List Nat).getD (chrOffset [1, 0, 2] i + q) 0 - 1) ind % 256) ∧
            (homologSum g (([2, 1, 2] : List Nat).getD (chrOffset [1, 0, 2] i + q) 0 - 1) ind
                < 256 →
              out.cell ind (chrOffset [1, 0, 2] i + q)
                = some (homologSum g
                    (([2, 1, 2] : List Nat).getD (chrOffset [1, 0, 2] i + q) 0 - 1) ind)))) ∧
      ∀ i : Nat, ([1, 0, 2] : List Int).getD i 0 = 0 →
        chrOffset [1, 0, 2] (i + 1) = chrOffset [1, 0, 2] i :=
  have hsel : LociSelection [demoCube, demoCube, demoCube] [1, 0, 2] [2, 1, 2] := by
    unfold LociSelection
    with_unfolding_all decide
  ⟨⟨by decide, by with_unfolding_all decide, hsel⟩,
    getGeno_dosage [demoCube, demoCube, demoCube] [1, 0, 2] [2, 1, 2] 2 (by decide)
      (by with_unfolding_all decide) hsel⟩

/-- Witness for C19: the same store and selection, diploid. -/
theorem getHaplo_ordering_witness :
    (0 < [demoCube, demoCube, demoCube].length ∧
      (∀ g ∈ [demoCube, demoCube, demoCube], g.n_slices = 2 ∧ g.n_cols = 2) ∧ 1 ≤ 2 ∧
      LociSelection [demoCube, demoCube, demoCube] [1, 0, 2] [2, 1, 2]) ∧
    ∃ out, getHaplo [demoCube, demoCube, demoCube] [1, 0, 2] [2, 1, 2] = some out ∧
      out.n_rows = 2 * 2 ∧ (out.n_cols : Int) = ([1, 0, 2] : List Int).sum ∧
      ∀ (i : Nat) (g : Cube), [demoCube, demoCube, demoCube][i]? = some g →
        ∀ q : Nat, q < (([1, 0, 2] : List Int).getD i 0).toNat →
          ∀ ind : Nat, ind < 2 → ∀ h : Nat, h < 2 →
            out.cell (ind * 2 + h) (chrOffset [1, 0, 2] i + q)
              = g.cell (([2, 1, 2] : List Nat).getD (chrOffset [1, 0, 2] i + q) 0 - 1) h ind :=
  have hsel : LociSelection [demoCube, demoCube, demoCube] [1, 0, 2] [2, 1, 2] := by
    unfold LociSelection
    with_unfolding_all decide
  ⟨⟨by decide, by with_unfolding_all decide, by decide, hsel⟩,
    getHaplo_ordering [demoCube, demoCube, demoCube] [1, 0, 2] [2, 1, 2] 2 2 (by decide)
      (by with_unfolding_all decide) (by decide) hsel⟩

/-- Witness for C20: the same store and selection, homolog 2. -/
theorem getOneHaplo_row_witness :
    (0 < [demoCube, demoCube, demoCube].length ∧
      (∀ g ∈ [demoCube, demoCube, demoCube], g.n_slices = 2 ∧ g.n_cols = 2) ∧
      (1 : Int) ≤ 2 ∧ (2 : Int) ≤ ((2 : Nat) : Int) ∧ (2 : Int) < 2 ^ 31 ∧
      LociSelection [demoCube, demoCube, demoCube] [1, 0, 2] [2, 1, 2]) ∧
    ∃ out outH, getOneHaplo [demoCube, demoCube, demoCube] [1, 0, 2] [2, 1, 2] 2 = some out ∧
      getHaplo [demoCube, demoCube, demoCube] [1, 0, 2] [2, 1, 2] = some outH ∧
      out.n_rows = 2 ∧ (out.n_cols : Int) = ([1, 0, 2] : List Int).sum ∧
      ∀ (i : Nat) (g : Cube), [demoCube, demoCube, demoCube][i]? = some g →
        ∀ q : Nat, q < (([1, 0, 2] : List Int).getD i 0).toNat → ∀ ind : Nat, ind < 2 →
          out.cell ind (chrOffset [1, 0, 2] i + q)
            = g.cell (([2, 1, 2] : List Nat).getD (chrOffset [1, 0, 2] i + q) 0 - 1)
                ((2 : Int) - 1).toNat ind ∧
          out.cell ind (chrOffset [1, 0, 2] i + q)
            = outH.cell (ind * 2 + ((2 : Int) - 1).toNat) (chrOffset [1, 0, 2] i + q) :=
  have hsel : LociSelection [demoCube, demoCube, demoCube] [1, 0, 2] [2, 1, 2] := by
    unfold LociSelection
    with_unfolding_all decide
  ⟨⟨by decide, by with_unfolding_all decide, by decide, by decide, by decide, hsel⟩,
    getOneHaplo_row [demoCube, demoCube, demoCube] [1, 0, 2] [2, 1, 2] 2 2 2 (by decide)
      (by with_unfolding_all decide) (by decide) (by decide) (by decide) hsel⟩

/-! ## The dosage as a sum of haplotype rows; the search on any input -/

theorem foldl_range_congr {β : Type} (f g : β → Nat → β) (b : β) :
    ∀ n : Nat, (∀ (a : β) (h : Nat), h < n → f a h = g a h) →
      (List.range n).foldl f b = (List.range n).foldl g b := by
  intro n
  induction n with
  | zero => intro _; rfl
  | succ n ih =>
    intro hfg
    rw [List.range_succ, List.foldl_append, List.foldl_append,
      ih (fun a h hh => hfg a h (by omega))]
    simp only [List.foldl_cons, List.foldl_nil]
    exact hfg _ n (by omega)

/-- Every output column below `chrOffset l n` is the `q`-th column of some
chromosome `i < n`. -/
theorem chrOffset_cover (l : List Int) :
    ∀ (n c : Nat), c < chrOffset l n →
      ∃ i q : Nat, i < n ∧ q < (l.getD i 0).toNat ∧ c = chrOffset l i + q := by
  intro n
  induction n with
  | zero =>
    intro c hc
    simp [chrOffset] at hc
  | succ n ih =>
    intro c hc
    by_cases hlt : c < chrOffset l n
    · obtain ⟨i, q, hi, hq, hcq⟩ := ih c hlt
      exact ⟨i, q, by omega, hq, hcq⟩
    · rw [chrOffset_succ] at hc
      exact ⟨n, c - chrOffset l n, by omega, by omega, by omega⟩

theorem sum_range_le (f : Nat → Nat) (b : Nat) :
    ∀ n : Nat, (∀ h : Nat, h < n → f h ≤ b) → ((List.range n).map f).sum ≤ n * b := by
  intro n
  induction n with
  | zero => intro _; simp
  | succ n ih =>
    intro hn
    rw [List.range_succ, List.map_append, List.sum_append]
    have h1 := ih (fun h hh => hn h (by omega))
    have h2 := hn n (by omega)
    simp only [List.map_cons, List.map_nil, List.sum_cons, List.sum_nil, Nat.add_zero]
    rw [Nat.succ_mul]
    omega


/-- C21: accessor round trip: for a store whose blocks share the individual
count `nInd` and the homolog count `ploidy ≥ 1` and for a locus selection, both
accessors return, `getGeno` with `nInd` rows and `getHaplo` with `nInd * ploidy`
rows, over the same `sum(lociPerChr)` columns, and for every individual `ind`
and every column `c` the cell `getGeno[ind][c]` is the sum over
`h = 0 .. ploidy-1` of `getHaplo[ind*ploidy + h][c]` taken in 8-bit unsigned
arithmetic; for 0/1 alleles (and fewer than 256 homologs) it is the plain sum. -/
theorem getGeno_sums_getHaplo (geno : List Cube) (lociPerChr : List Int) (lociLoc : List Nat)
    (nInd ploidy : Nat) (hne : 0 < geno.length)
    (hInd : ∀ g ∈ geno, g.n_slices = nInd ∧ g.n_cols = ploidy) (hp : 1 ≤ ploidy)
    (hsel : LociSelection geno lociPerChr lociLoc) :
    ∃ G H, getGeno geno lociPerChr lociLoc = some G ∧
      getHaplo geno lociPerChr lociLoc = some H ∧
      G.n_rows = nInd ∧ H.n_rows = nInd * ploidy ∧ G.n_cols = H.n_cols ∧
      (G.n_cols : Int) = lociPerChr.sum ∧
      ∀ ind : Nat, ind < nInd → ∀ c : Nat, c < G.n_cols →
        G.cell ind c = rowSum8 H ploidy ind c ∧
        (ploidy < 256 →
          (∀ h : Nat, h < ploidy → H.cell (ind * ploidy + h) c = some 0 ∨
            H.cell (ind * ploidy + h) c = some 1) →
          G.cell ind c = some
            ((List.range ploidy).map fun h => (H.cell (ind * ploidy + h) c).getD 0).sum) := by
  obtain ⟨G, hG, hGr, hGc, hGcell⟩ :=
    getGeno_spec geno lociPerChr lociLoc nInd hne (fun g hg => (hInd g hg).1) hsel
  obtain ⟨H, hH, hHr, hHc, hHcell⟩ :=
    getHaplo_spec geno lociPerChr lociLoc nInd ploidy hne hInd hp hsel
  refine ⟨G, H, hG, hH, hGr, hHr, by omega, hGc, fun ind hind c hc => ?_⟩
  have hoff : ((chrOffset lociPerChr geno.length : Nat) : Int) = lociPerChr.sum := by
    rw [← hsel.1]
    exact chrOffset_length lociPerChr hsel.2.1
  obtain ⟨i, q, hi, hq, hcq⟩ := chrOffset_cover lociPerChr geno.length c (by omega)
  have hg : geno[i]? = some geno[i] := List.getElem?_eq_getElem hi
  obtain ⟨_, hcols⟩ := hInd geno[i] (List.getElem_mem _)
  have hrow : ∀ h : Nat, h < ploidy →
      H.cell (ind * ploidy + h) c
        = geno[i].cell (lociLoc.getD (chrOffset lociPerChr i + q) 0 - 1) h ind := by
    intro h hh
    have hsm : (ind + 1) * ploidy = ind * ploidy + ploidy := Nat.succ_mul _ _
    have hle : (ind + 1) * ploidy ≤ nInd * ploidy := Nat.mul_le_mul_right _ (by omega)
    obtain ⟨hd, hm⟩ := block_row ind ploidy (ind * ploidy + h) (by omega) (by omega)
    rw [hcq, hHcell i _ hg q hq (ind * ploidy + h) (by omega), hd, hm]
    congr 1
    omega
  have hcell : G.cell ind c
      = sumHomologs geno[i] (lociLoc.getD (chrOffset lociPerChr i + q) 0 - 1) ind := by
    rw [hcq]
    exact hGcell i _ hg q hq ind hind
  refine ⟨?_, fun h256 h01 => ?_⟩
  · rw [hcell]
    unfold sumHomologs rowSum8
    rw [hcols]
    exact foldl_range_congr _ _ _ ploidy (fun a h hh => by rw [hrow h hh])
  · have hw : ∀ h : Nat, h < geno[i].n_cols →
        (geno[i].cell (lociLoc.getD (chrOffset lociPerChr i + q) 0 - 1) h ind).isSome = true := by
      intro h hh
      rw [hcols] at hh
      rw [← hrow h hh]
      rcases h01 h hh with h0 | h1
      · rw [h0]; rfl
      · rw [h1]; rfl
    have hsum : homologSum geno[i] (lociLoc.getD (chrOffset lociPerChr i + q) 0 - 1) ind
        = ((List.range ploidy).map fun h => (H.cell (ind * ploidy + h) c).getD 0).sum := by
      unfold homologSum
      rw [hcols]
      congr 1
      apply List.map_congr_left
      intro h hh
      rw [hrow h (List.mem_range.mp hh)]
    have hbound : ((List.range ploidy).map
        fun h => (H.cell (ind * ploidy + h) c).getD 0).sum ≤ ploidy * 1 :=
      sum_range_le _ 1 ploidy (fun h hh => by
        rcases h01 h hh with h0 | h1
        · rw [h0]; simp
        · rw [h1]; simp)
    rw [hcell, sumHomologs_eq _ _ _ hw, hsum, Nat.mod_eq_of_lt (by omega)]

/-- Witness for C21: the full selection of the two loci of `demoCube`, whose
alleles are all 0 or 1, so that the 8-bit sum is the plain sum. -/
theorem getGeno_sums_getHaplo_witness :
    (0 < [demoCube].length ∧ (∀ g ∈ [demoCube], g.n_slices = 2 ∧ g.n_cols = 2) ∧ 1 ≤ 2 ∧
      LociSelection [demoCube] fullSelection.1 fullSelection.2) ∧
    ∃ G H, getGeno [demoCube] fullSelection.1 fullSelection.2 = some G ∧
      getHaplo [demoCube] fullSelection.1 fullSelection.2 = some H ∧
      G.n_rows = 2 ∧ H.n_rows = 2 * 2 ∧ G.n_cols = 2 ∧ H.n_cols = 2 ∧
      ∀ ind : Nat, ind < 2 → ∀ c : Nat, c < 2 →
        G.cell ind c = rowSum8 H 2 ind c ∧
        G.cell ind c = some
          ((List.range 2).map fun h => (H.cell (ind * 2 + h) c).getD 0).sum := by
  have hsel : LociSelection [demoCube] fullSelection.1 fullSelection.2 := by
    unfold LociSelection
    with_unfolding_all decide
  refine ⟨⟨by decide, by with_unfolding_all decide, by decide, hsel⟩, ?_⟩
  obtain ⟨G, H, hG, hH, hGr, hHr, hGH, hGc, hcell⟩ :=
    getGeno_sums_getHaplo [demoCube] fullSelection.1 fullSelection.2 2 2 (by decide)
      (by with_unfolding_all decide) (by decide) hsel
  have hGc2 : G.n_cols = 2 := by
    have h2 : fullSelection.1.sum = 2 := by decide
    omega
  have h01 : ∀ ind : Nat, ind < 2 → ∀ c : Nat, c < 2 → ∀ h : Nat, h < 2 →
      ((getHaplo [demoCube] fullSelection.1 fullSelection.2).bind
          fun M => M.cell (ind * 2 + h) c) = some 0 ∨
      ((getHaplo [demoCube] fullSelection.1 fullSelection.2).bind
          fun M => M.cell (ind * 2 + h) c) = some 1 := by
    with_unfolding_all decide
  rw [hH] at h01
  refine ⟨G, H, hG, hH, hGr, hHr, hGc2, by omega, fun ind hind c hc => ?_⟩
  obtain ⟨h1, h2⟩ := hcell ind hind c (by omega)
  exact ⟨h1, h2 (by decide) (fun h hh => h01 ind hind c hc h hh)⟩

/-- C29: `intervalSearch` is total and in range on any input: for every `x`
(sorted or not), every `value` and every `left` in `0 .. n-1`, the call returns
without reading outside `0 .. n-1` (a read outside gives no result in the
model), and the result is `-1` or an index in `left .. n-1`.  Both loops
terminate from every state they can be in: the search loop entered with
`0 ≤ left < right ≤ n-1` returns an index in `left .. n-1`, and each of its
iterations that continues puts the midpoint strictly between `left` and
`right`, so `right - left` strictly decreases; the tie loop entered with
`0 ≤ left < n-1` returns an index in `left .. n-1`, it stops at the last index
at the latest. -/
theorem intervalSearch_any_input (x : List ℚ) (value : ℚ) (left : Int) (h0 : 0 ≤ left)
    (h1 : left ≤ (x.length : Int) - 1) :
    (∃ r, intervalSearch x value left = some r ∧
      (r = -1 ∨ (left ≤ r ∧ r ≤ (x.length : Int) - 1))) ∧
    (∀ i : Int, (readAt x i).isSome = true ↔ 0 ≤ i ∧ i ≤ (x.length : Int) - 1) ∧
    (∀ l r : Int, 0 ≤ l → l < r → r ≤ (x.length : Int) - 1 →
      ∃ t, searchLoop x value ((x.length : Int) - 1) l r = some t ∧
        l ≤ t ∧ t ≤ (x.length : Int) - 1) ∧
    (∀ l r : Int, r - l > 1 →
      l < truncDiv2 (l + r) ∧ truncDiv2 (l + r) < r ∧
      (truncDiv2 (l + r) - l).toNat < (r - l).toNat ∧
      (r - truncDiv2 (l + r)).toNat < (r - l).toNat) ∧
    (∀ l : Int, 0 ≤ l → l < (x.length : Int) - 1 →
      ∃ t, tieLoop x value ((x.length : Int) - 1) l = some t ∧
        l ≤ t ∧ t ≤ (x.length : Int) - 1) := by
  refine ⟨?_, fun i => ⟨fun h => ?_, fun h => ?_⟩, fun l r hl hlr hr => ?_, fun l r hgap => ?_,
    fun l hl hlt => ?_⟩
  · obtain ⟨r, hr, _, hrange⟩ := intervalSearch_total x value left h0 (by omega)
    refine ⟨r, hr, ?_⟩
    rcases hrange with h | ⟨h2, h3⟩
    · exact Or.inl h
    · exact Or.inr ⟨h2, by omega⟩
  · obtain ⟨v, hv⟩ := Option.isSome_iff_exists.mp h
    have := readAt_some_bounds hv
    omega
  · rw [readAt_eq_posAt h.1 (by omega)]
    rfl
  · obtain ⟨t, ht, h2, h3, _⟩ :=
      searchLoop_spec x value _ rfl _ l r rfl hl hlr hr
    exact ⟨t, ht, h2, h3⟩
  · obtain ⟨h2, h3⟩ := truncDiv2_between l r hgap
    exact ⟨h2, h3, by omega, by omega⟩
  · obtain ⟨t, ht, h2, h3, _⟩ := tieLoop_spec x value _ rfl _ l rfl hl hlt
    exact ⟨t, ht, h2, h3⟩

/-- Witness for C29: an unsorted vector, searched from its second element. -/
theorem intervalSearch_any_input_witness :
    ((0 : Int) ≤ 1 ∧ (1 : Int) ≤ (([3, 1, 1, 1, 5] : List ℚ).length : Int) - 1) ∧
    intervalSearch [3, 1, 1, 1, 5] 1 1 = some 3 ∧
    (∃ r, intervalSearch [3, 1, 1, 1, 5] 1 1 = some r ∧
      (r = -1 ∨ (1 ≤ r ∧ r ≤ (([3, 1, 1, 1, 5] : List ℚ).length : Int) - 1))) :=
  ⟨⟨by decide, by decide⟩, by with_unfolding_all decide,
    (intervalSearch_any_input [3, 1, 1, 1, 5] 1 1 (by decide) (by decide)).1⟩

/-! ## The record of a `bivalent` call -/

/-- Dropping the record from `crossoverWalkLog` gives `crossoverWalk`. -/
theorem crossoverWalkLog_fst (chr1 chr2 : List Cell) (x : List ℚ) :
    ∀ (ps : List ℚ) (g : List Cell) (s : Int) (r : Nat),
      (crossoverWalkLog chr1 chr2 x ps g s r).map Prod.fst = crossoverWalk chr1 chr2 x ps g s r := by
  intro ps
  induction ps with
  | nil => intro g s r; rfl
  | cons p rest ih =>
    intro g s r
    simp only [crossoverWalkLog, crossoverWalk]
    cases intervalSearch x p s with
    | none => rfl
    | some e =>
      simp only []
      cases (if e > s then copySpan g (activeChr chr1 chr2 r) (s + 1) e else some g) with
      | none => rfl
      | some g1 =>
        simp only []
        rw [← ih g1 e ((r + 1) % 2)]
        cases crossoverWalkLog chr1 chr2 x rest g1 e ((r + 1) % 2) with
        | none => rfl
        | some v => rfl

/-- Dropping the record from `bivalentLog` gives `bivalent`. -/
theorem bivalentLog_fst (chr1 chr2 : List Cell) (x : List ℚ) (d : GameteDraws) :
    (bivalentLog chr1 chr2 x d).map Prod.fst = bivalent chr1 chr2 x d := by
  unfold bivalentLog bivalent
  cases readAt x ((chr1.length : Int) - 1) with
  | none => rfl
  | some genLen =>
    simp only []
    by_cases hk : d.randu.length = 0
    · simp only [if_pos hk]
      cases d.coin <;> rfl
    · simp only [if_neg hk]
      cases (activeChr chr1 chr2 (if d.coin then 1 else 0))[0]? with
      | none => rfl
      | some c0 =>
        simp only []
        rw [← crossoverWalkLog_fst]
        cases crossoverWalkLog chr1 chr2 x (crossoverPositions genLen d.randu)
            ((List.replicate chr1.length none).set 0 c0) 0 (if d.coin then 1 else 0) with
        | none => rfl
        | some v =>
          obtain ⟨⟨g, e, r1⟩, log⟩ := v
          simp only [Option.map_some']
          by_cases he : e < (chr1.length : Int) - 1
          · simp only [if_pos he]
            cases copySpan g (activeChr chr1 chr2 r1) (e + 1) ((chr1.length : Int) - 1) with
            | none => rfl
            | some g1 => rfl
          · simp only [if_neg he]
            rfl

theorem spanCount_append (w1 w2 : List (Int × Int)) (j : Nat) :
    spanCount (w1 ++ w2) j = spanCount w1 j + spanCount w2 j := by
  unfold spanCount
  rw [List.countP_append]

theorem spanCount_single (a b : Int) (j : Nat) :
    spanCount [(a, b)] j = if a ≤ (j : Int) ∧ (j : Int) ≤ b then 1 else 0 := by
  unfold spanCount
  by_cases h : a ≤ (j : Int) ∧ (j : Int) ≤ b
  · rw [if_pos h]
    simp [List.countP_cons, h]
  · rw [if_neg h]
    simp [List.countP_cons, h]

theorem spanCount_cons (ab : Int × Int) (w : List (Int × Int)) (j : Nat) :
    spanCount (ab :: w) j = spanCount [ab] j + spanCount w j := by
  rw [← spanCount_append]
  rfl

/-- The record of the crossover loop, from a state whose `startPos` is a valid
index not above the remaining positions: the loop returns, every search result
is at least the previous one (starting from `startPos`) and at most the final
`startPos`, every assigned span lies in `startPos+1 ..` final `startPos`, and a
locus is assigned once when it lies in that range and not at all otherwise. -/
theorem crossoverWalkLog_spec (chr1 chr2 : List Cell) (x : List ℚ)
    (hs : x.Sorted (· ≤ ·)) (h2 : chr2.length = chr1.length) (hx : x.length = chr1.length) :
    ∀ (ps : List ℚ) (g : List Cell) (s : Int) (r : Nat), ps.Sorted (· ≤ ·) →
      (∀ p ∈ ps, posAt x s ≤ p) → 0 ≤ s → s < chr1.length → g.length = chr1.length →
      ∃ (st : List Cell × Int × Nat) (log : GameteLog),
        crossoverWalkLog chr1 chr2 x ps g s r = some (st, log) ∧
        st.1.length = chr1.length ∧ s ≤ st.2.1 ∧ st.2.1 < chr1.length ∧
        log.searches.length = ps.length ∧ List.Chain (· ≤ ·) s log.searches ∧
        (∀ e ∈ log.searches, e ≤ st.2.1) ∧
        (∀ ab ∈ log.writes, s + 1 ≤ ab.1 ∧ ab.1 ≤ ab.2 ∧ ab.2 ≤ st.2.1) ∧
        ∀ j : Nat, spanCount log.writes j =
          if s < (j : Int) ∧ (j : Int) ≤ st.2.1 then 1 else 0 := by
  intro ps
  induction ps with
  | nil =>
    intro g s r _ _ h0 hsn hg
    refine ⟨(g, s, r), ⟨[], []⟩, rfl, hg, le_refl _, hsn, rfl, List.Chain.nil, ?_, ?_,
      fun j => ?_⟩
    · intro e he
      cases he
    · intro ab hab
      cases hab
    · rw [if_neg (by simp only []; omega)]
      rfl
  | cons p rest ih =>
    intro g s r hps hall h0 hsn hg
    obtain ⟨e, he, hse, hen, hsplit⟩ :=
      intervalSearch_sorted x p s hs h0 (by omega) (hall p (List.mem_cons_self _ _))
    have hrest : rest.Sorted (· ≤ ·) := hps.of_cons
    have hprest : ∀ q ∈ rest, p ≤ q := fun q hq => List.rel_of_sorted_cons hps q hq
    have hxe : posAt x (e : Int) ≤ p := by
      rw [posAt_natCast]
      exact (hsplit e hen).mp (le_refl _)
    have hseg : ∃ g0, (if (e : Int) > s then
          copySpan g (activeChr chr1 chr2 r) (s + 1) e else some g) = some g0 ∧
        g0.length = chr1.length := by
      by_cases hgt : (e : Int) > s
      · rw [if_pos hgt]
        obtain ⟨g0, hg0, hlen, _⟩ :=
          copySpan_spec g (activeChr chr1 chr2 r) (s + 1) e (by omega) (by omega) (by omega)
            (by rw [activeChr_length chr1 chr2 r h2]; omega)
        exact ⟨g0, hg0, by omega⟩
      · rw [if_neg hgt]
        exact ⟨g, rfl, hg⟩
    obtain ⟨g0, hg0, hlen0⟩ := hseg
    obtain ⟨st, log, hwalk, hglen, hes1, hs1n, hlen, hchain, hle, hwr, hcount⟩ :=
      ih g0 e ((r + 1) % 2) hrest (fun q hq => le_trans hxe (hprest q hq)) (by omega)
        (by omega) hlen0
    refine ⟨st, ⟨(e : Int) :: log.searches,
      (if (e : Int) > s then [(s + 1, (e : Int))] else []) ++ log.writes⟩, ?_, hglen, by omega,
      hs1n,
      by simp [hlen], List.Chain.cons hse hchain, ?_, ?_, fun j => ?_⟩
    · simp only [crossoverWalkLog, he, hg0, hwalk]
    · intro e1 he1
      rcases List.mem_cons.mp he1 with h | h
      · rw [h]; exact hes1
      · exact hle e1 h
    · intro ab hab
      rcases List.mem_append.mp hab with h | h
      · by_cases hgt : (e : Int) > s
        · rw [if_pos hgt] at h
          rw [List.mem_singleton.mp h]
          exact ⟨le_refl _, by simp only []; omega, by simp only []; omega⟩
        · rw [if_neg hgt] at h
          cases h
      · obtain ⟨a1, a2, a3⟩ := hwr ab h
        exact ⟨by omega, a2, a3⟩
    · simp only []
      rw [spanCount_append, hcount j]
      by_cases hgt : (e : Int) > s
      · rw [if_pos hgt, spanCount_single]
        by_cases hj1 : s + 1 ≤ (j : Int) ∧ (j : Int) ≤ e
        · rw [if_pos hj1, if_neg (by omega), if_pos (by omega)]
        · rw [if_neg hj1]
          by_cases hj2 : (e : Int) < (j : Int) ∧ (j : Int) ≤ st.2.1
          · rw [if_pos hj2, if_pos (by omega)]
          · rw [if_neg hj2, if_neg (by omega)]
      · rw [if_neg hgt]
        have hes : (e : Int) = s := by omega
        rw [hes]
        simp [spanCount]

/-- The gamete and the record of `bivalent` on a non-decreasing map of the
length of the homologs, with no crossover position below the first map
position: the call returns a gamete of the length of the homologs whose locus
`j` holds the cell of the chromosome selected by the coin and the crossovers
below `genMap[j]`; there is one search per crossover, the search results never
decrease, start at 0 or above and stay below the length; every assigned span
lies inside the gamete, and every locus is assigned exactly once. -/
theorem bivalentLog_spec (chr1 chr2 : List Cell) (x : List ℚ) (d : GameteDraws)
    (hn : 1 ≤ chr1.length) (h2 : chr2.length = chr1.length) (hx : x.length = chr1.length)
    (hs : x.Sorted (· ≤ ·))
    (hp : ∀ p ∈ crossoverPositions (posAt x ((chr1.length : Int) - 1)) d.randu,
      posAt x 0 ≤ p) :
    ∃ (g : List Cell) (log : GameteLog), bivalentLog chr1 chr2 x d = some (g, log) ∧
      bivalent chr1 chr2 x d = some g ∧ g.length = chr1.length ∧
      (∀ j : Nat, j < chr1.length →
        g[j]? = (activeChr chr1 chr2 ((coinChr d.coin +
          crossoversBelow (crossoverPositions (posAt x ((chr1.length : Int) - 1)) d.randu)
            (x.getD j 0)) % 2))[j]?) ∧
      log.searches.length = d.randu.length ∧ List.Chain (· ≤ ·) 0 log.searches ∧
      (∀ e ∈ log.searches, e ≤ (chr1.length : Int) - 1) ∧
      (∀ ab ∈ log.writes, 0 ≤ ab.1 ∧ ab.1 ≤ ab.2 ∧ ab.2 ≤ (chr1.length : Int) - 1) ∧
      ∀ j : Nat, j < chr1.length → spanCount log.writes j = 1 := by
  have hread : readAt x ((chr1.length : Int) - 1) = some (posAt x ((chr1.length : Int) - 1)) :=
    readAt_eq_posAt (by omega) (by omega)
  by_cases hk : d.randu.length = 0
  · have hnil : d.randu = [] := List.length_eq_zero.mp hk
    have hpos : crossoverPositions (posAt x ((chr1.length : Int) - 1)) d.randu = [] := by
      rw [hnil]
      rfl
    have hlog : ∀ n : Nat, 1 ≤ n → n = chr1.length →
        (∀ ab ∈ [((0 : Int), (n : Int) - 1)],
          0 ≤ ab.1 ∧ ab.1 ≤ ab.2 ∧ ab.2 ≤ (chr1.length : Int) - 1) ∧
        ∀ j : Nat, j < chr1.length → spanCount [((0 : Int), (n : Int) - 1)] j = 1 := by
      intro n hn1 hnl
      refine ⟨fun ab hab => ?_, fun j hj => ?_⟩
      · rw [List.mem_singleton.mp hab]
        simp only []
        omega
      · rw [spanCount_single, if_pos (by omega)]
    have hcells : ∀ (g : List Cell), g = startChr chr1 chr2 d.coin → ∀ j : Nat,
        j < chr1.length →
        g[j]? = (activeChr chr1 chr2 ((coinChr d.coin +
          crossoversBelow (crossoverPositions (posAt x ((chr1.length : Int) - 1)) d.randu)
            (x.getD j 0)) % 2))[j]? := by
      intro g hg j _
      rw [hpos, activeChr_parity, hg]
      rfl
    by_cases hcoin : d.coin = true
    · refine ⟨chr1, ⟨[], [(0, (chr1.length : Int) - 1)]⟩, ?_, ?_, rfl,
        hcells chr1 (by rw [startChr, if_pos hcoin]), by simp [hk], List.Chain.nil,
        (fun e he => by cases he), (hlog chr1.length hn rfl).1, (hlog chr1.length hn rfl).2⟩
      · unfold bivalentLog
        rw [hread]
        simp only [if_pos hk, if_pos hcoin]
      · unfold bivalent
        rw [hread]
        simp only [if_pos hk, if_pos hcoin]
    · refine ⟨chr2, ⟨[], [(0, (chr2.length : Int) - 1)]⟩, ?_, ?_, h2,
        hcells chr2 (by rw [startChr, if_neg hcoin]), by simp [hk], List.Chain.nil,
        (fun e he => by cases he), (hlog chr2.length (by omega) h2).1,
        (hlog chr2.length (by omega) h2).2⟩
      · unfold bivalentLog
        rw [hread]
        simp only [if_pos hk, if_neg hcoin]
      · unfold bivalent
        rw [hread]
        simp only [if_pos hk, if_neg hcoin]
  · obtain ⟨g, hbiv, hglen, hgcell⟩ := bivalent_crossover_spec chr1 chr2 x d hn h2 hx hs hk hp
    have hc0 : ∃ c0, (activeChr chr1 chr2 (if d.coin then 1 else 0))[0]? = some c0 := by
      have hl := activeChr_length chr1 chr2 (if d.coin then 1 else 0) h2
      exact ⟨_, List.getElem?_eq_getElem (by omega)⟩
    obtain ⟨c0, hc0⟩ := hc0
    have hsorted : (crossoverPositions (posAt x ((chr1.length : Int) - 1)) d.randu).Sorted
        (· ≤ ·) := List.sorted_insertionSort _ _
    obtain ⟨st, wlog, hwalk, hstlen, hs0, hsn, hslen, hchain, hle, hwr, hcount⟩ :=
      crossoverWalkLog_spec chr1 chr2 x hs h2 hx _ ((List.replicate chr1.length none).set 0 c0)
        0 (if d.coin then 1 else 0) hsorted hp (le_refl _) (by omega) (by simp)
    obtain ⟨g1, e1, r1⟩ := st
    simp only [] at hstlen hs0 hsn hle hwr hcount
    have hklen : (crossoverPositions (posAt x ((chr1.length : Int) - 1)) d.randu).length
        = d.randu.length := by
      unfold crossoverPositions
      rw [List.length_insertionSort, List.length_map]
    have htail : ∃ (g' : List Cell) (w : List (Int × Int)),
        bivalentLog chr1 chr2 x d = some (g', ⟨wlog.searches, (0, 0) :: wlog.writes ++ w⟩) ∧
        (∀ ab ∈ w, e1 + 1 ≤ ab.1 ∧ ab.1 ≤ ab.2 ∧ ab.2 ≤ (chr1.length : Int) - 1) ∧
        ∀ j : Nat, j < chr1.length → spanCount w j = if e1 < (j : Int) then 1 else 0 := by
      by_cases hlt : e1 < (chr1.length : Int) - 1
      · obtain ⟨g', hg', _, _⟩ := copySpan_spec g1 (activeChr chr1 chr2 r1) (e1 + 1)
          ((chr1.length : Int) - 1) (by omega) (by omega) (by omega)
          (by rw [activeChr_length chr1 chr2 _ h2]; omega)
        refine ⟨g', [(e1 + 1, (chr1.length : Int) - 1)], ?_, fun ab hab => ?_, fun j hj => ?_⟩
        · unfold bivalentLog
          rw [hread]
          simp only [if_neg hk, hc0, hwalk, if_pos hlt, hg']
        · rw [List.mem_singleton.mp hab]
          simp only []
          omega
        · rw [spanCount_single]
          by_cases hj1 : e1 < (j : Int)
          · rw [if_pos hj1, if_pos (by omega)]
          · rw [if_neg hj1, if_neg (by omega)]
      · refine ⟨g1, [], ?_, (fun ab hab => by cases hab), fun j hj => ?_⟩
        · unfold bivalentLog
          rw [hread]
          simp only [if_neg hk, hc0, hwalk, if_neg hlt, List.append_nil]
        · rw [if_neg (by omega)]
          rfl
    obtain ⟨g', w, hlogeq, hw, hwcount⟩ := htail
    have hgg : g' = g := by
      have := bivalentLog_fst chr1 chr2 x d
      rw [hlogeq, hbiv] at this
      exact Option.some.inj this
    subst hgg
    refine ⟨g', _, hlogeq, hbiv, hglen, hgcell, by simp only []; omega, hchain,
      fun e he => by have := hle e he; omega, fun ab hab => ?_, fun j hj => ?_⟩
    · simp only [List.cons_append, List.mem_cons, List.mem_append] at hab
      rcases hab with h | h | h
      · rw [h]
        simp only []
        omega
      · have := hwr ab h
        omega
      · have := hw ab h
        omega
    · simp only [List.cons_append]
      rw [spanCount_cons, spanCount_append, spanCount_single, hcount j, hwcount j hj]
      by_cases hj0 : j = 0
      · subst hj0
        rw [if_pos (by simp), if_neg (by simp), if_neg (by simp only [Nat.cast_zero]; omega)]
      · rw [if_neg (by omega)]
        by_cases hj1 : (j : Int) ≤ e1
        · rw [if_pos ⟨by omega, hj1⟩, if_neg (by omega)]
        · rw [if_neg (by omega), if_pos (by omega)]

/-! ## Crossover positions, degenerate maps, equal homologs -/

theorem crossoverPositions_mem {genLen : ℚ} {randu : List ℚ} {p : ℚ}
    (h : p ∈ crossoverPositions genLen randu) : ∃ u ∈ randu, p = u * genLen := by
  unfold crossoverPositions at h
  rw [List.mem_insertionSort] at h
  obtain ⟨u, hu, hp⟩ := List.mem_map.mp h
  exact ⟨u, hu, hp.symm⟩

theorem crossoverPositions_length (genLen : ℚ) (randu : List ℚ) :
    (crossoverPositions genLen randu).length = randu.length := by
  unfold crossoverPositions
  rw [List.length_insertionSort, List.length_map]

theorem posAt_of_all_zero {x : List ℚ} (hzero : ∀ y ∈ x, y = 0) (i : Int) : posAt x i = 0 := by
  unfold posAt
  rw [List.getD_eq_getElem?_getD]
  cases h : x[i.toNat]? with
  | none => rfl
  | some y => exact hzero y (List.getElem?_mem h)

theorem getD_of_all_zero {x : List ℚ} (hzero : ∀ y ∈ x, y = 0) (j : Nat) : x.getD j 0 = 0 := by
  have := posAt_of_all_zero hzero (j : Int)
  rwa [posAt_natCast] at this

theorem sorted_of_all_zero {x : List ℚ} (hzero : ∀ y ∈ x, y = 0) : x.Sorted (· ≤ ·) :=
  List.pairwise_of_forall_mem_list (fun a ha b hb => by rw [hzero a ha, hzero b hb])

theorem activeChr_self (chr : List Cell) (r : Nat) : activeChr chr chr r = chr := by
  unfold activeChr
  split <;> rfl

theorem activeChr_cases (chr1 chr2 : List Cell) (r : Nat) :
    activeChr chr1 chr2 r = chr1 ∨ activeChr chr1 chr2 r = chr2 := by
  unfold activeChr
  split
  · exact Or.inl rfl
  · exact Or.inr rfl

theorem eq_of_getElem?_lt {g t : List Cell} (hlen : g.length = t.length)
    (h : ∀ j : Nat, j < t.length → g[j]? = t[j]?) : g = t := by
  apply List.ext_getElem?
  intro j
  by_cases hj : j < t.length
  · exact h j hj
  · rw [List.getElem?_eq_none (by omega), List.getElem?_eq_none (by omega)]

/-! ## Claims about the searches and the assignments of `bivalent` -/

/-- C25: the "before start" sentinel is unreachable inside `bivalent`: for
homologs of length `n ≥ 1`, a non-decreasing map of length `n` and crossover
positions (sorted by the code) none of which is below `map[0]`, the call
returns, it makes one `intervalSearch` call per crossover, and the values
`e_1, e_2, ...` these calls return satisfy `0 ≤ e_1 ≤ e_2 ≤ ... ≤ n-1`, none is
`-1`; every span that an assignment of `bivalent` writes (and reads from a
homolog) lies within `0 .. n-1`. -/
theorem bivalent_searches_in_range (chr1 chr2 : List Cell) (genMap : List ℚ) (d : GameteDraws)
    (hn : 1 ≤ chr1.length) (h2 : chr2.length = chr1.length)
    (hx : genMap.length = chr1.length) (hs : genMap.Sorted (· ≤ ·))
    (hp : ∀ p ∈ crossoverPositions (posAt genMap ((chr1.length : Int) - 1)) d.randu,
      posAt genMap 0 ≤ p) :
    ∃ (g : List Cell) (log : GameteLog), bivalentLog chr1 chr2 genMap d = some (g, log) ∧
      bivalent chr1 chr2 genMap d = some g ∧
      log.searches.length = d.randu.length ∧
      List.Chain (· ≤ ·) 0 log.searches ∧
      (∀ e ∈ log.searches, e ≠ -1 ∧ 0 ≤ e ∧ e ≤ (chr1.length : Int) - 1) ∧
      ∀ ab ∈ log.writes, 0 ≤ ab.1 ∧ ab.1 ≤ ab.2 ∧ ab.2 ≤ (chr1.length : Int) - 1 := by
  obtain ⟨g, log, hlog, hbiv, _, _, hlen, hchain, hle, hwr, _⟩ :=
    bivalentLog_spec chr1 chr2 genMap d hn h2 hx hs hp
  refine ⟨g, log, hlog, hbiv, hlen, hchain, fun e he => ?_, hwr⟩
  have h0 : (0 : Int) ≤ e := hchain.rel he
  exact ⟨by omega, h0, hle e he⟩

/-- C26: no allele is invented or left unset by `bivalent`: for homologs of
equal length `n ≥ 1`, a non-decreasing map of length `n` and crossover positions
none of which is below `map[0]`, for every number of crossovers and every coin,
the call returns a gamete of length `n`, every locus `j` lies in the span of
exactly one of its assignments, and `gamete[j]` is `chr1[j]` or `chr2[j]`. -/
theorem bivalent_writes_once (chr1 chr2 : List Cell) (genMap : List ℚ) (d : GameteDraws)
    (hn : 1 ≤ chr1.length) (h2 : chr2.length = chr1.length)
    (hx : genMap.length = chr1.length) (hs : genMap.Sorted (· ≤ ·))
    (hp : ∀ p ∈ crossoverPositions (posAt genMap ((chr1.length : Int) - 1)) d.randu,
      posAt genMap 0 ≤ p) :
    ∃ (g : List Cell) (log : GameteLog), bivalentLog chr1 chr2 genMap d = some (g, log) ∧
      bivalent chr1 chr2 genMap d = some g ∧ g.length = chr1.length ∧
      ∀ j : Nat, j < chr1.length →
        spanCount log.writes j = 1 ∧ (g[j]? = chr1[j]? ∨ g[j]? = chr2[j]?) := by
  obtain ⟨g, log, hlog, hbiv, hglen, hcell, _, _, _, _, hcount⟩ :=
    bivalentLog_spec chr1 chr2 genMap d hn h2 hx hs hp
  refine ⟨g, log, hlog, hbiv, hglen, fun j hj => ⟨hcount j hj, ?_⟩⟩
  rw [hcell j hj]
  rcases activeChr_cases chr1 chr2 ((coinChr d.coin + crossoversBelow
    (crossoverPositions (posAt genMap ((chr1.length : Int) - 1)) d.randu)
    (genMap.getD j 0)) % 2) with h | h
  · exact Or.inl (by rw [h])
  · exact Or.inr (by rw [h])

/-- C23: degenerate map: for homologs of equal length `n ≥ 1` and a map of
length `n` whose positions are all 0 (so the crossover positions, the uniform
draws times the map length, are all 0), for any number of crossovers no
`intervalSearch` call of `bivalent` returns `-1`, and the gamete is the
chromosome the coin starts on, on every locus, the same gamete as with no
crossover. -/
theorem bivalent_degenerate_map (chr1 chr2 : List Cell) (genMap : List ℚ) (d : GameteDraws)
    (hn : 1 ≤ chr1.length) (h2 : chr2.length = chr1.length)
    (hx : genMap.length = chr1.length) (hzero : ∀ y ∈ genMap, y = 0) :
    (∀ p ∈ crossoverPositions (posAt genMap ((chr1.length : Int) - 1)) d.randu, p = 0) ∧
    ∃ log : GameteLog,
      bivalentLog chr1 chr2 genMap d = some (startChr chr1 chr2 d.coin, log) ∧
      log.searches.length = d.randu.length ∧ (∀ e ∈ log.searches, e ≠ -1) ∧
      bivalent chr1 chr2 genMap d = some (startChr chr1 chr2 d.coin) ∧
      bivalent chr1 chr2 genMap ⟨[], d.coin⟩ = some (startChr chr1 chr2 d.coin) := by
  have hpos : ∀ p ∈ crossoverPositions (posAt genMap ((chr1.length : Int) - 1)) d.randu,
      p = 0 := by
    intro p hp
    obtain ⟨u, _, hpu⟩ := crossoverPositions_mem hp
    rw [hpu, posAt_of_all_zero hzero, mul_zero]
  refine ⟨hpos, ?_⟩
  obtain ⟨g, log, hlog, hbiv, hglen, hcell, hlen, hchain, _, _, _⟩ :=
    bivalentLog_spec chr1 chr2 genMap d hn h2 hx (sorted_of_all_zero hzero)
      (fun p hp => by rw [hpos p hp, posAt_of_all_zero hzero])
  have hslen : (startChr chr1 chr2 d.coin).length = chr1.length := by
    unfold startChr
    split
    · rfl
    · exact h2
  have hg : g = startChr chr1 chr2 d.coin := by
    apply eq_of_getElem?_lt (by omega)
    intro j hj
    rw [hslen] at hj
    rw [hcell j hj, getD_of_all_zero hzero,
      crossoversBelow_eq_zero _ _ (fun p hp => by rw [hpos p hp]), activeChr_parity]
    rfl
  subst hg
  refine ⟨log, hlog, hlen, fun e he => ?_, hbiv, ?_⟩
  · have h0 : (0 : Int) ≤ e := hchain.rel he
    omega
  · unfold bivalent startChr
    rw [readAt_eq_posAt (by omega) (by omega)]
    simp only [List.length_nil, if_true]
    split <;> rfl

/-- Witness for C25: two crossovers on three loci. -/
theorem bivalent_searches_in_range_witness :
    (1 ≤ zeros3.length ∧ ones3.length = zeros3.length ∧
      ([0, 1 / 2, 1] : List ℚ).length = zeros3.length ∧
      ([0, 1 / 2, 1] : List ℚ).Sorted (· ≤ ·) ∧
      ∀ p ∈ crossoverPositions (posAt [0, 1 / 2, 1] ((zeros3.length : Int) - 1))
        twoCrossovers.randu, posAt [0, 1 / 2, 1] 0 ≤ p) ∧
    bivalentLog zeros3 ones3 [0, 1 / 2, 1] twoCrossovers
      = some ([some 0, some 1, some 0], ⟨[0, 1], [(0, 0), (1, 1), (2, 2)]⟩) ∧
    ∃ (g : List Cell) (log : GameteLog),
      bivalentLog zeros3 ones3 [0, 1 / 2, 1] twoCrossovers = some (g, log) ∧
      bivalent zeros3 ones3 [0, 1 / 2, 1] twoCrossovers = some g ∧
      log.searches.length = twoCrossovers.randu.length ∧
      List.Chain (· ≤ ·) 0 log.searches ∧
      (∀ e ∈ log.searches, e ≠ -1 ∧ 0 ≤ e ∧ e ≤ (zeros3.length : Int) - 1) ∧
      ∀ ab ∈ log.writes, 0 ≤ ab.1 ∧ ab.1 ≤ ab.2 ∧ ab.2 ≤ (zeros3.length : Int) - 1 :=
  ⟨⟨by decide, by decide, by decide, by with_unfolding_all decide,
      by with_unfolding_all decide⟩,
    by with_unfolding_all decide,
    bivalent_searches_in_range zeros3 ones3 [0, 1 / 2, 1] twoCrossovers (by decide) (by decide)
      (by decide) (by with_unfolding_all decide) (by with_unfolding_all decide)⟩

/-! ## The engines return on inputs that meet their contract -/

theorem scaleMap_fits {n : Nat} {x : List ℚ} {rate : ℚ} (hr : 0 ≤ rate) (h : MapFits n x) :
    MapFits n (scaleMap rate x) := by
  obtain ⟨h1, h2, h3, h4, h5⟩ := h
  have hpos : ∀ i : Int, posAt (scaleMap rate x) i = rate * posAt x i := by
    intro i
    unfold posAt scaleMap
    rw [List.getD_eq_getElem?_getD, List.getD_eq_getElem?_getD, List.getElem?_map]
    cases x[i.toNat]? with
    | none => simp
    | some y => rfl
  refine ⟨h1, by simp [scaleMap, h2], ?_, ?_, ?_⟩
  · unfold scaleMap
    exact List.Pairwise.map _ (fun a b hab => mul_le_mul_of_nonneg_left hab hr) h3
  · rw [hpos]
    exact mul_nonpos_iff.mpr (Or.inl ⟨hr, h4⟩)
  · rw [hpos]
    exact mul_nonneg hr h5

theorem femaleRecRate_nonneg {r : ℚ} (hr : 0 < r) : 0 ≤ femaleRecRate r := by
  unfold femaleRecRate
  positivity

theorem maleRecRate_nonneg {r : ℚ} (hr : 0 < r) : 0 ≤ maleRecRate r := by
  unfold maleRecRate
  positivity

/-- Uniform draws from the unit interval on a fitting map place no crossover
below the first map position. -/
theorem positions_not_before_start {n : Nat} {x : List ℚ} {d : GameteDraws}
    (hm : MapFits n x) (hd : UnitDraws d) :
    ∀ p ∈ crossoverPositions (posAt x ((n : Int) - 1)) d.randu, posAt x 0 ≤ p := by
  obtain ⟨_, _, _, h4, h5⟩ := hm
  intro p hp
  obtain ⟨u, hu, hpu⟩ := crossoverPositions_mem hp
  rw [hpu]
  exact le_trans h4 (mul_nonneg (hd u hu).1 h5)

/-- On homologs of equal length with a fitting map and unit-interval draws,
`bivalent` returns a gamete of that length whose cells are cells of the
homologs. -/
theorem bivalent_total (chr1 chr2 : List Cell) (x : List ℚ) (d : GameteDraws)
    (h2 : chr2.length = chr1.length) (hm : MapFits chr1.length x) (hd : UnitDraws d) :
    ∃ g, bivalent chr1 chr2 x d = some g ∧ g.length = chr1.length ∧
      ∀ j : Nat, j < chr1.length → g[j]? = chr1[j]? ∨ g[j]? = chr2[j]? := by
  obtain ⟨g, log, _, hbiv, hlen, hcell, _⟩ :=
    bivalentLog_spec chr1 chr2 x d hm.1 h2 hm.2.1 hm.2.2.1 (positions_not_before_start hm hd)
  refine ⟨g, hbiv, hlen, fun j hj => ?_⟩
  rw [hcell j hj]
  rcases activeChr_cases chr1 chr2 ((coinChr d.coin + crossoversBelow
    (crossoverPositions (posAt x ((chr1.length : Int) - 1)) d.randu) (x.getD j 0)) % 2)
    with h | h
  · exact Or.inl (by rw [h])
  · exact Or.inr (by rw [h])

theorem Cube.col_exists (cube : Cube) {s k : Nat} (hs : s < cube.n_slices)
    (hk : k < cube.n_cols) : ∃ v, cube.col s k = some v ∧ v.length = cube.n_rows := by
  unfold Cube.col
  rw [if_pos ⟨hs, hk⟩]
  exact ⟨_, rfl, by simp⟩

theorem Cube.setCol_exists (cube : Cube) {s k : Nat} {v : List Cell} (hs : s < cube.n_slices)
    (hk : k < cube.n_cols) (hv : v.length = cube.n_rows) :
    ∃ t, cube.setCol s k v = some t ∧ t.n_rows = cube.n_rows ∧ t.n_cols = cube.n_cols ∧
      t.n_slices = cube.n_slices := by
  unfold Cube.setCol
  rw [if_pos ⟨hs, hk, hv⟩]
  exact ⟨_, rfl, rfl, rfl, rfl⟩

theorem mapM_range_exists {β : Type} (f : Nat → Option β) :
    ∀ n : Nat, (∀ k : Nat, k < n → ∃ b, f k = some b) →
      ∃ r, (List.range n).mapM f = some r := by
  have key : ∀ l : List Nat, (∀ k ∈ l, ∃ b, f k = some b) → ∃ r, l.mapM f = some r := by
    intro l
    induction l with
    | nil => intro _; exact ⟨[], rfl⟩
    | cons a l ih =>
      intro h
      obtain ⟨b, hb⟩ := h a (List.mem_cons_self _ _)
      obtain ⟨r, hr⟩ := ih (fun k hk => h k (List.mem_cons_of_mem _ hk))
      exact ⟨b :: r, by rw [List.mapM_cons, hb, hr]; rfl⟩
  intro n h
  exact key _ (fun k hk => h k (List.mem_range.mp hk))

theorem parentIndex_pred {idx : List Nat} {nInd ind : Nat} (h : ParentIndices idx nInd)
    (hi : ind < idx.length) :
    ∃ m, (idx.map uwordPred)[ind]? = some m ∧ m < nInd := by
  have hmem : idx[ind] ∈ idx := List.getElem_mem _
  obtain ⟨h1, h2, h3⟩ := h _ hmem
  refine ⟨idx[ind] - 1, ?_, by omega⟩
  rw [List.getElem?_map, List.getElem?_eq_getElem hi, Option.map_some',
    uwordPred_of_pos h1 h3]

theorem cross2Ind_total (mGeno fGeno : Cube) (fatherGeno : List Cube) (chr : Nat)
    (mother father : List Nat) (femaleMap maleMap : List ℚ) (dr : Nat → Nat → GameteDraws)
    (tmp : Cube) (ind m f : Nat)
    (hm : mother[ind]? = some m) (hf : father[ind]? = some f)
    (hfg : fatherGeno[chr]? = some fGeno)
    (hms : m < mGeno.n_slices) (hmc : mGeno.n_cols = 2)
    (hfs : f < fGeno.n_slices) (hfc : fGeno.n_cols = 2) (hfr : fGeno.n_rows = mGeno.n_rows)
    (hfm : MapFits mGeno.n_rows femaleMap) (hmm : MapFits mGeno.n_rows maleMap)
    (hd : ∀ role : Nat, UnitDraws (dr ind role))
    (ht : tmp.n_rows = mGeno.n_rows ∧ tmp.n_cols = 2 ∧ ind < tmp.n_slices) :
    ∃ t, cross2Ind mGeno fatherGeno chr mother father femaleMap maleMap dr tmp ind = some t ∧
      t.n_rows = tmp.n_rows ∧ t.n_cols = tmp.n_cols ∧ t.n_slices = tmp.n_slices := by
  obtain ⟨m0, hm0, hl0⟩ := mGeno.col_exists hms (by omega : 0 < mGeno.n_cols)
  obtain ⟨m1, hm1, hl1⟩ := mGeno.col_exists hms (by omega : 1 < mGeno.n_cols)
  obtain ⟨female, hfem, hflen, _⟩ :=
    bivalent_total m0 m1 femaleMap (dr ind 0) (by omega) (by rw [hl0]; exact hfm) (hd 0)
  obtain ⟨tmp1, ht1, a1, a2, a3⟩ :=
    tmp.setCol_exists (v := female) ht.2.2 (by omega : 0 < tmp.n_cols) (by omega)
  obtain ⟨f0, hf0, hk0⟩ := fGeno.col_exists hfs (by omega : 0 < fGeno.n_cols)
  obtain ⟨f1, hf1, hk1⟩ := fGeno.col_exists hfs (by omega : 1 < fGeno.n_cols)
  obtain ⟨male, hmale, hmlen, _⟩ :=
    bivalent_total f0 f1 maleMap (dr ind 1) (by omega) (by rw [hk0, hfr]; exact hmm) (hd 1)
  obtain ⟨t, ht2, b1, b2, b3⟩ :=
    tmp1.setCol_exists (v := male) (by omega : ind < tmp1.n_slices)
      (by omega : 1 < tmp1.n_cols) (by omega)
  refine ⟨t, ?_, by omega, by omega, by omega⟩
  simp only [cross2Ind, hm, hm0, hm1, hfem, ht1, hfg, hf, hf0, hf1, hmale, ht2,
    Option.bind_eq_bind, Option.some_bind]

/-- The function `cross2` returns on stores of the data model with 1-based
parent indices into them, fitting maps, a positive ratio and unit-interval
draws. -/
theorem cross2_total (motherGeno fatherGeno : List Cube) (nIndM nIndF : Nat)
    (mother father : List Nat) (genMaps : List (List ℚ)) (recombRatio : ℚ)
    (draws : Nat → Nat → Nat → GameteDraws)
    (hM : StoreShape motherGeno nIndM) (hF : StoreShape fatherGeno nIndF)
    (hFlen : fatherGeno.length = motherGeno.length)
    (hFrows : ∀ (chr : Nat) (g1 g2 : Cube), motherGeno[chr]? = some g1 →
      fatherGeno[chr]? = some g2 → g2.n_rows = g1.n_rows)
    (hmo : ParentIndices mother nIndM) (hfa : ParentIndices father nIndF)
    (hlen : father.length = mother.length) (hmaps : MapsFit motherGeno genMaps)
    (hr : 0 < recombRatio) (hd : ∀ chr ind role : Nat, UnitDraws (draws chr ind role)) :
    ∃ out, cross2 motherGeno mother fatherGeno father genMaps recombRatio draws = some out := by
  unfold cross2
  apply mapM_range_exists
  intro chr hchr
  have hg : motherGeno[chr]? = some motherGeno[chr] := List.getElem?_eq_getElem hchr
  have hxl : chr < genMaps.length := by rw [hmaps.1]; exact hchr
  have hfl : chr < fatherGeno.length := by rw [hFlen]; exact hchr
  have hx : genMaps[chr]? = some genMaps[chr] := List.getElem?_eq_getElem hxl
  have hfg : fatherGeno[chr]? = some fatherGeno[chr] := List.getElem?_eq_getElem hfl
  have hfit := hmaps.2 chr _ _ hg hx
  obtain ⟨hmc, hms⟩ := hM _ (List.getElem?_mem hg)
  obtain ⟨hfc, hfs⟩ := hF _ (List.getElem?_mem hfg)
  have hloop := foldlM_range_exists
    (cross2Ind motherGeno[chr] fatherGeno chr (mother.map uwordPred) (father.map uwordPred)
      (scaleMap (femaleRecRate recombRatio) genMaps[chr])
      (scaleMap (maleRecRate recombRatio) genMaps[chr])
      (draws chr))
    (fun _ tmp => tmp.n_rows = motherGeno[chr].n_rows ∧ tmp.n_cols = 2 ∧
      tmp.n_slices = mother.length)
    mother.length (Cube.fresh motherGeno[chr].n_rows 2 mother.length) ⟨rfl, rfl, rfl⟩
    (by
      intro ind t hind hP
      obtain ⟨q1, q2, q3⟩ := hP
      obtain ⟨m, hm1, hm2⟩ := parentIndex_pred hmo hind
      obtain ⟨f, hf1, hf2⟩ := parentIndex_pred hfa (by omega : ind < father.length)
      obtain ⟨t1, ht1, r1, r2, r3⟩ := cross2Ind_total motherGeno[chr] fatherGeno[chr]
        fatherGeno chr (mother.map uwordPred) (father.map uwordPred) _ _ (draws chr) t ind m f
        hm1 hf1 hfg (by omega) hmc (by omega) hfc (hFrows chr _ _ hg hfg)
        (scaleMap_fits (femaleRecRate_nonneg hr) hfit)
        (scaleMap_fits (maleRecRate_nonneg hr) hfit) (fun role => hd chr ind role)
        ⟨q1, q2, by omega⟩
      exact ⟨t1, ht1, by omega, by omega, by omega⟩)
  obtain ⟨cube, hcube, _⟩ := hloop
  refine ⟨cube, ?_⟩
  simp only [cross2Chr, hx, hg, List.length_map, Option.bind_eq_bind, Option.some_bind]
  exact hcube

theorem uwordOfInt_neg_one : uwordOfInt (-1) = 2 ^ uwordBits - 1 := by
  unfold uwordOfInt uwordBits
  decide

theorem uwordPred_zero : uwordPred 0 = uwordOfInt (-1) := by
  unfold uwordPred uwordOfInt uwordBits
  decide

theorem uwordPred_ne_sentinel {v : Nat} (h1 : 1 ≤ v) (h2 : v < 2 ^ uwordBits) :
    uwordPred v ≠ uwordOfInt (-1) := by
  rw [uwordPred_of_pos h1 h2, uwordOfInt_neg_one]
  omega

/-- After `-= 1` a pedigree reference is the sentinel or an entry of the pedigree. -/
theorem pedigreeRef_pred {refs : List Nat} {nInd ind : Nat} (h : PedigreeRefs refs nInd)
    (hi : ind < refs.length) :
    ∃ m, (refs.map uwordPred)[ind]? = some m ∧ (m ≠ uwordOfInt (-1) → m < nInd) := by
  have hmem : refs[ind] ∈ refs := List.getElem_mem _
  obtain ⟨h1, h2⟩ := h _ hmem
  refine ⟨uwordPred refs[ind], ?_, fun hne => ?_⟩
  · rw [List.getElem?_map, List.getElem?_eq_getElem hi, Option.map_some']
  · by_cases hz : refs[ind] = 0
    · rw [hz, uwordPred_zero] at hne
      exact absurd rfl hne
    · rw [uwordPred_of_pos (by omega) h2]
      omega

theorem createDH2Rep_total (g : Cube) (nDH : Nat) (genMap : List ℚ)
    (dr : Nat → Nat → GameteDraws) (ind i : Nat) (tmp : Cube)
    (hs : ind < g.n_slices) (hc : g.n_cols = 2) (hfit : MapFits g.n_rows genMap)
    (hd : UnitDraws (dr ind i))
    (ht : tmp.n_rows = g.n_rows ∧ tmp.n_cols = 2 ∧ i + ind * nDH < tmp.n_slices) :
    ∃ t, createDH2Rep g nDH genMap dr ind tmp i = some t ∧
      t.n_rows = tmp.n_rows ∧ t.n_cols = tmp.n_cols ∧ t.n_slices = tmp.n_slices := by
  obtain ⟨c0, hc0, hl0⟩ := g.col_exists hs (by omega : 0 < g.n_cols)
  obtain ⟨c1, hc1, hl1⟩ := g.col_exists hs (by omega : 1 < g.n_cols)
  obtain ⟨gamete, hgam, hglen, _⟩ :=
    bivalent_total c0 c1 genMap (dr ind i) (by omega) (by rw [hl0]; exact hfit) hd
  obtain ⟨tmp0, ht0, a1, a2, a3⟩ :=
    tmp.setCol_exists (v := gamete) ht.2.2 (by omega : 0 < tmp.n_cols) (by omega)
  obtain ⟨t, ht1, b1, b2, b3⟩ :=
    tmp0.setCol_exists (v := gamete) (by omega : i + ind * nDH < tmp0.n_slices)
      (by omega : 1 < tmp0.n_cols) (by omega)
  refine ⟨t, ?_, by omega, by omega, by omega⟩
  simp only [createDH2Rep, hc0, hc1, hgam, ht0, ht1, Option.bind_eq_bind, Option.some_bind]

/-- The function `createDH2` returns on a non-empty store of the data model
with `nDH ≥ 0`, fitting maps, a positive ratio and unit-interval draws. -/
theorem createDH2_total (geno : List Cube) (nInd : Nat) (nDH : Int)
    (genMaps : List (List ℚ)) (recombRatio : ℚ) (useFemale : Bool)
    (draws : Nat → Nat → Nat → GameteDraws)
    (hG : StoreShape geno nInd) (hne : 0 < geno.length) (hDH : 0 ≤ nDH)
    (hmaps : MapsFit geno genMaps) (hr : 0 < recombRatio)
    (hd : ∀ chr ind rep : Nat, UnitDraws (draws chr ind rep)) :
    ∃ out, createDH2 geno nDH genMaps recombRatio useFemale draws = some out := by
  have hg0 : geno[0]? = some geno[0] := List.getElem?_eq_getElem hne
  obtain ⟨_, hn0⟩ := hG _ (List.getElem?_mem hg0)
  have hrate : 0 ≤ (if useFemale then femaleRecRate recombRatio else maleRecRate recombRatio) := by
    split
    · exact femaleRecRate_nonneg hr
    · exact maleRecRate_nonneg hr
  have hmapM := mapM_range_exists
    (createDH2Chr geno (nInd : Int) nDH genMaps
      (if useFemale then femaleRecRate recombRatio else maleRecRate recombRatio) draws)
    geno.length (by
      intro chr hchr
      have hxl : chr < genMaps.length := by rw [hmaps.1]; exact hchr
      have hg : geno[chr]? = some geno[chr] := List.getElem?_eq_getElem hchr
      have hx : genMaps[chr]? = some genMaps[chr] := List.getElem?_eq_getElem hxl
      have hfit := scaleMap_fits hrate (hmaps.2 chr _ _ hg hx)
      obtain ⟨hc, hs⟩ := hG _ (List.getElem?_mem hg)
      have hnn : ¬ (nInd : Int) * nDH < 0 := by
        have : 0 ≤ (nInd : Int) * nDH := mul_nonneg (by omega) hDH
        omega
      have hsl : ((nInd : Int) * nDH).toNat = nInd * nDH.toNat := by
        have hcast : ((nInd * nDH.toNat : Nat) : Int) = (nInd : Int) * nDH := by
          rw [Nat.cast_mul, Int.toNat_of_nonneg hDH]
        rw [← hcast, Int.toNat_natCast]
      have hloop := foldlM_range_exists
        (fun tmp ind => (List.range nDH.toNat).foldlM
          (createDH2Rep geno[chr] nDH.toNat
            (scaleMap (if useFemale then femaleRecRate recombRatio
              else maleRecRate recombRatio) genMaps[chr]) (draws chr) ind) tmp)
        (fun _ tmp => tmp.n_rows = geno[chr].n_rows ∧ tmp.n_cols = 2 ∧
          tmp.n_slices = nInd * nDH.toNat)
        (nInd : Int).toNat (Cube.fresh geno[chr].n_rows 2 ((nInd : Int) * nDH).toNat)
        ⟨rfl, rfl, hsl⟩
        (by
          intro ind t hind hP
          have hind1 : ind < nInd := by simpa using hind
          exact foldlM_range_exists
            (createDH2Rep geno[chr] nDH.toNat
              (scaleMap (if useFemale then femaleRecRate recombRatio
                else maleRecRate recombRatio) genMaps[chr]) (draws chr) ind)
            (fun _ tmp => tmp.n_rows = geno[chr].n_rows ∧ tmp.n_cols = 2 ∧
              tmp.n_slices = nInd * nDH.toNat)
            nDH.toNat t hP
            (by
              intro i t0 hi hQ
              obtain ⟨q1, q2, q3⟩ := hQ
              have hbound : i + ind * nDH.toNat < nInd * nDH.toNat := by
                have h1 : (ind + 1) * nDH.toNat ≤ nInd * nDH.toNat :=
                  Nat.mul_le_mul_right _ (by omega)
                rw [Nat.succ_mul] at h1
                omega
              obtain ⟨t1, ht1, r1, r2, r3⟩ := createDH2Rep_total geno[chr] nDH.toNat _
                (draws chr) ind i t0 (by omega) hc hfit (hd chr ind i) ⟨q1, q2, by omega⟩
              exact ⟨t1, ht1, by omega, by omega, by omega⟩))
      obtain ⟨cube, hcube, _⟩ := hloop
      refine ⟨cube, ?_⟩
      simp only [createDH2Chr, hx, hg, if_neg hnn, Option.bind_eq_bind, Option.some_bind]
      exact hcube)
  obtain ⟨out, hout⟩ := hmapM
  refine ⟨out, ?_⟩
  simp only [createDH2, hg0, hn0, Option.bind_eq_bind, Option.some_bind]
  exact hout

theorem pedigreeSource_exists (fGeno tmp : Cube) (ref d0 d1 : Nat)
    (hfc : fGeno.n_cols = 2) (htc : tmp.n_cols = 2) (htr : tmp.n_rows = fGeno.n_rows)
    (hd : d0 < fGeno.n_slices ∧ d1 < fGeno.n_slices)
    (hrf : ref ≠ uwordOfInt (-1) → ref < tmp.n_slices) :
    ∃ cs, pedigreeSource fGeno tmp ref d0 d1 = some cs ∧ cs.1.length = fGeno.n_rows ∧
      cs.2.length = fGeno.n_rows := by
  unfold pedigreeSource
  by_cases hs : ref = uwordOfInt (-1)
  · obtain ⟨c0, hc0, hl0⟩ := fGeno.col_exists hd.1 (by omega : 0 < fGeno.n_cols)
    obtain ⟨c1, hc1, hl1⟩ := fGeno.col_exists hd.2 (by omega : 1 < fGeno.n_cols)
    refine ⟨(c0, c1), ?_, hl0, hl1⟩
    simp only [if_pos hs, hc0, hc1, Option.bind_eq_bind, Option.some_bind]
  · obtain ⟨c0, hc0, hl0⟩ := tmp.col_exists (hrf hs) (by omega : 0 < tmp.n_cols)
    obtain ⟨c1, hc1, hl1⟩ := tmp.col_exists (hrf hs) (by omega : 1 < tmp.n_cols)
    refine ⟨(c0, c1), ?_, by simp only []; omega, by simp only []; omega⟩
    simp only [if_neg hs, hc0, hc1, Option.bind_eq_bind, Option.some_bind]

theorem crossPedigreeInd_total (fGeno : Cube) (mother father : List Nat)
    (femaleMap maleMap : List ℚ) (dr : Nat → Nat → GameteDraws) (fd : Nat → Nat → Nat → Nat)
    (tmp : Cube) (ind m f : Nat)
    (hm : mother[ind]? = some m) (hf : father[ind]? = some f) (hfc : fGeno.n_cols = 2)
    (hfm : MapFits fGeno.n_rows femaleMap) (hmm : MapFits fGeno.n_rows maleMap)
    (hd : ∀ role : Nat, UnitDraws (dr ind role))
    (hfd : ∀ role k : Nat, fd ind role k < fGeno.n_slices)
    (hmref : m ≠ uwordOfInt (-1) → m < tmp.n_slices)
    (hfref : f ≠ uwordOfInt (-1) → f < tmp.n_slices)
    (ht : tmp.n_rows = fGeno.n_rows ∧ tmp.n_cols = 2 ∧ ind < tmp.n_slices) :
    ∃ t, crossPedigreeInd fGeno mother father femaleMap maleMap dr fd tmp ind = some t ∧
      t.n_rows = tmp.n_rows ∧ t.n_cols = tmp.n_cols ∧ t.n_slices = tmp.n_slices := by
  obtain ⟨ms, hms, hl0, hl1⟩ := pedigreeSource_exists fGeno tmp m (fd ind 0 0) (fd ind 0 1) hfc
    ht.2.1 ht.1 ⟨hfd 0 0, hfd 0 1⟩ hmref
  obtain ⟨female, hfem, hflen, _⟩ :=
    bivalent_total ms.1 ms.2 femaleMap (dr ind 0) (by omega) (by rw [hl0]; exact hfm) (hd 0)
  obtain ⟨tmp1, ht1, a1, a2, a3⟩ :=
    tmp.setCol_exists (v := female) ht.2.2 (by omega : 0 < tmp.n_cols) (by omega)
  obtain ⟨fs, hfs, hk0, hk1⟩ := pedigreeSource_exists fGeno tmp1 f (fd ind 1 0) (fd ind 1 1) hfc
    (by omega) (by omega) ⟨hfd 1 0, hfd 1 1⟩ (fun hne => by have := hfref hne; omega)
  obtain ⟨male, hmale, hmlen, _⟩ :=
    bivalent_total fs.1 fs.2 maleMap (dr ind 1) (by omega) (by rw [hk0]; exact hmm) (hd 1)
  obtain ⟨t, ht2, b1, b2, b3⟩ :=
    tmp1.setCol_exists (v := male) (by omega : ind < tmp1.n_slices)
      (by omega : 1 < tmp1.n_cols) (by omega)
  refine ⟨t, ?_, by omega, by omega, by omega⟩
  simp only [crossPedigreeInd, hm, hms, hfem, ht1, hf, hfs, hmale, ht2, Option.bind_eq_bind,
    Option.some_bind]

/-- The function `crossPedigree` returns on a non-empty founder store of the
data model with pedigree references into the pedigree, founder draws inside the
founder store, fitting maps, a positive ratio and unit-interval draws. -/
theorem crossPedigree_total (founders : List Cube) (nF : Nat) (mother father : List Nat)
    (genMaps : List (List ℚ)) (recombRatio : ℚ) (draws : Nat → Nat → Nat → GameteDraws)
    (fdraws : Nat → Nat → Nat → Nat → Nat)
    (hG : StoreShape founders nF) (hne : 0 < founders.length)
    (hmo : PedigreeRefs mother mother.length) (hfa : PedigreeRefs father mother.length)
    (hlen : father.length = mother.length) (hmaps : MapsFit founders genMaps)
    (hr : 0 < recombRatio) (hd : ∀ chr ind role : Nat, UnitDraws (draws chr ind role))
    (hfd : ∀ chr ind role k : Nat, fdraws chr ind role k < nF) :
    ∃ out, crossPedigree founders mother father genMaps recombRatio draws fdraws = some out := by
  have hg0 : founders[0]? = some founders[0] := List.getElem?_eq_getElem hne
  have hmapM := mapM_range_exists
    (crossPedigreeChr founders (mother.map uwordPred) (father.map uwordPred) genMaps
      recombRatio draws fdraws)
    founders.length (by
      intro chr hchr
      have hxl : chr < genMaps.length := by rw [hmaps.1]; exact hchr
      have hg : founders[chr]? = some founders[chr] := List.getElem?_eq_getElem hchr
      have hx : genMaps[chr]? = some genMaps[chr] := List.getElem?_eq_getElem hxl
      have hfit := hmaps.2 chr _ _ hg hx
      obtain ⟨hc, hs⟩ := hG _ (List.getElem?_mem hg)
      have hloop := foldlM_range_exists
        (crossPedigreeInd founders[chr] (mother.map uwordPred) (father.map uwordPred)
          (scaleMap (femaleRecRate recombRatio) genMaps[chr])
          (scaleMap (maleRecRate recombRatio) genMaps[chr]) (draws chr) (fdraws chr))
        (fun _ tmp => tmp.n_rows = founders[chr].n_rows ∧ tmp.n_cols = 2 ∧
          tmp.n_slices = mother.length)
        mother.length (Cube.fresh founders[chr].n_rows 2 mother.length) ⟨rfl, rfl, rfl⟩
        (by
          intro ind t hind hP
          obtain ⟨q1, q2, q3⟩ := hP
          obtain ⟨m, hm1, hm2⟩ := pedigreeRef_pred hmo hind
          obtain ⟨f, hf1, hf2⟩ := pedigreeRef_pred hfa (by omega : ind < father.length)
          obtain ⟨t1, ht1, r1, r2, r3⟩ := crossPedigreeInd_total founders[chr]
            (mother.map uwordPred) (father.map uwordPred) _ _ (draws chr) (fdraws chr) t ind m f
            hm1 hf1 hc (scaleMap_fits (femaleRecRate_nonneg hr) hfit)
            (scaleMap_fits (maleRecRate_nonneg hr) hfit) (fun role => hd chr ind role)
            (fun role k => by rw [hs]; exact hfd chr ind role k)
            (fun hne => by have := hm2 hne; omega) (fun hne => by have := hf2 hne; omega)
            ⟨q1, q2, by omega⟩
          exact ⟨t1, ht1, by omega, by omega, by omega⟩)
      obtain ⟨cube, hcube, _⟩ := hloop
      refine ⟨cube, ?_⟩
      simp only [crossPedigreeChr, hx, hg, List.length_map, Option.bind_eq_bind,
        Option.some_bind]
      exact hcube)
  obtain ⟨out, hout⟩ := hmapM
  refine ⟨out, ?_⟩
  simp only [crossPedigree, hg0, Option.bind_eq_bind, Option.some_bind]
  exact hout

/-! ## The shape of the stores that the engines return -/

theorem cross2_shaped {motherGeno : List Cube} {mother : List Nat} {fatherGeno : List Cube}
    {father : List Nat} {genMaps : List (List ℚ)} {recombRatio : ℚ}
    {draws : Nat → Nat → Nat → GameteDraws} {out : List Cube}
    (h : cross2 motherGeno mother fatherGeno father genMaps recombRatio draws = some out) :
    ShapedLike motherGeno out mother.length := by
  unfold cross2 at h
  obtain ⟨hlen, hget⟩ := mapM_range_some _ _ out h
  refine ⟨hlen, fun chr hchr => ?_⟩
  have hcube : out[chr]? = some out[chr] := List.getElem?_eq_getElem (by omega)
  have hstep := hget chr hchr
  rw [hcube] at hstep
  obtain ⟨g, _, hg, _, h1, h2, h3, _⟩ := cross2Chr_some hstep
  exact ⟨g, _, hg, hcube, h1, h2, by simpa using h3⟩

theorem createDH2_shaped {geno : List Cube} {nInd : Nat} {nDH : Int}
    {genMaps : List (List ℚ)} {recombRatio : ℚ} {useFemale : Bool}
    {draws : Nat → Nat → Nat → GameteDraws} {out : List Cube}
    (hG : StoreShape geno nInd)
    (h : createDH2 geno nDH genMaps recombRatio useFemale draws = some out) :
    ShapedLike geno out (nInd * nDH.toNat) ∧
    ∀ (chr : Nat) (o : Cube), out[chr]? = some o →
      ∃ g genMap, geno[chr]? = some g ∧ genMaps[chr]? = some genMap ∧
        ∀ t : Nat, t < nInd * nDH.toNat →
          DHWritten g nDH.toNat
            (scaleMap (if useFemale then femaleRecRate recombRatio
              else maleRecRate recombRatio) genMap) (draws chr) o t := by
  simp only [createDH2, Option.bind_eq_bind, Option.bind_eq_some] at h
  obtain ⟨g0, hg0, hmapM⟩ := h
  obtain ⟨_, hn0⟩ := hG _ (List.getElem?_mem hg0)
  rw [hn0] at hmapM
  obtain ⟨hlen, hget⟩ := mapM_range_some _ _ out hmapM
  refine ⟨⟨hlen, fun chr hchr => ?_⟩, fun chr o ho => ?_⟩
  · have hcube : out[chr]? = some out[chr] := List.getElem?_eq_getElem (by omega)
    have hstep := hget chr hchr
    rw [hcube] at hstep
    obtain ⟨g, _, hg, _, h1, h2, h3, _⟩ := createDH2Chr_some hstep
    exact ⟨g, _, hg, hcube, h1, h2, h3⟩
  · have hchr : chr < geno.length := by
      by_contra hcon
      rw [List.getElem?_eq_none (by omega)] at ho
      cases ho
    have hstep := hget chr hchr
    rw [ho] at hstep
    obtain ⟨g, genMap, hg, hx, _, _, _, hW⟩ := createDH2Chr_some hstep
    exact ⟨g, genMap, hg, hx, hW⟩

theorem crossPedigree_shaped {founders : List Cube} {mother father : List Nat}
    {genMaps : List (List ℚ)} {recombRatio : ℚ} {draws : Nat → Nat → Nat → GameteDraws}
    {fdraws : Nat → Nat → Nat → Nat → Nat} {out : List Cube}
    (h : crossPedigree founders mother father genMaps recombRatio draws fdraws = some out) :
    ShapedLike founders out mother.length ∧
    ∀ (chr : Nat) (o : Cube), out[chr]? = some o →
      ∃ fGeno genMap, founders[chr]? = some fGeno ∧ genMaps[chr]? = some genMap ∧
        o.n_rows = fGeno.n_rows ∧
        ∀ i : Nat, i < mother.length →
          PedWritten fGeno (mother.map uwordPred) (father.map uwordPred)
            (scaleMap (femaleRecRate recombRatio) genMap)
            (scaleMap (maleRecRate recombRatio) genMap) (draws chr) (fdraws chr) o i := by
  simp only [crossPedigree, Option.bind_eq_bind, Option.bind_eq_some] at h
  obtain ⟨g0, hg0, hmapM⟩ := h
  obtain ⟨hlen, hget⟩ := mapM_range_some _ _ out hmapM
  refine ⟨⟨hlen, fun chr hchr => ?_⟩, fun chr o ho => ?_⟩
  · have hcube : out[chr]? = some out[chr] := List.getElem?_eq_getElem (by omega)
    have hstep := hget chr hchr
    rw [hcube] at hstep
    obtain ⟨g, _, hg, _, h1, h2, h3, _⟩ := crossPedigreeChr_some hstep
    exact ⟨g, _, hg, hcube, h1, h2, by simpa using h3⟩
  · have hchr : chr < founders.length := by
      by_contra hcon
      rw [List.getElem?_eq_none (by omega)] at ho
      cases ho
    have hstep := hget chr hchr
    rw [ho] at hstep
    obtain ⟨g, genMap, hg, hx, h1, _, _, hW⟩ := crossPedigreeChr_some hstep
    exact ⟨g, genMap, hg, hx, h1, fun i hi => hW i (by simpa using hi)⟩

/-- A parent whose two homologs are one and the same breeds true. -/
theorem bivalent_self (chr1 : List Cell) (x : List ℚ) (d : GameteDraws)
    (hn : 1 ≤ chr1.length) (hx : x.length = chr1.length) (hs : x.Sorted (· ≤ ·))
    (hp : ∀ p ∈ crossoverPositions (posAt x ((chr1.length : Int) - 1)) d.randu,
      posAt x 0 ≤ p) :
    bivalent chr1 chr1 x d = some chr1 := by
  obtain ⟨g, log, _, hbiv, hlen, hcell, _⟩ := bivalentLog_spec chr1 chr1 x d hn rfl hx hs hp
  have hg : g = chr1 := by
    apply eq_of_getElem?_lt hlen
    intro j hj
    rw [hcell j hj, activeChr_self]
  rw [hbiv, hg]

/-! ## Tracing the cells of a pedigree block to the founders -/

theorem earlierRefs_refs {refs : List Nat} (h : EarlierRefs refs) (n : Nat)
    (hn : refs.length ≤ n) : PedigreeRefs refs n := by
  intro m hm
  obtain ⟨i, hi, hget⟩ := List.mem_iff_getElem.mp hm
  have := h i m (by rw [List.getElem?_eq_getElem hi, hget])
  omega

theorem earlierRefs_pred {refs : List Nat} (h : EarlierRefs refs) {i m : Nat}
    (hm : (refs.map uwordPred)[i]? = some m) : m = uwordOfInt (-1) ∨ m < i := by
  rw [List.getElem?_map] at hm
  obtain ⟨v, hv, hmv⟩ := Option.map_eq_some'.mp hm
  obtain ⟨h1, h2⟩ := h i v hv
  by_cases hz : v = 0
  · left
    rw [← hmv, hz, uwordPred_zero]
  · right
    rw [← hmv, uwordPred_of_pos (by omega) h2]
    omega

/-- One gamete of a pedigree entry: when the source of the gamete is a founder
draw or an earlier entry whose cells are cells of founders, the cells of the
gamete are cells of founders. -/
theorem gamete_traced (fGeno o : Cube) (nF ref i d0 d1 h : Nat) (c0 c1 g : List Cell)
    (x : List ℚ) (d : GameteDraws)
    (hrows : o.n_rows = fGeno.n_rows)
    (hsrc : PedSource fGeno o ref i d0 d1 c0 c1) (href : ref = uwordOfInt (-1) ∨ ref < i)
    (hd0 : d0 < nF) (hd1 : d1 < nF) (hbiv : bivalent c0 c1 x d = some g)
    (hfit : MapFits fGeno.n_rows x) (hd : UnitDraws d) (hcol : o.col i h = some g)
    (ih : ∀ k : Nat, k < i → ∀ j : Nat, j < fGeno.n_rows → ∀ h1 : Nat, h1 < 2 →
      ∃ f h2 : Nat, f < nF ∧ h2 < 2 ∧ o.cell j h1 k = fGeno.cell j h2 f) :
    ∀ j : Nat, j < fGeno.n_rows →
      ∃ f h2 : Nat, f < nF ∧ h2 < 2 ∧ o.cell j h i = fGeno.cell j h2 f := by
  intro j hj
  have hgj := (Cube.col_some_cell hcol).2.2.2 j (by omega)
  have hcols : ∃ a0 a1 : Cell, c0.length = fGeno.n_rows ∧ c1.length = fGeno.n_rows ∧
      c0[j]? = some a0 ∧ c1[j]? = some a1 ∧
      (∃ f h2 : Nat, f < nF ∧ h2 < 2 ∧ a0 = fGeno.cell j h2 f) ∧
      (∃ f h2 : Nat, f < nF ∧ h2 < 2 ∧ a1 = fGeno.cell j h2 f) := by
    by_cases hs : ref = uwordOfInt (-1)
    · obtain ⟨e0, e1⟩ := hsrc.1 hs
      obtain ⟨_, _, l0, k0⟩ := Cube.col_some_cell e0
      obtain ⟨_, _, l1, k1⟩ := Cube.col_some_cell e1
      exact ⟨_, _, l0, l1, k0 j hj, k1 j hj, ⟨d0, 0, hd0, by omega, rfl⟩,
        ⟨d1, 1, hd1, by omega, rfl⟩⟩
    · have hlt : ref < i := by
        rcases href with h1 | h1
        · exact absurd h1 hs
        · exact h1
      obtain ⟨e0, e1⟩ := hsrc.2 hs hlt
      obtain ⟨_, _, l0, k0⟩ := Cube.col_some_cell e0
      obtain ⟨_, _, l1, k1⟩ := Cube.col_some_cell e1
      exact ⟨_, _, by omega, by omega, k0 j (by omega), k1 j (by omega),
        ih ref hlt j hj 0 (by omega), ih ref hlt j hj 1 (by omega)⟩
  obtain ⟨a0, a1, l0, l1, k0, k1, t0, t1⟩ := hcols
  obtain ⟨g1, hg1, _, hcell⟩ :=
    bivalent_total c0 c1 x d (by omega) (by rw [l0]; exact hfit) hd
  have hgg : g1 = g := by
    rw [hbiv] at hg1
    exact (Option.some.inj hg1).symm
  subst hgg
  rcases hcell j (by omega) with hc | hc
  · rw [hgj, k0] at hc
    rw [Option.some.inj hc]
    exact t0
  · rw [hgj, k1] at hc
    rw [Option.some.inj hc]
    exact t1

/-- Every cell of a block that the individual loop of `crossPedigree` has
written is a cell of a founder at the same locus, when every parent reference
is the sentinel or a strictly earlier entry. -/
theorem pedigree_traced (fGeno o : Cube) (nF n : Nat) (mother father : List Nat)
    (femaleMap maleMap : List ℚ) (dr : Nat → Nat → GameteDraws) (fd : Nat → Nat → Nat → Nat)
    (hrows : o.n_rows = fGeno.n_rows)
    (hmo : ∀ i m : Nat, mother[i]? = some m → m = uwordOfInt (-1) ∨ m < i)
    (hfa : ∀ i m : Nat, father[i]? = some m → m = uwordOfInt (-1) ∨ m < i)
    (hfm : MapFits fGeno.n_rows femaleMap) (hmm : MapFits fGeno.n_rows maleMap)
    (hd : ∀ ind role : Nat, UnitDraws (dr ind role))
    (hfd : ∀ ind role k : Nat, fd ind role k < nF)
    (hW : ∀ i : Nat, i < n → PedWritten fGeno mother father femaleMap maleMap dr fd o i) :
    ∀ i : Nat, i < n → ∀ j : Nat, j < fGeno.n_rows → ∀ h : Nat, h < 2 →
      ∃ f h2 : Nat, f < nF ∧ h2 < 2 ∧ o.cell j h i = fGeno.cell j h2 f := by
  intro i
  induction i using Nat.strong_induction_on with
  | _ i ih =>
    intro hi j hj h hh
    obtain ⟨m, f, m0, m1, f0, f1, female, male, e1, e2, e3, e4, e5, e6, e7, e8⟩ := hW i hi
    have ih1 : ∀ k : Nat, k < i → ∀ j : Nat, j < fGeno.n_rows → ∀ h1 : Nat, h1 < 2 →
        ∃ f h2 : Nat, f < nF ∧ h2 < 2 ∧ o.cell j h1 k = fGeno.cell j h2 f :=
      fun k hk => ih k hk (by omega)
    rcases Nat.lt_succ_iff_lt_or_eq.mp hh with h0 | h1
    · have hz : h = 0 := by omega
      subst hz
      exact gamete_traced fGeno o nF m i (fd i 0 0) (fd i 0 1) 0 m0 m1 female femaleMap
        (dr i 0) hrows e3 (hmo i m e1) (hfd i 0 0) (hfd i 0 1) e5 hfm (hd i 0) e7 ih1 j hj
    · subst h1
      exact gamete_traced fGeno o nF f i (fd i 1 0) (fd i 1 1) 1 f0 f1 male maleMap
        (dr i 1) hrows e4 (hfa i f e2) (hfd i 1 0) (hfd i 1 1) e6 hmm (hd i 1) e8 ih1 j hj

/-! ## Claims about the stores the engines return -/

/-- C22: store well-formedness is preserved by every engine: on an input store
of the data model (blocks of 2 homologs sharing the individual count `nInd`),
with a fitting map per block, a ratio `r > 0` and unit-interval draws, each of
`cross2` (for a paternal store of the same block and locus counts and 1-based
parent indices), `createDH2` (for `nDH ≥ 0`) and `crossPedigree` (for pedigree
references into the pedigree and founder draws inside the founder store)
returns a store with one block per input block, where block `c` has the locus
count of input block `c`, 2 homologs and one common individual count: the length
of the mother list for `cross2` and `crossPedigree`, `nInd * nDH` for
`createDH2`. -/
theorem engines_keep_store_shape (geno : List Cube) (nInd : Nat) (genMaps : List (List ℚ))
    (recombRatio : ℚ) (draws : Nat → Nat → Nat → GameteDraws)
    (hG : StoreShape geno nInd) (hmaps : MapsFit geno genMaps) (hr : 0 < recombRatio)
    (hd : ∀ chr ind k : Nat, UnitDraws (draws chr ind k)) :
    (∀ (fatherGeno : List Cube) (nIndF : Nat) (mother father : List Nat),
      StoreShape fatherGeno nIndF → fatherGeno.length = geno.length →
      (∀ (chr : Nat) (g1 g2 : Cube), geno[chr]? = some g1 → fatherGeno[chr]? = some g2 →
        g2.n_rows = g1.n_rows) →
      ParentIndices mother nInd → ParentIndices father nIndF → father.length = mother.length →
      ∃ out, cross2 geno mother fatherGeno father genMaps recombRatio draws = some out ∧
        ShapedLike geno out mother.length) ∧
    (∀ (nDH : Int) (useFemale : Bool), 0 < geno.length → 0 ≤ nDH →
      ∃ out, createDH2 geno nDH genMaps recombRatio useFemale draws = some out ∧
        ShapedLike geno out (nInd * nDH.toNat)) ∧
    (∀ (mother father : List Nat) (fdraws : Nat → Nat → Nat → Nat → Nat), 0 < geno.length →
      PedigreeRefs mother mother.length → PedigreeRefs father mother.length →
      father.length = mother.length → (∀ chr ind role k : Nat, fdraws chr ind role k < nInd) →
      ∃ out, crossPedigree geno mother father genMaps recombRatio draws fdraws = some out ∧
        ShapedLike geno out mother.length) := by
  refine ⟨fun fatherGeno nIndF mother father hF hFlen hFrows hmo hfa hlen => ?_,
    fun nDH useFemale hne hDH => ?_, fun mother father fdraws hne hmo hfa hlen hfd => ?_⟩
  · obtain ⟨out, hout⟩ := cross2_total geno fatherGeno nInd nIndF mother father genMaps
      recombRatio draws hG hF hFlen hFrows hmo hfa hlen hmaps hr hd
    exact ⟨out, hout, cross2_shaped hout⟩
  · obtain ⟨out, hout⟩ := createDH2_total geno nInd nDH genMaps recombRatio useFemale draws hG
      hne hDH hmaps hr hd
    exact ⟨out, hout, (createDH2_shaped hG hout).1⟩
  · obtain ⟨out, hout⟩ := crossPedigree_total geno nInd mother father genMaps recombRatio draws
      fdraws hG hne hmo hfa hlen hmaps hr hd hfd
    exact ⟨out, hout, (crossPedigree_shaped hout).1⟩

/-- C27: pedigree inheritance traces to founders: on a founder store of the
data model whose cells all hold alleles, with fitting maps, a ratio `r > 0`,
unit-interval draws and founder draws inside the founder store, for a pedigree
in which every parent reference is 0 ("no parent recorded") or the number of a
strictly earlier entry, `crossPedigree` returns, and every cell of every entry
`i`, homolog `h` and locus `j` of chromosome `c` of the result holds an allele,
the allele of some founder `f` in some homolog `h2` at locus `j` of chromosome
`c`: no cell that was never written is read, and no entry depends on a later
one. -/
theorem crossPedigree_traces_to_founders (founders : List Cube) (nF : Nat)
    (mother father : List Nat) (genMaps : List (List ℚ)) (recombRatio : ℚ)
    (draws : Nat → Nat → Nat → GameteDraws) (fdraws : Nat → Nat → Nat → Nat → Nat)
    (hG : StoreShape founders nF) (hne : 0 < founders.length)
    (hwr : ∀ g ∈ founders, Written g)
    (hmo : EarlierRefs mother) (hfa : EarlierRefs father)
    (hlen : father.length = mother.length) (hmaps : MapsFit founders genMaps)
    (hr : 0 < recombRatio) (hd : ∀ chr ind role : Nat, UnitDraws (draws chr ind role))
    (hfd : ∀ chr ind role k : Nat, fdraws chr ind role k < nF) :
    ∃ out, crossPedigree founders mother father genMaps recombRatio draws fdraws = some out ∧
      out.length = founders.length ∧
      ∀ chr : Nat, chr < founders.length →
        ∃ fGeno o, founders[chr]? = some fGeno ∧ out[chr]? = some o ∧
          ∀ i : Nat, i < mother.length → ∀ h : Nat, h < 2 → ∀ j : Nat, j < fGeno.n_rows →
            ∃ (f h2 a : Nat), f < nF ∧ h2 < 2 ∧ o.cell j h i = some a ∧
              fGeno.cell j h2 f = some a := by
  obtain ⟨out, hout⟩ := crossPedigree_total founders nF mother father genMaps recombRatio draws
    fdraws hG hne (earlierRefs_refs hmo _ (le_refl _)) (earlierRefs_refs hfa _ (by omega)) hlen
    hmaps hr hd hfd
  obtain ⟨⟨hlen1, _⟩, hblocks⟩ := crossPedigree_shaped hout
  refine ⟨out, hout, hlen1, fun chr hchr => ?_⟩
  have ho : out[chr]? = some out[chr] := List.getElem?_eq_getElem (by omega)
  obtain ⟨fGeno, genMap, hg, hx, hrows, hW⟩ := hblocks chr _ ho
  obtain ⟨hfc, hfs⟩ := hG _ (List.getElem?_mem hg)
  have hfit := hmaps.2 chr _ _ hg hx
  refine ⟨fGeno, _, hg, ho, fun i hi h hh j hj => ?_⟩
  obtain ⟨f, h2, hf, hh2, hcell⟩ := pedigree_traced fGeno out[chr] nF mother.length
    (mother.map uwordPred) (father.map uwordPred) _ _ (draws chr) (fdraws chr) hrows
    (fun i m hm => earlierRefs_pred hmo hm) (fun i m hm => earlierRefs_pred hfa hm)
    (scaleMap_fits (femaleRecRate_nonneg hr) hfit) (scaleMap_fits (maleRecRate_nonneg hr) hfit)
    (fun ind role => hd chr ind role) (fun ind role k => hfd chr ind role k) hW i hi j hj h hh
  obtain ⟨a, ha⟩ := Option.isSome_iff_exists.mp
    (hwr _ (List.getElem?_mem hg) j h2 f hj (by omega) (by omega))
  exact ⟨f, h2, a, hf, hh2, by rw [hcell, ha], ha⟩

/-- C28: a homozygous parent breeds true: if both homologs are one and the
same `chr1` of length `n ≥ 1`, `bivalent` returns `chr1`, for every
non-decreasing map of length `n`, every number of crossovers with no position
below `map[0]` and every coin; consequently, in the store that `createDH2`
returns (on a store of the data model with `nDH ≥ 0`, fitting maps, a ratio
`r > 0` and unit-interval draws), for an individual whose two homologs on a
chromosome are equal, both homologs of every replicate on that chromosome are
that homolog. -/
theorem homozygous_breeds_true (geno : List Cube) (nInd : Nat) (nDH : Int)
    (genMaps : List (List ℚ)) (recombRatio : ℚ) (useFemale : Bool)
    (draws : Nat → Nat → Nat → GameteDraws)
    (hG : StoreShape geno nInd) (hne : 0 < geno.length) (hDH : 0 ≤ nDH)
    (hmaps : MapsFit geno genMaps) (hr : 0 < recombRatio)
    (hd : ∀ chr ind rep : Nat, UnitDraws (draws chr ind rep)) :
    (∀ (chr1 : List Cell) (genMap : List ℚ) (d : GameteDraws), 1 ≤ chr1.length →
      genMap.length = chr1.length → genMap.Sorted (· ≤ ·) →
      (∀ p ∈ crossoverPositions (posAt genMap ((chr1.length : Int) - 1)) d.randu,
        posAt genMap 0 ≤ p) →
      bivalent chr1 chr1 genMap d = some chr1) ∧
    ∃ out, createDH2 geno nDH genMaps recombRatio useFemale draws = some out ∧
      ∀ (chr ind : Nat) (g : Cube), geno[chr]? = some g → ind < nInd →
        g.col ind 0 = g.col ind 1 →
        ∃ o homolog, out[chr]? = some o ∧ g.col ind 0 = some homolog ∧
          ∀ rep : Nat, rep < nDH.toNat →
            o.col (rep + ind * nDH.toNat) 0 = some homolog ∧
            o.col (rep + ind * nDH.toNat) 1 = some homolog := by
  refine ⟨fun chr1 genMap d hn hx hs hp => bivalent_self chr1 genMap d hn hx hs hp, ?_⟩
  obtain ⟨out, hout⟩ := createDH2_total geno nInd nDH genMaps recombRatio useFemale draws hG
    hne hDH hmaps hr hd
  obtain ⟨⟨hlen, _⟩, hblocks⟩ := createDH2_shaped hG hout
  refine ⟨out, hout, fun chr ind g hg hind hhom => ?_⟩
  have hchr : chr < geno.length := by
    by_contra hcon
    rw [List.getElem?_eq_none (by omega)] at hg
    cases hg
  have ho : out[chr]? = some out[chr] := List.getElem?_eq_getElem (by omega)
  obtain ⟨g1, genMap, hg1, hx, hW⟩ := hblocks chr _ ho
  have hgg : g1 = g := by
    rw [hg] at hg1
    exact (Option.some.inj hg1).symm
  subst hgg
  obtain ⟨hc, hs⟩ := hG _ (List.getElem?_mem hg)
  obtain ⟨homolog, hcol0, hl0⟩ := g1.col_exists (by omega : ind < g1.n_slices)
    (by omega : 0 < g1.n_cols)
  have hrate : 0 ≤ (if useFemale then femaleRecRate recombRatio
      else maleRecRate recombRatio) := by
    split
    · exact femaleRecRate_nonneg hr
    · exact maleRecRate_nonneg hr
  have hfit := scaleMap_fits hrate (hmaps.2 chr _ _ hg hx)
  refine ⟨_, homolog, ho, hcol0, fun rep hrep => ?_⟩
  have hbound : rep + ind * nDH.toNat < nInd * nDH.toNat := by
    have h1 : (ind + 1) * nDH.toNat ≤ nInd * nDH.toNat := Nat.mul_le_mul_right _ (by omega)
    rw [Nat.succ_mul] at h1
    omega
  obtain ⟨c0, c1, gamete, e0, e1, eg, f0, f1⟩ := hW (rep + ind * nDH.toNat) hbound
  have hdiv : (rep + ind * nDH.toNat) / nDH.toNat = ind := by
    rw [Nat.add_mul_div_right _ _ (by omega), Nat.div_eq_of_lt hrep, Nat.zero_add]
  have hmod : (rep + ind * nDH.toNat) % nDH.toNat = rep := by
    rw [Nat.add_mul_mod_self_right, Nat.mod_eq_of_lt hrep]
  rw [hdiv] at e0 e1 eg
  rw [hmod] at eg
  have h0 : c0 = homolog := by
    rw [hcol0] at e0
    exact (Option.some.inj e0).symm
  have h1 : c1 = homolog := by
    rw [← hhom, hcol0] at e1
    exact (Option.some.inj e1).symm
  rw [h0, h1] at eg
  have hself := bivalent_self homolog _ (draws chr ind rep) (by rw [hl0]; exact hfit.1)
    (by rw [hl0]; exact hfit.2.1) hfit.2.2.1
    (by rw [hl0]; exact positions_not_before_start hfit (hd chr ind rep))
  rw [hself] at eg
  rw [← Option.some.inj eg] at f0 f1
  exact ⟨f0, f1⟩

/-! ## The homologs of a doubled haploid -/

/-- C6: `createDH2` output is homozygous.  In every store that `createDH2`
returns, whatever the input and the draws, for every chromosome block and
every output individual `t` both homologs are one and the same gamete, the
result of the one `bivalent` call on the two homologs of source individual
`t / nDH`, so the cell of homolog 0 equals the cell of homolog 1 at every
locus.  On a store of the data model whose cells all hold alleles (`nInd`
individuals, `nDH ≥ 0`, fitting maps, a ratio `r > 0`, unit-interval draws)
`createDH2` does return, every block has `nInd * nDH` individuals, and at
every locus of every output individual the two homologs hold one and the same
allele `a`, an allele of the source individual at that locus. -/
theorem createDH2_homozygous (geno : List Cube) (nDH : Int) (genMaps : List (List ℚ))
    (recombRatio : ℚ) (useFemale : Bool) (draws : Nat → Nat → Nat → GameteDraws) :
    (∀ output, createDH2 geno nDH genMaps recombRatio useFemale draws = some output →
      output.length = geno.length ∧
      ∀ c : Nat, c < geno.length →
        ∃ cube g genMap, output[c]? = some cube ∧ geno[c]? = some g ∧
          genMaps[c]? = some genMap ∧ cube.n_rows = g.n_rows ∧ cube.n_cols = 2 ∧
          ∀ t : Nat, t < cube.n_slices →
            (∃ c0 c1 gamete, g.col (t / nDH.toNat) 0 = some c0 ∧
              g.col (t / nDH.toNat) 1 = some c1 ∧
              bivalent c0 c1
                (scaleMap (if useFemale then femaleRecRate recombRatio
                  else maleRecRate recombRatio) genMap)
                (draws c (t / nDH.toNat) (t % nDH.toNat)) = some gamete ∧
              cube.col t 0 = some gamete ∧ cube.col t 1 = some gamete) ∧
            ∀ locus : Nat, locus < cube.n_rows →
              cube.cell locus 0 t = cube.cell locus 1 t) ∧
    (∀ nInd : Nat, StoreShape geno nInd → 0 < geno.length → 0 ≤ nDH →
      MapsFit geno genMaps → 0 < recombRatio →
      (∀ chr ind rep : Nat, UnitDraws (draws chr ind rep)) → (∀ g ∈ geno, Written g) →
      ∃ output, createDH2 geno nDH genMaps recombRatio useFemale draws = some output ∧
        output.length = geno.length ∧
        ∀ c : Nat, c < geno.length →
          ∃ cube g, output[c]? = some cube ∧ geno[c]? = some g ∧
            cube.n_rows = g.n_rows ∧ cube.n_slices = nInd * nDH.toNat ∧
            ∀ t : Nat, t < nInd * nDH.toNat → ∀ locus : Nat, locus < g.n_rows →
              ∃ a : Nat, cube.cell locus 0 t = some a ∧ cube.cell locus 1 t = some a ∧
                (g.cell locus 0 (t / nDH.toNat) = some a ∨
                  g.cell locus 1 (t / nDH.toNat) = some a)) := by
  constructor
  · intro output hout
    simp only [createDH2, Option.bind_eq_bind, Option.bind_eq_some] at hout
    obtain ⟨g0, _, hmapM⟩ := hout
    obtain ⟨hlen, hget⟩ := mapM_range_some _ _ output hmapM
    refine ⟨hlen, fun c hc => ?_⟩
    have hcube : output[c]? = some output[c] := List.getElem?_eq_getElem (by omega)
    have hstep := hget c hc
    rw [hcube] at hstep
    obtain ⟨g, genMap, hg, hmap, hrows, hcols, hsl, hW⟩ := createDH2Chr_some hstep
    refine ⟨_, g, genMap, hcube, hg, hmap, hrows, hcols, fun t ht => ?_⟩
    obtain ⟨c0, c1, gamete, e0, e1, eg, hcol0, hcol1⟩ := hW t (by omega)
    refine ⟨⟨c0, c1, gamete, e0, e1, eg, hcol0, hcol1⟩, fun locus hl => ?_⟩
    have h0 := (Cube.col_some_cell hcol0).2.2.2 locus hl
    have h1 := (Cube.col_some_cell hcol1).2.2.2 locus hl
    rw [h0] at h1
    exact Option.some.inj h1
  · intro nInd hG hne hDH hmaps hr hd hwr
    obtain ⟨out, hout⟩ := createDH2_total geno nInd nDH genMaps recombRatio useFemale draws hG
      hne hDH hmaps hr hd
    obtain ⟨⟨hlen, hshape⟩, hblocks⟩ := createDH2_shaped hG hout
    refine ⟨out, hout, hlen, fun c hc => ?_⟩
    obtain ⟨g, o, hg, ho, hrows, _, hsl⟩ := hshape c hc
    refine ⟨o, g, ho, hg, hrows, hsl, fun t ht locus hl => ?_⟩
    obtain ⟨g1, genMap, hg1, hx, hW⟩ := hblocks c o ho
    have hgg : g1 = g := by
      rw [hg] at hg1
      exact (Option.some.inj hg1).symm
    subst hgg
    obtain ⟨c0, c1, gamete, e0, e1, eg, f0, f1⟩ := hW t ht
    obtain ⟨hs0, hk0, l0, k0⟩ := Cube.col_some_cell e0
    obtain ⟨_, hk1, l1, k1⟩ := Cube.col_some_cell e1
    have hrate : 0 ≤ (if useFemale then femaleRecRate recombRatio
        else maleRecRate recombRatio) := by
      split
      · exact femaleRecRate_nonneg hr
      · exact maleRecRate_nonneg hr
    have hfit := scaleMap_fits hrate (hmaps.2 c _ _ hg hx)
    obtain ⟨gam, hgam, _, hcell⟩ := bivalent_total c0 c1 _
      (draws c (t / nDH.toNat) (t % nDH.toNat)) (by omega) (by rw [l0]; exact hfit)
      (hd c (t / nDH.toNat) (t % nDH.toNat))
    have hgg : gam = gamete := by
      rw [eg] at hgam
      exact (Option.some.inj hgam).symm
    subst hgg
    have hw := hwr _ (List.getElem?_mem hg)
    have q0 := (Cube.col_some_cell f0).2.2.2 locus (by omega)
    have q1 := (Cube.col_some_cell f1).2.2.2 locus (by omega)
    have hsame : o.cell locus 1 t = o.cell locus 0 t := by
      rw [q0] at q1
      exact (Option.some.inj q1).symm
    rcases hcell locus (by omega) with hc | hc
    · obtain ⟨a, ha⟩ := Option.isSome_iff_exists.mp (hw locus 0 (t / nDH.toNat) hl hk0 hs0)
      have : o.cell locus 0 t = some a := by
        rw [q0, k0 locus hl, ha] at hc
        exact Option.some.inj hc
      exact ⟨a, this, by rw [hsame, this], Or.inl ha⟩
    · obtain ⟨a, ha⟩ := Option.isSome_iff_exists.mp (hw locus 1 (t / nDH.toNat) hl hk1 hs0)
      have : o.cell locus 0 t = some a := by
        rw [q0, k1 locus hl, ha] at hc
        exact Option.some.inj hc
      exact ⟨a, this, by rw [hsame, this], Or.inr ha⟩

/-! ## The parent references of `crossPedigree` -/

/-- The founder draws reach `pedigreeSource` only under the sentinel. -/
theorem pedigreeSource_congr (fGeno tmp : Cube) (ref d0 d1 e0 e1 : Nat)
    (h : ref = uwordOfInt (-1) → d0 = e0 ∧ d1 = e1) :
    pedigreeSource fGeno tmp ref d0 d1 = pedigreeSource fGeno tmp ref e0 e1 := by
  unfold pedigreeSource
  by_cases hs : ref = uwordOfInt (-1)
  · rw [if_pos hs, if_pos hs, (h hs).1, (h hs).2]
  · rw [if_neg hs, if_neg hs]

/-- One entry of `crossPedigree`: founder draws that agree wherever the
reference is the sentinel give the same block. -/
theorem crossPedigreeInd_congr (fGeno : Cube) (mother father : List Nat)
    (femaleMap maleMap : List ℚ) (dr : Nat → Nat → GameteDraws)
    (fd1 fd2 : Nat → Nat → Nat → Nat)
    (hm : ∀ ind k : Nat, mother[ind]? = some (uwordOfInt (-1)) → fd1 ind 0 k = fd2 ind 0 k)
    (hf : ∀ ind k : Nat, father[ind]? = some (uwordOfInt (-1)) → fd1 ind 1 k = fd2 ind 1 k)
    (tmp : Cube) (ind : Nat) :
    crossPedigreeInd fGeno mother father femaleMap maleMap dr fd1 tmp ind =
      crossPedigreeInd fGeno mother father femaleMap maleMap dr fd2 tmp ind := by
  unfold crossPedigreeInd
  cases hmi : mother[ind]? with
  | none => rfl
  | some m =>
    cases hfi : father[ind]? with
    | none =>
      simp only [Option.bind_eq_bind, Option.some_bind, Option.none_bind]
      rw [pedigreeSource_congr fGeno tmp m (fd1 ind 0 0) (fd1 ind 0 1) (fd2 ind 0 0)
        (fd2 ind 0 1) (fun hs => ⟨hm ind 0 (by rw [hmi, hs]), hm ind 1 (by rw [hmi, hs])⟩)]
    | some f =>
      have hfs : ∀ tmp1 : Cube, pedigreeSource fGeno tmp1 f (fd1 ind 1 0) (fd1 ind 1 1)
          = pedigreeSource fGeno tmp1 f (fd2 ind 1 0) (fd2 ind 1 1) :=
        fun tmp1 => pedigreeSource_congr fGeno tmp1 f _ _ _ _
          (fun hs => ⟨hf ind 0 (by rw [hfi, hs]), hf ind 1 (by rw [hfi, hs])⟩)
      simp only [Option.bind_eq_bind, Option.some_bind, hfs]
      rw [pedigreeSource_congr fGeno tmp m (fd1 ind 0 0) (fd1 ind 0 1) (fd2 ind 0 0)
        (fd2 ind 0 1) (fun hs => ⟨hm ind 0 (by rw [hmi, hs]), hm ind 1 (by rw [hmi, hs])⟩)]

/-- After `-= 1` a reference is the sentinel only if it was 0. -/
theorem sentinel_of_pred {refs : List Nat} (h : ∀ v ∈ refs, v < 2 ^ uwordBits) {i : Nat}
    (hs : (refs.map uwordPred)[i]? = some (uwordOfInt (-1))) : refs[i]? = some 0 := by
  rw [List.getElem?_map] at hs
  obtain ⟨v, hv, hvs⟩ := Option.map_eq_some'.mp hs
  rw [hv]
  by_cases hz : v = 0
  · rw [hz]
  · exact absurd hvs (uwordPred_ne_sentinel (by omega) (h v (List.getElem?_mem hv)))

/-- The function `crossPedigree` uses a founder draw only for a reference 0. -/
theorem crossPedigree_congr (founders : List Cube) (mother father : List Nat)
    (genMaps : List (List ℚ)) (recombRatio : ℚ) (draws : Nat → Nat → Nat → GameteDraws)
    (fd1 fd2 : Nat → Nat → Nat → Nat → Nat)
    (hmo : ∀ v ∈ mother, v < 2 ^ uwordBits) (hfa : ∀ v ∈ father, v < 2 ^ uwordBits)
    (hm : ∀ c i k : Nat, mother[i]? = some 0 → fd1 c i 0 k = fd2 c i 0 k)
    (hf : ∀ c i k : Nat, father[i]? = some 0 → fd1 c i 1 k = fd2 c i 1 k) :
    crossPedigree founders mother father genMaps recombRatio draws fd1 =
      crossPedigree founders mother father genMaps recombRatio draws fd2 := by
  have hchr : crossPedigreeChr founders (mother.map uwordPred) (father.map uwordPred) genMaps
      recombRatio draws fd1 =
      crossPedigreeChr founders (mother.map uwordPred) (father.map uwordPred) genMaps
        recombRatio draws fd2 := by
    funext chr
    unfold crossPedigreeChr
    have hind : ∀ (fGeno : Cube) (genMap : List ℚ),
        crossPedigreeInd fGeno (mother.map uwordPred) (father.map uwordPred)
          (scaleMap (femaleRecRate recombRatio) genMap)
          (scaleMap (maleRecRate recombRatio) genMap) (draws chr) (fd1 chr) =
        crossPedigreeInd fGeno (mother.map uwordPred) (father.map uwordPred)
          (scaleMap (femaleRecRate recombRatio) genMap)
          (scaleMap (maleRecRate recombRatio) genMap) (draws chr) (fd2 chr) := by
      intro fGeno genMap
      funext tmp ind
      exact crossPedigreeInd_congr fGeno _ _ _ _ (draws chr) (fd1 chr) (fd2 chr)
        (fun i k hs => hm chr i k (sentinel_of_pred hmo hs))
        (fun i k hs => hf chr i k (sentinel_of_pred hfa hs)) tmp ind
    simp only [hind]
  unfold crossPedigree
  rw [hchr]

/-- C15: the sentinel of `crossPedigree`.  The unsigned `0 - 1` is the all-ones
word, which is what `== -1` compares with, and a reference `v ≥ 1` becomes
`v - 1`, which is not that word.  Accordingly, in every store that
`crossPedigree` returns for reference lists of `arma::uword` values, on every
chromosome: an entry with mother reference 0 has in homolog 0 the gamete of the
founder columns selected by its two founder draws, and an entry with mother
reference `v ≥ 1` (`v - 1` an earlier entry) has in homolog 0 the gamete of the
two homologs of output entry `v - 1`; likewise for the father reference and
homolog 1.  Founder draws are used for references 0 only: two calls whose
founder draws agree at every reference 0 give the same result.  On a founder
store of the data model with references into the pedigree, fitting maps, a
ratio `r > 0`, unit-interval draws and founder draws inside the store, the call
returns. -/
theorem crossPedigree_sentinel (founders : List Cube) (mother father : List Nat)
    (genMaps : List (List ℚ)) (recombRatio : ℚ) (draws : Nat → Nat → Nat → GameteDraws)
    (fdraws : Nat → Nat → Nat → Nat → Nat)
    (hmo : ∀ v ∈ mother, v < 2 ^ uwordBits) (hfa : ∀ v ∈ father, v < 2 ^ uwordBits) :
    (uwordPred 0 = 2 ^ uwordBits - 1 ∧ uwordPred 0 = uwordOfInt (-1) ∧
      ∀ v : Nat, 1 ≤ v → v < 2 ^ uwordBits →
        uwordPred v = v - 1 ∧ uwordPred v ≠ uwordOfInt (-1)) ∧
    (∀ out, crossPedigree founders mother father genMaps recombRatio draws fdraws = some out →
      out.length = founders.length ∧
      ∀ c : Nat, c < founders.length →
        ∃ fGeno o genMap, founders[c]? = some fGeno ∧ out[c]? = some o ∧
          genMaps[c]? = some genMap ∧
          ∀ i : Nat, i < mother.length → ∀ v : Nat,
            (mother[i]? = some v →
              (v = 0 → ∃ c0 c1 gamete, fGeno.col (fdraws c i 0 0) 0 = some c0 ∧
                fGeno.col (fdraws c i 0 1) 1 = some c1 ∧
                bivalent c0 c1 (scaleMap (femaleRecRate recombRatio) genMap) (draws c i 0)
                  = some gamete ∧
                o.col i 0 = some gamete) ∧
              (1 ≤ v → v - 1 < i → ∃ c0 c1 gamete, o.col (v - 1) 0 = some c0 ∧
                o.col (v - 1) 1 = some c1 ∧
                bivalent c0 c1 (scaleMap (femaleRecRate recombRatio) genMap) (draws c i 0)
                  = some gamete ∧
                o.col i 0 = some gamete)) ∧
            (father[i]? = some v →
              (v = 0 → ∃ c0 c1 gamete, fGeno.col (fdraws c i 1 0) 0 = some c0 ∧
                fGeno.col (fdraws c i 1 1) 1 = some c1 ∧
                bivalent c0 c1 (scaleMap (maleRecRate recombRatio) genMap) (draws c i 1)
                  = some gamete ∧
                o.col i 1 = some gamete) ∧
              (1 ≤ v → v - 1 < i → ∃ c0 c1 gamete, o.col (v - 1) 0 = some c0 ∧
                o.col (v - 1) 1 = some c1 ∧
                bivalent c0 c1 (scaleMap (maleRecRate recombRatio) genMap) (draws c i 1)
                  = some gamete ∧
                o.col i 1 = some gamete))) ∧
    (∀ fdraws2 : Nat → Nat → Nat → Nat → Nat,
      (∀ c i k : Nat, mother[i]? = some 0 → fdraws2 c i 0 k = fdraws c i 0 k) →
      (∀ c i k : Nat, father[i]? = some 0 → fdraws2 c i 1 k = fdraws c i 1 k) →
      crossPedigree founders mother father genMaps recombRatio draws fdraws2 =
        crossPedigree founders mother father genMaps recombRatio draws fdraws) ∧
    (∀ nF : Nat, StoreShape founders nF → 0 < founders.length →
      PedigreeRefs mother mother.length → PedigreeRefs father mother.length →
      father.length = mother.length → MapsFit founders genMaps → 0 < recombRatio →
      (∀ chr ind role : Nat, UnitDraws (draws chr ind role)) →
      (∀ chr ind role k : Nat, fdraws chr ind role k < nF) →
      (crossPedigree founders mother father genMaps recombRatio draws fdraws).isSome
        = true) := by
  refine ⟨⟨by rw [uwordPred_zero, uwordOfInt_neg_one], uwordPred_zero,
      fun v h1 h2 => ⟨uwordPred_of_pos h1 h2, uwordPred_ne_sentinel h1 h2⟩⟩,
    fun out hout => ?_,
    fun fdraws2 hm hf => crossPedigree_congr founders mother father genMaps recombRatio draws
      fdraws2 fdraws hmo hfa hm hf,
    fun nF hG hne hm hf hlen hmaps hr hd hfd => ?_⟩
  · obtain ⟨⟨hlen, _⟩, hblocks⟩ := crossPedigree_shaped hout
    refine ⟨hlen, fun c hc => ?_⟩
    have ho : out[c]? = some out[c] := List.getElem?_eq_getElem (by omega)
    obtain ⟨fGeno, genMap, hg, hx, _, hW⟩ := hblocks c _ ho
    refine ⟨fGeno, _, genMap, hg, ho, hx, fun i hi v => ?_⟩
    obtain ⟨m, f, m0, m1, f0, f1, female, male, e1, e2, e3, e4, e5, e6, e7, e8⟩ := hW i hi
    rw [List.getElem?_map] at e1 e2
    constructor
    · intro hv
      rw [hv, Option.map_some', Option.some.injEq] at e1
      subst e1
      constructor
      · intro hz
        subst hz
        obtain ⟨s0, s1⟩ := e3.1 uwordPred_zero
        exact ⟨m0, m1, female, s0, s1, e5, e7⟩
      · intro h1 hvi
        have h2 := hmo v (List.getElem?_mem hv)
        have hp := uwordPred_of_pos h1 h2
        obtain ⟨s0, s1⟩ := e3.2 (uwordPred_ne_sentinel h1 h2) (by rw [hp]; exact hvi)
        rw [hp] at s0 s1
        exact ⟨m0, m1, female, s0, s1, e5, e7⟩
    · intro hv
      rw [hv, Option.map_some', Option.some.injEq] at e2
      subst e2
      constructor
      · intro hz
        subst hz
        obtain ⟨s0, s1⟩ := e4.1 uwordPred_zero
        exact ⟨f0, f1, male, s0, s1, e6, e8⟩
      · intro h1 hvi
        have h2 := hfa v (List.getElem?_mem hv)
        have hp := uwordPred_of_pos h1 h2
        obtain ⟨s0, s1⟩ := e4.2 (uwordPred_ne_sentinel h1 h2) (by rw [hp]; exact hvi)
        rw [hp] at s0 s1
        exact ⟨f0, f1, male, s0, s1, e6, e8⟩
  · obtain ⟨out, hout⟩ := crossPedigree_total founders nF mother father genMaps recombRatio
      draws fdraws hG hne hm hf hlen hmaps hr hd hfd
    rw [hout]
    rfl

/-! ## The founder generator of `crossPedigree` -/

/-- The state of `g` after the two draws of a call does not depend on the order
in which the arguments are evaluated. -/
theorem founderPair_state (b : Bool) (gen : Nat → Nat × Nat) (ref s : Nat) :
    (founderPair b gen ref s).2.2 = pairState gen ref s := by
  unfold founderPair pairState
  split
  · cases b <;> rfl
  · rfl

theorem crossPedigreeIndGen_trace {order : Nat → Nat → Bool} {gen : Nat → Nat × Nat}
    {fGeno : Cube} {mother father : List Nat} {femaleMap maleMap : List ℚ}
    {dr : Nat → Nat → GameteDraws} {st st1 : Cube × Nat × List Nat} {ind : Nat}
    (h : crossPedigreeIndGen order gen fGeno mother father femaleMap maleMap dr st ind
      = some st1) :
    st1.2 = founderTraceInd gen mother father st.2 ind := by
  simp only [crossPedigreeIndGen, Option.bind_eq_bind, Option.bind_eq_some] at h
  obtain ⟨m, hm, ms, _, female, _, tmp1, _, f, hf, fs, _, male, _, tmp2, _, hst⟩ := h
  have hmD : mother.getD ind 0 = m := by rw [List.getD_eq_getElem?_getD, hm]; rfl
  have hfD : father.getD ind 0 = f := by rw [List.getD_eq_getElem?_getD, hf]; rfl
  rw [← Option.some.inj hst]
  unfold founderTraceInd
  rw [hmD, hfD, founderPair_state, founderPair_state]

theorem foldlM_range_trace {σ τ : Type} (f : σ → Nat → Option σ) (g : τ → Nat → τ)
    (proj : σ → τ) (hstep : ∀ (s s1 : σ) (i : Nat), f s i = some s1 → proj s1 = g (proj s) i) :
    ∀ (n : Nat) (s0 s : σ), (List.range n).foldlM f s0 = some s →
      proj s = (List.range n).foldl g (proj s0) := by
  intro n s0 s h
  have := foldlM_range_inv f (fun k t => proj t = (List.range k).foldl g (proj s0)) n s0 s
    rfl (by
      intro i t t1 _ hP hf
      rw [List.range_succ, List.foldl_append, ← hP]
      simp only [List.foldl_cons, List.foldl_nil]
      exact hstep t t1 i hf) h
  exact this

theorem crossPedigreeChrGen_trace {order : Nat → Nat → Nat → Bool} {gen : Nat → Nat × Nat}
    {founders : List Cube} {mother father : List Nat} {genMaps : List (List ℚ)}
    {recombRatio : ℚ} {draws : Nat → Nat → Nat → GameteDraws}
    {st st1 : List Cube × Nat × List Nat} {chr : Nat}
    (h : crossPedigreeChrGen order gen founders mother father genMaps recombRatio draws st chr
      = some st1) :
    st1.2 = (List.range mother.length).foldl (founderTraceInd gen mother father) st.2 := by
  simp only [crossPedigreeChrGen, Option.bind_eq_bind, Option.bind_eq_some] at h
  obtain ⟨fGeno, _, genMap, _, r, hr, hst⟩ := h
  have := foldlM_range_trace _ (founderTraceInd gen mother father) (fun s => s.2)
    (fun s s1 i hs => crossPedigreeIndGen_trace hs) mother.length _ r hr
  rw [← Option.some.inj hst]
  exact this

/-- The founder indices that a call of `crossPedigree` draws, and the final
state of its generator, are those of `founderTrace`: a function of the
generator, the founder count, the number of chromosomes and the pedigree, not of
the crossover draws and not of the order in which arguments are evaluated. -/
theorem crossPedigreeGen_trace {order : Nat → Nat → Nat → Bool} {dist : Nat → Nat → Nat × Nat}
    {seed : Nat} {founders : List Cube} {mother father : List Nat}
    {genMaps : List (List ℚ)} {recombRatio : ℚ} {draws : Nat → Nat → Nat → GameteDraws}
    {r : List Cube × Nat × List Nat}
    (h : crossPedigreeGen order dist seed founders mother father genMaps recombRatio draws
      = some r) :
    ∃ g0, founders[0]? = some g0 ∧
      r.2 = founderTrace (dist g0.n_slices) seed founders.length (mother.map uwordPred)
        (father.map uwordPred) := by
  simp only [crossPedigreeGen, Option.bind_eq_bind, Option.bind_eq_some] at h
  obtain ⟨g0, hg0, hfold⟩ := h
  refine ⟨g0, hg0, ?_⟩
  exact foldlM_range_trace _
    (fun s _ => (List.range (mother.map uwordPred).length).foldl
      (founderTraceInd (dist g0.n_slices) (mother.map uwordPred) (father.map uwordPred)) s)
    (fun s => s.2) (fun s s1 i hs => crossPedigreeChrGen_trace hs) founders.length _ r hfold

/-! ## The generator version of `crossPedigree` and the version with given founder draws -/

/-- One entry: with founder draws that are the outcomes of the generator in the
state at hand, `crossPedigreeIndGen` builds the block of `crossPedigreeInd`. -/
theorem crossPedigreeIndGen_eq (order : Nat → Nat → Bool) (gen : Nat → Nat × Nat)
    (fGeno : Cube) (mother father : List Nat) (femaleMap maleMap : List ℚ)
    (dr : Nat → Nat → GameteDraws) (fd : Nat → Nat → Nat → Nat) (st : Cube × Nat × List Nat)
    (ind : Nat)
    (h00 : fd ind 0 0 = (founderPair (order ind 0) gen (mother.getD ind 0) st.2.1).1)
    (h01 : fd ind 0 1 = (founderPair (order ind 0) gen (mother.getD ind 0) st.2.1).2.1)
    (h10 : fd ind 1 0 = (founderPair (order ind 1) gen (father.getD ind 0)
      (pairState gen (mother.getD ind 0) st.2.1)).1)
    (h11 : fd ind 1 1 = (founderPair (order ind 1) gen (father.getD ind 0)
      (pairState gen (mother.getD ind 0) st.2.1)).2.1) :
    crossPedigreeIndGen order gen fGeno mother father femaleMap maleMap dr st ind =
      (crossPedigreeInd fGeno mother father femaleMap maleMap dr fd st.1 ind).map
        fun t => (t, founderTraceInd gen mother father st.2 ind) := by
  unfold crossPedigreeIndGen crossPedigreeInd founderTraceInd
  rw [h00, h01, h10, h11]
  cases hm : mother[ind]? with
  | none => rfl
  | some m =>
    have hmD : mother.getD ind 0 = m := by rw [List.getD_eq_getElem?_getD, hm]; rfl
    rw [hmD]
    simp only [Option.bind_eq_bind, Option.some_bind, founderPair_state]
    cases pedigreeSource fGeno st.1 m (founderPair (order ind 0) gen m st.2.1).1
        (founderPair (order ind 0) gen m st.2.1).2.1 with
    | none => rfl
    | some ms =>
      simp only [Option.some_bind]
      cases bivalent ms.1 ms.2 femaleMap (dr ind 0) with
      | none => rfl
      | some female =>
        simp only [Option.some_bind]
        cases st.1.setCol ind 0 female with
        | none => rfl
        | some tmp1 =>
          simp only [Option.some_bind]
          cases hf : father[ind]? with
          | none => rfl
          | some f =>
            have hfD : father.getD ind 0 = f := by
              rw [List.getD_eq_getElem?_getD, hf]; rfl
            rw [hfD]
            simp only [Option.some_bind]
            cases pedigreeSource fGeno tmp1 f
                (founderPair (order ind 1) gen f (pairState gen m st.2.1)).1
                (founderPair (order ind 1) gen f (pairState gen m st.2.1)).2.1 with
            | none => rfl
            | some fs =>
              simp only [Option.some_bind]
              cases bivalent fs.1 fs.2 maleMap (dr ind 1) with
              | none => rfl
              | some male =>
                simp only [Option.some_bind]
                cases tmp1.setCol ind 1 male with
                | none => rfl
                | some tmp2 => rfl

theorem foldlM_range_pair {σ τ : Type} (F : σ × τ → Nat → Option (σ × τ))
    (f : σ → Nat → Option σ) (g : τ → Nat → τ) (s0 : τ) :
    ∀ (n : Nat) (c0 : σ),
      (∀ (i : Nat) (t : σ), i < n →
        F (t, (List.range i).foldl g s0) i =
          (f t i).map fun t1 => (t1, g ((List.range i).foldl g s0) i)) →
      (List.range n).foldlM F (c0, s0) =
        ((List.range n).foldlM f c0).map fun t => (t, (List.range n).foldl g s0) := by
  intro n
  induction n with
  | zero => intro c0 _; rfl
  | succ n ih =>
    intro c0 h
    rw [List.range_succ, List.foldlM_append, List.foldlM_append, List.foldl_append,
      ih c0 (fun i t hi => h i t (by omega))]
    cases (List.range n).foldlM f c0 with
    | none => rfl
    | some t =>
      simp only [Option.map_some', Option.bind_eq_bind, Option.some_bind, List.foldlM_cons,
        List.foldlM_nil, List.foldl_cons, List.foldl_nil]
      rw [h n t (by omega)]
      cases f t n with
      | none => rfl
      | some t1 => rfl

theorem foldlM_range_collect {β τ : Type} (F : List β × τ → Nat → Option (List β × τ))
    (f : Nat → Option β) (g : τ → Nat → τ) (s0 : τ) :
    ∀ (n : Nat),
      (∀ (i : Nat) (acc : List β), i < n →
        F (acc, (List.range i).foldl g s0) i =
          (f i).map fun b => (acc ++ [b], g ((List.range i).foldl g s0) i)) →
      (List.range n).foldlM F ([], s0) =
        ((List.range n).mapM f).map fun l => (l, (List.range n).foldl g s0) := by
  intro n
  induction n with
  | zero => intro _; rfl
  | succ n ih =>
    intro h
    rw [List.range_succ, List.foldlM_append, List.mapM_append, List.foldl_append,
      ih (fun i acc hi => h i acc (by omega))]
    cases (List.range n).mapM f with
    | none => rfl
    | some l =>
      simp only [Option.map_some', Option.bind_eq_bind, Option.some_bind, List.foldlM_cons,
        List.foldlM_nil, List.foldl_cons, List.foldl_nil, List.mapM_cons, List.mapM_nil]
      rw [h n l (by omega)]
      cases f n with
      | none => rfl
      | some b => rfl

/-- One chromosome: with founder draws that are the outcomes of the generator,
`crossPedigreeChrGen` appends the block of `crossPedigreeChr`. -/
theorem crossPedigreeChrGen_eq (order : Nat → Nat → Nat → Bool) (gen : Nat → Nat × Nat)
    (founders : List Cube) (mother father : List Nat) (genMaps : List (List ℚ))
    (recombRatio : ℚ) (draws : Nat → Nat → Nat → GameteDraws)
    (fdraws : Nat → Nat → Nat → Nat → Nat) (st : List Cube × Nat × List Nat) (chr : Nat)
    (hfd : ∀ ind : Nat, ind < mother.length → ∀ role k : Nat, role < 2 → k < 2 →
      fdraws chr ind role k =
        if role = 0 then
          if k = 0 then (founderPair (order chr ind 0) gen (mother.getD ind 0)
            ((List.range ind).foldl (founderTraceInd gen mother father) st.2).1).1
          else (founderPair (order chr ind 0) gen (mother.getD ind 0)
            ((List.range ind).foldl (founderTraceInd gen mother father) st.2).1).2.1
        else
          if k = 0 then (founderPair (order chr ind 1) gen (father.getD ind 0)
            (pairState gen (mother.getD ind 0)
              ((List.range ind).foldl (founderTraceInd gen mother father) st.2).1)).1
          else (founderPair (order chr ind 1) gen (father.getD ind 0)
            (pairState gen (mother.getD ind 0)
              ((List.range ind).foldl (founderTraceInd gen mother father) st.2).1)).2.1) :
    crossPedigreeChrGen order gen founders mother father genMaps recombRatio draws st chr =
      (crossPedigreeChr founders mother father genMaps recombRatio draws fdraws chr).map
        fun cube => (st.1 ++ [cube],
          (List.range mother.length).foldl (founderTraceInd gen mother father) st.2) := by
  unfold crossPedigreeChrGen crossPedigreeChr
  cases founders[chr]? with
  | none => rfl
  | some fGeno =>
    simp only [Option.bind_eq_bind, Option.some_bind]
    cases genMaps[chr]? with
    | none => rfl
    | some genMap =>
      simp only [Option.some_bind]
      have hfold := foldlM_range_pair
        (crossPedigreeIndGen (order chr) gen fGeno mother father
          (scaleMap (femaleRecRate recombRatio) genMap)
          (scaleMap (maleRecRate recombRatio) genMap) (draws chr))
        (crossPedigreeInd fGeno mother father (scaleMap (femaleRecRate recombRatio) genMap)
          (scaleMap (maleRecRate recombRatio) genMap) (draws chr) (fdraws chr))
        (founderTraceInd gen mother father) st.2 mother.length
        (Cube.fresh fGeno.n_rows 2 mother.length)
        (fun i t hi => crossPedigreeIndGen_eq (order chr) gen fGeno mother father _ _
          (draws chr) (fdraws chr)
          (t, (List.range i).foldl (founderTraceInd gen mother father) st.2) i
          (by rw [hfd i hi 0 0 (by omega) (by omega)]; rfl)
          (by rw [hfd i hi 0 1 (by omega) (by omega)]; rfl)
          (by rw [hfd i hi 1 0 (by omega) (by omega)]; rfl)
          (by rw [hfd i hi 1 1 (by omega) (by omega)]; rfl))
      have hst : (Cube.fresh fGeno.n_rows 2 mother.length, st.2.1, st.2.2)
          = (Cube.fresh fGeno.n_rows 2 mother.length, st.2) := rfl
      rw [hst, hfold]
      cases (List.range mother.length).foldlM
        (crossPedigreeInd fGeno mother father (scaleMap (femaleRecRate recombRatio) genMap)
          (scaleMap (maleRecRate recombRatio) genMap) (draws chr) (fdraws chr))
        (Cube.fresh fGeno.n_rows 2 mother.length) with
      | none => rfl
      | some cube => rfl

/-- The two embeddings of `crossPedigree` agree: the store that the version
with the generator returns is the store of `crossPedigree` for the founder
draws that the generator gives under the order of evaluation at hand, and these
do not depend on the crossover draws. -/
theorem crossPedigreeGen_eq (order : Nat → Nat → Nat → Bool) (dist : Nat → Nat → Nat × Nat)
    (seed : Nat) (founders : List Cube) (mother father : List Nat) (genMaps : List (List ℚ))
    (recombRatio : ℚ) (draws : Nat → Nat → Nat → GameteDraws) (g0 : Cube)
    (hg0 : founders[0]? = some g0) :
    (crossPedigreeGen order dist seed founders mother father genMaps recombRatio draws).map
        (fun r => r.1) =
      crossPedigree founders mother father genMaps recombRatio draws
        (genFounderDraws order (dist g0.n_slices) seed (mother.map uwordPred)
          (father.map uwordPred)) := by
  unfold crossPedigreeGen crossPedigree
  rw [hg0]
  simp only [Option.bind_eq_bind, Option.some_bind]
  have hfold := foldlM_range_collect
    (crossPedigreeChrGen order (dist g0.n_slices) founders (mother.map uwordPred)
      (father.map uwordPred) genMaps recombRatio draws)
    (crossPedigreeChr founders (mother.map uwordPred) (father.map uwordPred) genMaps
      recombRatio draws
      (genFounderDraws order (dist g0.n_slices) seed (mother.map uwordPred)
        (father.map uwordPred)))
    (fun s _ => (List.range (mother.map uwordPred).length).foldl
      (founderTraceInd (dist g0.n_slices) (mother.map uwordPred) (father.map uwordPred)) s)
    (seed, []) founders.length
    (fun i acc hi => crossPedigreeChrGen_eq order (dist g0.n_slices) founders
      (mother.map uwordPred) (father.map uwordPred) genMaps recombRatio draws _ (acc, _) i
      (fun ind hind role k hrole hk => by
        unfold genFounderDraws genStateAt founderTrace
        rfl))
  rw [hfold]
  cases (List.range founders.length).mapM
    (crossPedigreeChr founders (mother.map uwordPred) (father.map uwordPred) genMaps
      recombRatio draws
      (genFounderDraws order (dist g0.n_slices) seed (mother.map uwordPred)
        (father.map uwordPred))) with
  | none => rfl
  | some l => rfl

/-- The founder draws `stdFounderDraws` are those that the generator
`stdFounderGen` gives on a pedigree of two entries without recorded parents
when the first argument of every call is evaluated first. -/
theorem stdFounderDraws_of_generator :
    ∀ ind : Nat, ind < 2 → ∀ role : Nat, role < 2 → ∀ k : Nat, k < 2 →
      genFounderDraws leftToRight (stdFounderGen 2) minstdSeed ([0, 0].map uwordPred)
        ([0, 0].map uwordPred) 0 ind role k = stdFounderDraws 0 ind role k := by
  with_unfolding_all decide

/-! ## Claims about the founder generator of `crossPedigree` -/

/-- The founder draws of `crossPedigree` are supplied by the generator `g`
that the call constructs for itself (lines 207-210), not by the stream of the
crossover counts, positions and coins.  For every such generator and state
`seed` it starts in, two calls that return under any two outcomes `draws1`,
`draws2` of the crossover draws, and any orders of evaluation, have drawn the
same founder indices and leave `g` in the same state: those of `founderTrace`,
a function of the generator, its state, the founder count, the number of
chromosomes and the pedigree; and the store of either call is the store of
`crossPedigree` for the founder draws `genFounderDraws` that the generator
gives. -/
theorem crossPedigree_founders_ignore_stream (order1 order2 : Nat → Nat → Nat → Bool)
    (dist : Nat → Nat → Nat × Nat) (seed : Nat)
    (founders : List Cube) (mother father : List Nat) (genMaps : List (List ℚ))
    (recombRatio : ℚ) (draws1 draws2 : Nat → Nat → Nat → GameteDraws)
    (h1 : (crossPedigreeGen order1 dist seed founders mother father genMaps recombRatio
      draws1).isSome = true)
    (h2 : (crossPedigreeGen order2 dist seed founders mother father genMaps recombRatio
      draws2).isSome = true) :
    (crossPedigreeGen order1 dist seed founders mother father genMaps recombRatio draws1).map
        (fun r => r.2) =
      (crossPedigreeGen order2 dist seed founders mother father genMaps recombRatio draws2).map
        (fun r => r.2) ∧
    ∃ g0, founders[0]? = some g0 ∧
      (crossPedigreeGen order1 dist seed founders mother father genMaps recombRatio draws1).map
          (fun r => r.2) =
        some (founderTrace (dist g0.n_slices) seed founders.length (mother.map uwordPred)
          (father.map uwordPred)) ∧
      (crossPedigreeGen order1 dist seed founders mother father genMaps recombRatio draws1).map
          (fun r => r.1) =
        crossPedigree founders mother father genMaps recombRatio draws1
          (genFounderDraws order1 (dist g0.n_slices) seed (mother.map uwordPred)
            (father.map uwordPred)) ∧
      (crossPedigreeGen order2 dist seed founders mother father genMaps recombRatio draws2).map
          (fun r => r.1) =
        crossPedigree founders mother father genMaps recombRatio draws2
          (genFounderDraws order2 (dist g0.n_slices) seed (mother.map uwordPred)
            (father.map uwordPred)) := by
  obtain ⟨r1, hr1⟩ := Option.isSome_iff_exists.mp h1
  obtain ⟨r2, hr2⟩ := Option.isSome_iff_exists.mp h2
  obtain ⟨g1, hg1, e1⟩ := crossPedigreeGen_trace hr1
  obtain ⟨g2, hg2, e2⟩ := crossPedigreeGen_trace hr2
  have hgg : g2 = g1 := by
    rw [hg1] at hg2
    exact (Option.some.inj hg2).symm
  subst hgg
  refine ⟨by rw [hr1, hr2, Option.map_some', Option.map_some', e1, e2], g2, hg1,
    by rw [hr1, Option.map_some', e1],
    crossPedigreeGen_eq order1 dist seed founders mother father genMaps recombRatio draws1 g2
      hg1,
    crossPedigreeGen_eq order2 dist seed founders mother father genMaps recombRatio draws2 g2
      hg1⟩

/-- C24 (evaluation at the failing input): the pedigree of two entries without
recorded parents over the two founders of `founderCube`, the generator `g` as
line 208 constructs it (a `std::minstd_rand` in its default state, libstdc++).
Whatever the outcomes of the crossover counts, positions and coins are, and in
whichever order the arguments of a call are evaluated, every call that returns
has drawn the founders `0 0 1 1 1 0 1 0`: a call with one crossover in every
gamete and a call without any crossover, which differ in nothing but the
outcomes of the shared stream, select the same founders, while their gametes
differ (maternal homolog of entry 1: `10` and `00` with the first argument
evaluated first, `01` and `11` with the second argument first).  The stream
that supplies the crossover draws does not supply the founder draws. -/
theorem crossPedigree_founders_same_across_streams :
    (∀ (order : Nat → Nat → Nat → Bool) (draws : Nat → Nat → Nat → GameteDraws)
      (r : List Cube × Nat × List Nat),
      crossPedigreeGen order stdFounderGen minstdSeed [founderCube] [0, 0] [0, 0] [[0, 1]] 1
        draws = some r →
      r.2.2 = [0, 0, 1, 1, 1, 0, 1, 0]) ∧
    ((crossPedigreeGen leftToRight stdFounderGen minstdSeed [founderCube] [0, 0] [0, 0]
        [[0, 1]] 1 crossoverDraws).map (fun r => r.2.2) = some [0, 0, 1, 1, 1, 0, 1, 0] ∧
      (crossPedigreeGen leftToRight stdFounderGen minstdSeed [founderCube] [0, 0] [0, 0]
        [[0, 1]] 1 plainDraws).map (fun r => r.2.2) = some [0, 0, 1, 1, 1, 0, 1, 0] ∧
      ((crossPedigreeGen leftToRight stdFounderGen minstdSeed [founderCube] [0, 0] [0, 0]
        [[0, 1]] 1 crossoverDraws).bind fun r => r.1[0]?.bind fun o => o.col 1 0)
        = some [some 1, some 0] ∧
      ((crossPedigreeGen leftToRight stdFounderGen minstdSeed [founderCube] [0, 0] [0, 0]
        [[0, 1]] 1 plainDraws).bind fun r => r.1[0]?.bind fun o => o.col 1 0)
        = some [some 0, some 0]) ∧
    ((crossPedigreeGen rightToLeft stdFounderGen minstdSeed [founderCube] [0, 0] [0, 0]
        [[0, 1]] 1 crossoverDraws).map (fun r => r.2.2) = some [0, 0, 1, 1, 1, 0, 1, 0] ∧
      (crossPedigreeGen rightToLeft stdFounderGen minstdSeed [founderCube] [0, 0] [0, 0]
        [[0, 1]] 1 plainDraws).map (fun r => r.2.2) = some [0, 0, 1, 1, 1, 0, 1, 0] ∧
      ((crossPedigreeGen rightToLeft stdFounderGen minstdSeed [founderCube] [0, 0] [0, 0]
        [[0, 1]] 1 crossoverDraws).bind fun r => r.1[0]?.bind fun o => o.col 1 0)
        = some [some 0, some 1] ∧
      ((crossPedigreeGen rightToLeft stdFounderGen minstdSeed [founderCube] [0, 0] [0, 0]
        [[0, 1]] 1 plainDraws).bind fun r => r.1[0]?.bind fun o => o.col 1 0)
        = some [some 1, some 1]) := by
  refine ⟨fun order draws r h => ?_,
    ⟨by with_unfolding_all decide, by with_unfolding_all decide,
      by with_unfolding_all decide, by with_unfolding_all decide⟩,
    ⟨by with_unfolding_all decide, by with_unfolding_all decide,
      by with_unfolding_all decide, by with_unfolding_all decide⟩⟩
  obtain ⟨g0, hg0, e⟩ := crossPedigreeGen_trace h
  have hg : g0 = founderCube := by
    simp only [List.getElem?_cons_zero, Option.some.injEq] at hg0
    exact hg0.symm
  subst hg
  have ht : (founderTrace (stdFounderGen founderCube.n_slices) minstdSeed [founderCube].length
      ([0, 0].map uwordPred) ([0, 0].map uwordPred)).2 = [0, 0, 1, 1, 1, 0, 1, 0] := by
    with_unfolding_all decide
  rw [← ht, ← e]

/-! ## Facts about the concrete inputs -/

theorem unitMap_fits : MapFits 2 [0, 1] := by
  unfold MapFits
  with_unfolding_all decide

theorem demoStore_shape : StoreShape [demoCube] 2 := by
  unfold StoreShape
  with_unfolding_all decide

theorem founderStore_shape : StoreShape [founderCube] 2 := by
  unfold StoreShape
  with_unfolding_all decide

theorem singleBlock_mapsFit (g : Cube) (hg : g.n_rows = 2) : MapsFit [g] [[0, 1]] := by
  refine ⟨rfl, fun chr g1 x h1 h2 => ?_⟩
  cases chr with
  | zero =>
    simp only [List.getElem?_cons_zero, Option.some.injEq] at h1 h2
    rw [← h1, ← h2, hg]
    exact unitMap_fits
  | succ n => simp at h1

theorem demoDraws_unit : ∀ chr ind k : Nat, UnitDraws (demoDraws chr ind k) := by
  intro chr ind k u hu
  unfold demoDraws at hu
  split at hu
  · rw [List.mem_singleton.mp hu]
    constructor <;> norm_num
  · cases hu

theorem crossoverDraws_unit : ∀ chr ind k : Nat, UnitDraws (crossoverDraws chr ind k) := by
  intro chr ind k u hu
  rw [List.mem_singleton.mp hu]
  constructor <;> norm_num

theorem stdFounderDraws_lt : ∀ chr ind role k : Nat, stdFounderDraws chr ind role k < 2 := by
  intro chr ind role k
  unfold stdFounderDraws
  rw [List.getD_eq_getElem?_getD]
  cases h : ([0, 0, 1, 1, 1, 0, 1, 0] : List Nat)[4 * ind + 2 * role + k]? with
  | none => decide
  | some v =>
    have hmem := List.getElem?_mem h
    simp only [List.mem_cons, List.mem_singleton, List.not_mem_nil, or_false] at hmem
    simp only [Option.getD_some]
    omega

theorem founderCube_written : ∀ g ∈ [founderCube], Written g := by
  intro g hg r k s _ _ _
  rw [List.mem_singleton.mp hg]
  unfold founderCube
  simp only []
  split <;> rfl

theorem earlierRefs_zero_one : EarlierRefs [0, 1] := by
  intro i v h
  match i, h with
  | 0, h =>
    simp only [List.getElem?_cons_zero, Option.some.injEq] at h
    subst h
    exact ⟨le_refl _, Nat.two_pow_pos _⟩
  | 1, h =>
    simp only [List.getElem?_cons_succ, List.getElem?_cons_zero, Option.some.injEq] at h
    subst h
    exact ⟨le_refl _, by unfold uwordBits; decide⟩
  | n + 2, h => simp at h

theorem earlierRefs_zero_zero : EarlierRefs [0, 0] := by
  intro i v h
  match i, h with
  | 0, h =>
    simp only [List.getElem?_cons_zero, Option.some.injEq] at h
    subst h
    exact ⟨le_refl _, Nat.two_pow_pos _⟩
  | 1, h =>
    simp only [List.getElem?_cons_succ, List.getElem?_cons_zero, Option.some.injEq] at h
    subst h
    exact ⟨by omega, Nat.two_pow_pos _⟩
  | n + 2, h => simp at h

theorem parentIndices_small (idx : List Nat) (h : ∀ m ∈ idx, 1 ≤ m ∧ m ≤ 2) :
    ParentIndices idx 2 := by
  intro m hm
  obtain ⟨h1, h2⟩ := h m hm
  refine ⟨h1, h2, lt_of_le_of_lt h2 ?_⟩
  unfold uwordBits
  decide

theorem pedigreeRefs_small (refs : List Nat) (n : Nat) (hn : n ≤ 2) (h : ∀ m ∈ refs, m ≤ n) :
    PedigreeRefs refs n := by
  intro m hm
  have h1 := h m hm
  refine ⟨h1, lt_of_le_of_lt (le_trans h1 hn) ?_⟩
  unfold uwordBits
  decide

theorem demoCube_written : ∀ g ∈ [demoCube], Written g := by
  intro g hg r k s _ _ _
  rw [List.mem_singleton.mp hg]
  unfold demoCube
  simp only []
  split <;> split <;> rfl

/-! ## Witnesses -/

/-- Witness for C26: two crossovers on three loci. -/
theorem bivalent_writes_once_witness :
    (1 ≤ zeros3.length ∧ ones3.length = zeros3.length ∧
      ([0, 1 / 2, 1] : List ℚ).length = zeros3.length ∧
      ([0, 1 / 2, 1] : List ℚ).Sorted (· ≤ ·) ∧
      ∀ p ∈ crossoverPositions (posAt [0, 1 / 2, 1] ((zeros3.length : Int) - 1))
        twoCrossovers.randu, posAt [0, 1 / 2, 1] 0 ≤ p) ∧
    bivalent zeros3 ones3 [0, 1 / 2, 1] twoCrossovers = some [some 0, some 1, some 0] ∧
    ∃ (g : List Cell) (log : GameteLog),
      bivalentLog zeros3 ones3 [0, 1 / 2, 1] twoCrossovers = some (g, log) ∧
      bivalent zeros3 ones3 [0, 1 / 2, 1] twoCrossovers = some g ∧
      g.length = zeros3.length ∧
      ∀ j : Nat, j < zeros3.length →
        spanCount log.writes j = 1 ∧ (g[j]? = zeros3[j]? ∨ g[j]? = ones3[j]?) :=
  ⟨⟨by decide, by decide, by decide, by with_unfolding_all decide,
      by with_unfolding_all decide⟩,
    by with_unfolding_all decide,
    bivalent_writes_once zeros3 ones3 [0, 1 / 2, 1] twoCrossovers (by decide) (by decide)
      (by decide) (by with_unfolding_all decide) (by with_unfolding_all decide)⟩

/-- Witness for C23: two crossovers on three loci at map position 0 (and the
same on a single locus with the map `[0]`). -/
theorem bivalent_degenerate_map_witness :
    (1 ≤ zeros3.length ∧ ones3.length = zeros3.length ∧
      ([0, 0, 0] : List ℚ).length = zeros3.length ∧ ∀ y ∈ ([0, 0, 0] : List ℚ), y = 0) ∧
    bivalentLog zeros3 ones3 [0, 0, 0] twoCrossovers
      = some (zeros3, ⟨[2, 2], [(0, 0), (1, 2)]⟩) ∧
    bivalentLog [some 0] [some 1] [0] twoCrossovers = some ([some 0], ⟨[0, 0], [(0, 0)]⟩) ∧
    (∀ p ∈ crossoverPositions (posAt [0, 0, 0] ((zeros3.length : Int) - 1))
      twoCrossovers.randu, p = 0) ∧
    ∃ log : GameteLog,
      bivalentLog zeros3 ones3 [0, 0, 0] twoCrossovers
        = some (startChr zeros3 ones3 twoCrossovers.coin, log) ∧
      log.searches.length = twoCrossovers.randu.length ∧ (∀ e ∈ log.searches, e ≠ -1) ∧
      bivalent zeros3 ones3 [0, 0, 0] twoCrossovers
        = some (startChr zeros3 ones3 twoCrossovers.coin) ∧
      bivalent zeros3 ones3 [0, 0, 0] ⟨[], twoCrossovers.coin⟩
        = some (startChr zeros3 ones3 twoCrossovers.coin) :=
  ⟨⟨by decide, by decide, by decide, by with_unfolding_all decide⟩,
    by with_unfolding_all decide, by with_unfolding_all decide,
    bivalent_degenerate_map zeros3 ones3 [0, 0, 0] twoCrossovers (by decide) (by decide)
      (by decide) (by with_unfolding_all decide)⟩

/-- Witness for C22: the one-block store `demoCube` of two individuals:
`cross2` with the parents 1 x 2 and 2 x 1 from the same store, `createDH2` with
two replicates, `crossPedigree` with one founder offspring and one offspring of
that entry and a founder. -/
theorem engines_keep_store_shape_witness :
    (StoreShape [demoCube] 2 ∧ MapsFit [demoCube] [[0, 1]] ∧ (0 : ℚ) < 1 ∧
      (∀ chr ind k : Nat, UnitDraws (demoDraws chr ind k))) ∧
    (StoreShape [demoCube] 2 ∧ [demoCube].length = [demoCube].length ∧
      ParentIndices [1, 2] 2 ∧ ParentIndices [2, 1] 2 ∧ [2, 1].length = [1, 2].length) ∧
    (0 < [demoCube].length ∧ (0 : Int) ≤ 2) ∧
    (PedigreeRefs [0, 1] [0, 1].length ∧ PedigreeRefs [0, 0] [0, 1].length ∧
      [0, 0].length = [0, 1].length ∧
      ∀ chr ind role k : Nat, stdFounderDraws chr ind role k < 2) ∧
    (∃ out, cross2 [demoCube] [1, 2] [demoCube] [2, 1] [[0, 1]] 1 demoDraws = some out ∧
      ShapedLike [demoCube] out [1, 2].length) ∧
    (∃ out, createDH2 [demoCube] 2 [[0, 1]] 1 true demoDraws = some out ∧
      ShapedLike [demoCube] out (2 * (2 : Int).toNat)) ∧
    (∃ out, crossPedigree [demoCube] [0, 1] [0, 0] [[0, 1]] 1 demoDraws stdFounderDraws
        = some out ∧
      ShapedLike [demoCube] out [0, 1].length) := by
  have h := engines_keep_store_shape [demoCube] 2 [[0, 1]] 1 demoDraws demoStore_shape
    (singleBlock_mapsFit demoCube rfl) (by norm_num) demoDraws_unit
  have hm : ParentIndices [1, 2] 2 := parentIndices_small _ (by decide)
  have hf : ParentIndices [2, 1] 2 := parentIndices_small _ (by decide)
  have hpm : PedigreeRefs [0, 1] [0, 1].length := pedigreeRefs_small _ _ (by decide) (by decide)
  have hpf : PedigreeRefs [0, 0] [0, 1].length := pedigreeRefs_small _ _ (by decide) (by decide)
  exact ⟨⟨demoStore_shape, singleBlock_mapsFit demoCube rfl, by norm_num, demoDraws_unit⟩,
    ⟨demoStore_shape, rfl, hm, hf, rfl⟩, ⟨by decide, by decide⟩,
    ⟨hpm, hpf, rfl, stdFounderDraws_lt⟩,
    h.1 [demoCube] 2 [1, 2] [2, 1] demoStore_shape rfl
      (fun chr g1 g2 h1 h2 => by rw [h1] at h2; rw [Option.some.inj h2]) hm hf rfl,
    h.2.1 2 true (by decide) (by decide),
    h.2.2 [0, 1] [0, 0] stdFounderDraws (by decide) hpm hpf rfl stdFounderDraws_lt⟩

/-- Witness for C27: two founders `00 | 00` and `11 | 11`, a first entry
without recorded parents and a second entry whose mother is the first entry and
whose father is not recorded; one crossover in every gamete. -/
theorem crossPedigree_traces_to_founders_witness :
    (StoreShape [founderCube] 2 ∧ 0 < [founderCube].length ∧
      (∀ g ∈ [founderCube], Written g) ∧ EarlierRefs [0, 1] ∧ EarlierRefs [0, 0] ∧
      [0, 0].length = [0, 1].length ∧ MapsFit [founderCube] [[0, 1]] ∧ (0 : ℚ) < 1 ∧
      (∀ chr ind role : Nat, UnitDraws (crossoverDraws chr ind role)) ∧
      ∀ chr ind role k : Nat, stdFounderDraws chr ind role k < 2) ∧
    ∃ out, crossPedigree [founderCube] [0, 1] [0, 0] [[0, 1]] 1 crossoverDraws stdFounderDraws
        = some out ∧
      out.length = [founderCube].length ∧
      ∀ chr : Nat, chr < [founderCube].length →
        ∃ fGeno o, [founderCube][chr]? = some fGeno ∧ out[chr]? = some o ∧
          ∀ i : Nat, i < [0, 1].length → ∀ h : Nat, h < 2 → ∀ j : Nat, j < fGeno.n_rows →
            ∃ (f h2 a : Nat), f < 2 ∧ h2 < 2 ∧ o.cell j h i = some a ∧
              fGeno.cell j h2 f = some a :=
  ⟨⟨founderStore_shape, by decide, founderCube_written, earlierRefs_zero_one,
      earlierRefs_zero_zero, rfl, singleBlock_mapsFit founderCube rfl, by norm_num,
      crossoverDraws_unit, stdFounderDraws_lt⟩,
    crossPedigree_traces_to_founders [founderCube] 2 [0, 1] [0, 0] [[0, 1]] 1 crossoverDraws
      stdFounderDraws founderStore_shape (by decide) founderCube_written earlierRefs_zero_one
      earlierRefs_zero_zero rfl (singleBlock_mapsFit founderCube rfl) (by norm_num)
      crossoverDraws_unit stdFounderDraws_lt⟩

/-- Witness for C28: the homolog `00` under one crossover, and two doubled
haploids of the homozygous individual `11 | 11` of `founderCube`. -/
theorem homozygous_breeds_true_witness :
    (StoreShape [founderCube] 2 ∧ 0 < [founderCube].length ∧ (0 : Int) ≤ 2 ∧
      MapsFit [founderCube] [[0, 1]] ∧ (0 : ℚ) < 1 ∧
      (∀ chr ind rep : Nat, UnitDraws (crossoverDraws chr ind rep))) ∧
    (1 ≤ [some 0, some 0].length ∧ ([0, 1] : List ℚ).length = [some 0, some 0].length ∧
      ([0, 1] : List ℚ).Sorted (· ≤ ·) ∧
      (∀ p ∈ crossoverPositions (posAt [0, 1] (([some 0, some 0].length : Int) - 1))
        (crossoverDraws 0 0 0).randu, posAt [0, 1] 0 ≤ p)) ∧
    bivalent [some 0, some 0] [some 0, some 0] [0, 1] (crossoverDraws 0 0 0)
      = some [some 0, some 0] ∧
    (founderCube.col 1 0 = founderCube.col 1 1) ∧
    ∃ out, createDH2 [founderCube] 2 [[0, 1]] 1 true crossoverDraws = some out ∧
      ∃ o homolog, out[0]? = some o ∧ founderCube.col 1 0 = some homolog ∧
        ∀ rep : Nat, rep < (2 : Int).toNat →
          o.col (rep + 1 * (2 : Int).toNat) 0 = some homolog ∧
          o.col (rep + 1 * (2 : Int).toNat) 1 = some homolog := by
  have h := homozygous_breeds_true [founderCube] 2 2 [[0, 1]] 1 true crossoverDraws
    founderStore_shape (by decide) (by decide) (singleBlock_mapsFit founderCube rfl)
    (by norm_num) crossoverDraws_unit
  have hpos : ∀ p ∈ crossoverPositions (posAt [0, 1] (([some 0, some 0].length : Int) - 1))
      (crossoverDraws 0 0 0).randu, posAt [0, 1] 0 ≤ p := by
    with_unfolding_all decide
  have hsorted : ([0, 1] : List ℚ).Sorted (· ≤ ·) := by with_unfolding_all decide
  have hhom : founderCube.col 1 0 = founderCube.col 1 1 := by with_unfolding_all decide
  obtain ⟨out, hout, hrep⟩ := h.2
  exact ⟨⟨founderStore_shape, by decide, by decide, singleBlock_mapsFit founderCube rfl,
      by norm_num, crossoverDraws_unit⟩,
    ⟨by decide, by decide, hsorted, hpos⟩,
    h.1 [some 0, some 0] [0, 1] (crossoverDraws 0 0 0) (by decide) (by decide) hsorted hpos,
    hhom, out, hout, hrep 0 1 founderCube rfl (by decide) hhom⟩

/-- Witness for C6: two doubled haploids from each of the two individuals of
`demoCube`, `00 | 11` and `01 | 10`; the first replicate of individual 0 has a
crossover and is `01 | 01`. -/
theorem createDH2_homozygous_witness :
    (StoreShape [demoCube] 2 ∧ 0 < [demoCube].length ∧ (0 : Int) ≤ 2 ∧
      MapsFit [demoCube] [[0, 1]] ∧ (0 : ℚ) < 1 ∧
      (∀ chr ind rep : Nat, UnitDraws (demoDraws chr ind rep)) ∧
      ∀ g ∈ [demoCube], Written g) ∧
    ((createDH2 [demoCube] 2 [[0, 1]] 1 true demoDraws).bind fun out =>
      out[0]?.bind fun o => o.col 0 0) = some [some 0, some 1] ∧
    ((createDH2 [demoCube] 2 [[0, 1]] 1 true demoDraws).bind fun out =>
      out[0]?.bind fun o => o.col 0 1) = some [some 0, some 1] ∧
    ∃ output, createDH2 [demoCube] 2 [[0, 1]] 1 true demoDraws = some output ∧
      (output.length = [demoCube].length ∧
        ∀ c : Nat, c < [demoCube].length →
          ∃ cube g genMap, output[c]? = some cube ∧ [demoCube][c]? = some g ∧
            [[(0 : ℚ), 1]][c]? = some genMap ∧ cube.n_rows = g.n_rows ∧ cube.n_cols = 2 ∧
            ∀ t : Nat, t < cube.n_slices →
              (∃ c0 c1 gamete, g.col (t / (2 : Int).toNat) 0 = some c0 ∧
                g.col (t / (2 : Int).toNat) 1 = some c1 ∧
                bivalent c0 c1
                  (scaleMap (if true = true then femaleRecRate 1 else maleRecRate 1) genMap)
                  (demoDraws c (t / (2 : Int).toNat) (t % (2 : Int).toNat)) = some gamete ∧
                cube.col t 0 = some gamete ∧ cube.col t 1 = some gamete) ∧
              ∀ locus : Nat, locus < cube.n_rows →
                cube.cell locus 0 t = cube.cell locus 1 t) ∧
      ∀ c : Nat, c < [demoCube].length →
        ∃ cube g, output[c]? = some cube ∧ [demoCube][c]? = some g ∧
          cube.n_rows = g.n_rows ∧ cube.n_slices = 2 * (2 : Int).toNat ∧
          ∀ t : Nat, t < 2 * (2 : Int).toNat → ∀ locus : Nat, locus < g.n_rows →
            ∃ a : Nat, cube.cell locus 0 t = some a ∧ cube.cell locus 1 t = some a ∧
              (g.cell locus 0 (t / (2 : Int).toNat) = some a ∨
                g.cell locus 1 (t / (2 : Int).toNat) = some a) := by
  have h := createDH2_homozygous [demoCube] 2 [[0, 1]] 1 true demoDraws
  obtain ⟨output, hout, _, hcells⟩ := h.2 2 demoStore_shape (by decide) (by decide)
    (singleBlock_mapsFit demoCube rfl) (by norm_num) demoDraws_unit demoCube_written
  exact ⟨⟨demoStore_shape, by decide, by decide, singleBlock_mapsFit demoCube rfl, by norm_num,
      demoDraws_unit, demoCube_written⟩,
    by with_unfolding_all decide, by with_unfolding_all decide,
    output, hout, h.1 output hout, hcells⟩

/-- Witness for C15: two founders `00 | 00` and `11 | 11`; entry 0 has no
recorded parent (references 0) and is `00 | 11`, entry 1 has entry 0 as mother
and as father (references 1) and is `01 | 01`, and its result is the same when
every founder draw of entry 1 is replaced by the number 7, which is no founder. -/
theorem crossPedigree_sentinel_witness :
    ((∀ v ∈ [0, 1], v < 2 ^ uwordBits) ∧ StoreShape [founderCube] 2 ∧
      0 < [founderCube].length ∧ PedigreeRefs [0, 1] [0, 1].length ∧
      [0, 1].length = [0, 1].length ∧ MapsFit [founderCube] [[0, 1]] ∧ (0 : ℚ) < 1 ∧
      (∀ chr ind role : Nat, UnitDraws (crossoverDraws chr ind role)) ∧
      ∀ chr ind role k : Nat, stdFounderDraws chr ind role k < 2) ∧
    (uwordPred 0 = 2 ^ uwordBits - 1 ∧ uwordPred 0 = uwordOfInt (-1) ∧
      uwordPred 1 = 1 - 1 ∧ uwordPred 1 ≠ uwordOfInt (-1)) ∧
    (∃ out fGeno o genMap,
      crossPedigree [founderCube] [0, 1] [0, 1] [[0, 1]] 1 crossoverDraws stdFounderDraws
        = some out ∧
      [founderCube][0]? = some fGeno ∧ out[0]? = some o ∧ [[(0 : ℚ), 1]][0]? = some genMap ∧
      (∃ c0 c1 gamete, fGeno.col (stdFounderDraws 0 0 0 0) 0 = some c0 ∧
        fGeno.col (stdFounderDraws 0 0 0 1) 1 = some c1 ∧
        bivalent c0 c1 (scaleMap (femaleRecRate 1) genMap) (crossoverDraws 0 0 0)
          = some gamete ∧
        o.col 0 0 = some gamete) ∧
      (∃ c0 c1 gamete, fGeno.col (stdFounderDraws 0 0 1 0) 0 = some c0 ∧
        fGeno.col (stdFounderDraws 0 0 1 1) 1 = some c1 ∧
        bivalent c0 c1 (scaleMap (maleRecRate 1) genMap) (crossoverDraws 0 0 1)
          = some gamete ∧
        o.col 0 1 = some gamete) ∧
      (∃ c0 c1 gamete, o.col (1 - 1) 0 = some c0 ∧ o.col (1 - 1) 1 = some c1 ∧
        bivalent c0 c1 (scaleMap (femaleRecRate 1) genMap) (crossoverDraws 0 1 0)
          = some gamete ∧
        o.col 1 0 = some gamete) ∧
      (∃ c0 c1 gamete, o.col (1 - 1) 0 = some c0 ∧ o.col (1 - 1) 1 = some c1 ∧
        bivalent c0 c1 (scaleMap (maleRecRate 1) genMap) (crossoverDraws 0 1 1)
          = some gamete ∧
        o.col 1 1 = some gamete)) ∧
    crossPedigree [founderCube] [0, 1] [0, 1] [[0, 1]] 1 crossoverDraws
        (fun c i role k => if i = 1 then 7 else stdFounderDraws c i role k) =
      crossPedigree [founderCube] [0, 1] [0, 1] [[0, 1]] 1 crossoverDraws stdFounderDraws ∧
    ((crossPedigree [founderCube] [0, 1] [0, 1] [[0, 1]] 1 crossoverDraws stdFounderDraws).bind
      fun out => out[0]?.bind fun o => o.col 0 0) = some [some 0, some 0] ∧
    ((crossPedigree [founderCube] [0, 1] [0, 1] [[0, 1]] 1 crossoverDraws stdFounderDraws).bind
      fun out => out[0]?.bind fun o => o.col 0 1) = some [some 1, some 1] ∧
    ((crossPedigree [founderCube] [0, 1] [0, 1] [[0, 1]] 1 crossoverDraws stdFounderDraws).bind
      fun out => out[0]?.bind fun o => o.col 1 0) = some [some 0, some 1] ∧
    ((crossPedigree [founderCube] [0, 1] [0, 1] [[0, 1]] 1 crossoverDraws stdFounderDraws).bind
      fun out => out[0]?.bind fun o => o.col 1 1) = some [some 0, some 1] := by
  have hw : ∀ v ∈ [0, 1], v < 2 ^ uwordBits := by
    unfold uwordBits
    decide
  have hp : PedigreeRefs [0, 1] [0, 1].length := pedigreeRefs_small _ _ (by decide) (by decide)
  obtain ⟨hA, hB, hC, hD⟩ := crossPedigree_sentinel [founderCube] [0, 1] [0, 1] [[0, 1]] 1
    crossoverDraws stdFounderDraws hw hw
  obtain ⟨out, hout⟩ := Option.isSome_iff_exists.mp
    (hD 2 founderStore_shape (by decide) hp hp rfl (singleBlock_mapsFit founderCube rfl)
      (by norm_num) crossoverDraws_unit stdFounderDraws_lt)
  obtain ⟨fGeno, o, genMap, hg, ho, hx, hent⟩ := (hB out hout).2 0 (by decide)
  have hsame : ∀ c i k : Nat, [0, 1][i]? = some 0 →
      (fun (c i role k : Nat) => if i = 1 then 7 else stdFounderDraws c i role k) c i 0 k
        = stdFounderDraws c i 0 k ∧
      (fun (c i role k : Nat) => if i = 1 then 7 else stdFounderDraws c i role k) c i 1 k
        = stdFounderDraws c i 1 k := by
    intro c i k hi
    have hne : i ≠ 1 := by
      intro h1
      subst h1
      simp at hi
    simp only [if_neg hne, and_self]
  exact ⟨⟨hw, founderStore_shape, by decide, hp, rfl, singleBlock_mapsFit founderCube rfl,
      by norm_num, crossoverDraws_unit, stdFounderDraws_lt⟩,
    ⟨hA.1, hA.2.1, (hA.2.2 1 (by decide) (by unfold uwordBits; decide)).1,
      (hA.2.2 1 (by decide) (by unfold uwordBits; decide)).2⟩,
    ⟨out, fGeno, o, genMap, hout, hg, ho, hx,
      ((hent 0 (by decide) 0).1 (by decide)).1 rfl,
      ((hent 0 (by decide) 0).2 (by decide)).1 rfl,
      ((hent 1 (by decide) 1).1 (by decide)).2 (by decide) (by decide),
      ((hent 1 (by decide) 1).2 (by decide)).2 (by decide) (by decide)⟩,
    hC _ (fun c i k hi => (hsame c i k hi).1) (fun c i k hi => (hsame c i k hi).2),
    by with_unfolding_all decide, by with_unfolding_all decide, by with_unfolding_all decide,
    by with_unfolding_all decide⟩

/-- The theorem `crossPedigree_founders_ignore_stream` at two calls on the
founders of `founderCube`, one with a crossover in every gamete and one
without any. -/
theorem crossPedigree_founders_ignore_stream_witness :
    ((crossPedigreeGen rightToLeft stdFounderGen minstdSeed [founderCube] [0, 0] [0, 0]
        [[0, 1]] 1 crossoverDraws).isSome = true ∧
      (crossPedigreeGen rightToLeft stdFounderGen minstdSeed [founderCube] [0, 0] [0, 0]
        [[0, 1]] 1 plainDraws).isSome = true) ∧
    (crossPedigreeGen rightToLeft stdFounderGen minstdSeed [founderCube] [0, 0] [0, 0]
        [[0, 1]] 1 crossoverDraws).map (fun r => r.2) =
      (crossPedigreeGen rightToLeft stdFounderGen minstdSeed [founderCube] [0, 0] [0, 0]
        [[0, 1]] 1 plainDraws).map (fun r => r.2) ∧
    ∃ g0, [founderCube][0]? = some g0 ∧
      (crossPedigreeGen rightToLeft stdFounderGen minstdSeed [founderCube] [0, 0] [0, 0]
          [[0, 1]] 1 crossoverDraws).map (fun r => r.2) =
        some (founderTrace (stdFounderGen g0.n_slices) minstdSeed [founderCube].length
          ([0, 0].map uwordPred) ([0, 0].map uwordPred)) ∧
      (crossPedigreeGen rightToLeft stdFounderGen minstdSeed [founderCube] [0, 0] [0, 0]
          [[0, 1]] 1 crossoverDraws).map (fun r => r.1) =
        crossPedigree [founderCube] [0, 0] [0, 0] [[0, 1]] 1 crossoverDraws
          (genFounderDraws rightToLeft (stdFounderGen g0.n_slices) minstdSeed
            ([0, 0].map uwordPred) ([0, 0].map uwordPred)) ∧
      (crossPedigreeGen rightToLeft stdFounderGen minstdSeed [founderCube] [0, 0] [0, 0]
          [[0, 1]] 1 plainDraws).map (fun r => r.1) =
        crossPedigree [founderCube] [0, 0] [0, 0] [[0, 1]] 1 plainDraws
          (genFounderDraws rightToLeft (stdFounderGen g0.n_slices) minstdSeed
            ([0, 0].map uwordPred) ([0, 0].map uwordPred)) :=
  ⟨⟨by with_unfolding_all decide, by with_unfolding_all decide⟩,
    crossPedigree_founders_ignore_stream rightToLeft rightToLeft stdFounderGen minstdSeed
      [founderCube] [0, 0] [0, 0] [[0, 1]] 1 crossoverDraws plainDraws
      (by with_unfolding_all decide) (by with_unfolding_all decide)⟩

end AlphaSimR
